import Mathlib

/-! # lightweight_htmlparser_cpp: the parsing core of `parser.cpp`

A shallow embedding of `HTMLNode` and `HTMLParser` from `src/parser.cpp`, followed by
theorems about it.

Conventions of the embedding.

* `std::string` is `List Char`; `push_back` appends one character at the end.
* `size_t` fields (`readingPos`, `line`, `colmn` and the three `old*` fields) are natural
  numbers below `SIZE_MOD = 2 ^ 64`; every increment and decrement is written with an
  explicit `% SIZE_MOD`, so the wrap-around of `--readingPos` at `0` is part of the model.
* `int parserState` is an `Int`; the `size_t` parameter of `parsingError` and the
  conversion back to `int` are the functions `toSizeT` and `toInt`.
* A node is a value: `HTMLNode.mk tag textContent attribs children`.  The parser only ever
  holds the node it is filling and appends freshly created children to it, so the
  `parent` pointer is the tree structure itself.  A child is filled through its pointer
  after it has been appended; in the value model the filled child is the one stored in
  the parent's `children`.
* `appendNode` and `removeNode` as methods of any node, with their pointer tests, are
  modelled apart on a memory `Heap` that maps each address to a node object, whose
  `children` and `parent` are addresses.
* The `while` loops over the buffer are recursive functions on a step counter.  The
  scanning loops get exactly `rawLen - readingPos` steps, which they can never exceed.
  `parseInternal`, whose loop and recursion are interleaved, returns `none` when the
  counter runs out; `parse` supplies `rawLen + 2`, proved enough for every buffer.
  `parseInternalBody` is one pass through the body of that loop.
-/

namespace HtmlParser

/-- Text of a `std::string`. -/
abbrev CString := List Char

/-- Modulus of `size_t` arithmetic. -/
def SIZE_MOD : Nat := 2 ^ 64

/-- The `char` that `readChar` returns for `-1` (byte `0xFF`). -/
def EOF_CHAR : Char := Char.ofNat 255

/-- Conversion of an `int` argument to the `size_t` parameter of `parsingError`. -/
def toSizeT (c : Int) : Nat := (c % (SIZE_MOD : Int)).toNat

/-- Conversion of a `size_t` to `int` (32-bit two's complement). -/
def toInt (n : Nat) : Int := ((n : Int) + 2 ^ 31) % 2 ^ 32 - 2 ^ 31

/-- Outcome of `Utils::readFile`. -/
inductive fs_status_enum where
  | FSU_SUCCESS
  | FSU_ERR
  deriving DecidableEq

/-- Class `HTMLNode`: `tag`, `textContent`, `attribs`, `children`. -/
inductive HTMLNode where
  | mk (tag : CString) (textContent : CString) (attribs : List (CString × CString))
      (children : List HTMLNode) : HTMLNode

namespace HTMLNode

/-- Method `HTMLNode::tagName`. -/
def tagName : HTMLNode → CString
  | mk t _ _ _ => t

/-- Method `HTMLNode::getTextContent`. -/
def getTextContent : HTMLNode → CString
  | mk _ x _ _ => x

/-- Field `attribs`. -/
def attribs : HTMLNode → List (CString × CString)
  | mk _ _ a _ => a

/-- Field `children`. -/
def children : HTMLNode → List HTMLNode
  | mk _ _ _ cs => cs

/-- Method `HTMLNode::create`: the default constructor. -/
def create : HTMLNode := mk [] [] [] []

/-- Method `HTMLNode::setTagName`. -/
def setTagName : HTMLNode → CString → HTMLNode
  | mk _ x a cs, name => mk name x a cs

/-- Method `HTMLNode::setTextContent`. -/
def setTextContent : HTMLNode → CString → HTMLNode
  | mk t _ a cs, content => mk t content a cs

/-- Method `HTMLNode::appendNode` for a child created by the parser: its parent is already this
node, so the call is `children.push_back(child)`. -/
def appendNode : HTMLNode → HTMLNode → HTMLNode
  | mk t x a cs, child => mk t x a (cs ++ [child])

/-- Method `HTMLNode::childrenCount`. -/
def childrenCount (n : HTMLNode) : Nat := n.children.length

end HTMLNode

/-- An `HTMLNode` object in memory: its members, a pointer `HTMLNode*` being an address or
null (`none`). -/
structure NodeObj where
  tag : CString
  textContent : CString
  attribs : List (CString × CString)
  children : List Nat
  parent : Option Nat

/-- The memory: the `HTMLNode` object at each address. -/
abbrev Heap := Nat → NodeObj

namespace Heap

/-- Assignment of the object at the address `a`. -/
def set (h : Heap) (a : Nat) (v : NodeObj) : Heap := fun b => if b = a then v else h b

/-- Method `HTMLNode::removeNode` of the object at `this`: the pointer returned and the new
memory.  The loop erases the first element of `children` equal to `child`. -/
def removeNode (h : Heap) (this : Nat) (child : Option Nat) : Option Nat × Heap :=
  match child with
  | none => (none, h)
  | some c =>
    let h1 := h.set c { h c with parent := none }
    (some c, h1.set this { h1 this with children := (h1 this).children.erase c })

/-- The first statement of `HTMLNode::appendNode`:
`if (child->parent != this && child->parent != nullptr) child->parent->removeNode(child);`,
the test being the match on `child->parent`. -/
def detach (h : Heap) (this c : Nat) : Heap :=
  match (h c).parent with
  | some par => if par ≠ this then (removeNode h par (some c)).2 else h
  | none => h

/-- Method `HTMLNode::appendNode` of the object at `this`: the pointer returned and the new
memory. -/
def appendNode (h : Heap) (this : Nat) (child : Option Nat) : Option Nat × Heap :=
  match child with
  | none => (none, h)
  | some c =>
    let h1 := detach h this c
    let h2 := h1.set this { h1 this with children := (h1 this).children ++ [c] }
    (some c, h2.set c { h2 c with parent := some this })

end Heap

/-- Class `HTMLParser`. -/
structure HTMLParser where
  filepath : CString
  htmlRawDocument : CString
  sourceLoaded : Bool
  root : Option HTMLNode
  readingPos : Nat
  line : Nat
  colmn : Nat
  oldLine : Nat
  oldColmn : Nat
  oldReadingPos : Nat
  parserState : Int

namespace HTMLParser

/-- The constructor `HTMLParser(std::string fp)` with the default member initialisers. -/
def new (fp : CString) : HTMLParser :=
  { filepath := fp, htmlRawDocument := [], sourceLoaded := false, root := none,
    readingPos := 0, line := 0, colmn := 0, oldLine := 0, oldColmn := 0,
    oldReadingPos := 0, parserState := 0 }

/-- Method `rawLen`. -/
def rawLen (p : HTMLParser) : Nat := p.htmlRawDocument.length

/-- Method `available`. -/
def available (p : HTMLParser) : Bool := decide (p.readingPos < p.rawLen)

/-- Method `badState`. -/
def badState (p : HTMLParser) : Bool := decide (p.parserState ≠ 0)

/-- Method `state`. -/
def state (p : HTMLParser) : Int := p.parserState

/-- Method `currentLine`. -/
def currentLine (p : HTMLParser) : Int := toInt ((p.line + 1) % SIZE_MOD)

/-- Method `currentCol`. -/
def currentCol (p : HTMLParser) : Int := toInt p.colmn

/-- Method `LogError`: prints the diagnostic and returns `state()`. -/
def LogError (p : HTMLParser) : Int := p.state

/-- Method `__pushResetState`. -/
def pushResetState__ (p : HTMLParser) : HTMLParser :=
  if ¬ p.badState then
    { p with oldLine := p.line, oldColmn := p.colmn, oldReadingPos := p.readingPos }
  else p

/-- Method `pushResetState`. -/
def pushResetState (p : HTMLParser) : HTMLParser := p.pushResetState__

/-- Method `popResetState`. -/
def popResetState (p : HTMLParser) : HTMLParser :=
  { p with line := p.oldLine, colmn := p.oldColmn, readingPos := p.oldReadingPos }

/-- Method `reset`. -/
def reset (p : HTMLParser) : HTMLParser :=
  pushResetState__ { p with line := 0, colmn := 0, readingPos := 0 }

/-- Method `parsingError(size_t code)`: returns the code and the new state. -/
def parsingError (p : HTMLParser) (code : Nat) : Int × HTMLParser :=
  (toInt code, { p.popResetState with parserState := toInt code })

/-- Method `readChar(bool advance)`: the character read and the new state. -/
def readChar (p : HTMLParser) (advance : Bool) : Char × HTMLParser :=
  if ¬ p.available then (EOF_CHAR, p)
  else
    let c := p.htmlRawDocument.getD p.readingPos EOF_CHAR
    if advance then
      if c = '\n' then
        (c, { p with readingPos := (p.readingPos + 1) % SIZE_MOD,
                     line := (p.line + 1) % SIZE_MOD, colmn := 0 })
      else
        (c, { p with readingPos := (p.readingPos + 1) % SIZE_MOD,
                     colmn := (p.colmn + 1) % SIZE_MOD })
    else (c, p)

/-- The loop `while (available() && readChar() != ch);` of `skipUntil`. -/
def skipUntilLoop : Nat → HTMLParser → Char → HTMLParser
  | 0, p, _ => p
  | k + 1, p, ch =>
    if p.available then
      let r := p.readChar true
      if r.1 ≠ ch then skipUntilLoop k r.2 ch else r.2
    else p

/-- Method `skipUntil`. -/
def skipUntil (p : HTMLParser) (ch : Char) : HTMLParser :=
  skipUntilLoop (p.rawLen - p.readingPos) p ch

/-- The loop `while (available() && readChar() == ch);` of `skipUntilNot`. -/
def skipUntilNotLoop : Nat → HTMLParser → Char → HTMLParser
  | 0, p, _ => p
  | k + 1, p, ch =>
    if p.available then
      let r := p.readChar true
      if r.1 = ch then skipUntilNotLoop k r.2 ch else r.2
    else p

/-- Method `skipUntilNot`: the loop, then `--readingPos` on the unsigned cursor. -/
def skipUntilNot (p : HTMLParser) (ch : Char) : HTMLParser :=
  let p1 := skipUntilNotLoop (p.rawLen - p.readingPos) p ch
  { p1 with readingPos := (p1.readingPos + SIZE_MOD - 1) % SIZE_MOD }

/-- Method `putback`: `readingPos -= size`; the test `readingPos < 0` is never true of a
`size_t`, so its branch is dead. -/
def putback (p : HTMLParser) (size : Nat) : HTMLParser :=
  { p with readingPos := (p.readingPos + SIZE_MOD - size % SIZE_MOD) % SIZE_MOD }

/-- Method `skipEmptyChars`. -/
def skipEmptyChars (p : HTMLParser) : HTMLParser :=
  let p1 := if (p.readChar false).1 = ' ' then p.skipUntilNot ' ' else p
  if (p1.readChar false).1 = '\n' then p1.skipUntilNot '\n' else p1

/-- Method `parseChildrenOf`. -/
def parseChildrenOf (p : HTMLParser) (_node : HTMLNode) : Int :=
  if p.badState then p.parserState else 0

/-- The `while` loop of `parseTextContent`, on the local `content`. -/
def parseTextContentLoop : Nat → HTMLParser → CString → CString × HTMLParser
  | 0, p, content => (content, p)
  | k + 1, p, content =>
    if p.available then
      let r := p.readChar true
      if r.1 = '<' then (content, r.2.putback 1)
      else if r.1 = '\n' then parseTextContentLoop k r.2 content
      else parseTextContentLoop k r.2 (content ++ [r.1])
    else (content, p)

/-- Method `parseTextContent` on a non-null node: return code, new state, updated node. -/
def parseTextContent (p : HTMLParser) (node : HTMLNode) : Int × HTMLParser × HTMLNode :=
  if p.badState then (p.parserState, p, node)
  else
    let r := parseTextContentLoop (p.rawLen - p.readingPos) p node.getTextContent
    (0, r.2, node.setTextContent r.1)

/-- The `while` loop of `parseTagName`, on the local `result`; when the loop is left
`tagName = result` has been assigned on every path. -/
def parseTagNameLoop : Nat → HTMLParser → CString → CString × HTMLParser
  | 0, p, result => (result, p)
  | k + 1, p, result =>
    if p.available then
      let r := p.readChar true
      let ch := r.1
      let tagNameParsed : Bool := decide (ch = '>' ∨ ch = ' ' ∨ ch = '\n')
      let p2 := if (ch = ' ' ∨ ch = '\n') ∧ tagNameParsed = true then r.2.skipUntil '>'
                else r.2
      if tagNameParsed then (result, p2)
      else parseTagNameLoop k p2 (result ++ [ch])
    else (result, p)

/-- Method `parseTagName`: return code (always `0`), the scanned name, the new state. -/
def parseTagName (p : HTMLParser) : Int × CString × HTMLParser :=
  let p1 := p.pushResetState
  let r := parseTagNameLoop (p1.rawLen - p1.readingPos) p1 []
  (0, r.1, r.2)

/-- Method `readClosingTag`. -/
def readClosingTag (p : HTMLParser) : Int × CString × HTMLParser := p.parseTagName

/-- Method `parseTag` on a non-null node: return code, new state, updated node. -/
def parseTag (p : HTMLParser) (result : HTMLNode) : Int × HTMLParser × HTMLNode :=
  if p.badState then (p.parserState, p, result)
  else
    let p1 := p.pushResetState
    let r := p1.parseTagName
    if r.1 ≠ 0 then
      let e := r.2.2.parsingError (toSizeT r.1)
      (e.1, e.2, result)
    else (0, r.2.2, result.setTagName r.2.1)

mutual

/-- Method `parseInternal`: return code, new state, updated node; `none` when the step counter
runs out. -/
def parseInternal : Nat → HTMLParser → HTMLNode → Option (Int × HTMLParser × HTMLNode)
  | 0, _, _ => none
  | k + 1, p, node =>
    if p.badState then some (p.parserState, p, node)
    else parseInternalLoop k p.skipEmptyChars node false

/-- The `while (available())` loop of `parseInternal`, with the local `firstCharFound`. -/
def parseInternalLoop :
    Nat → HTMLParser → HTMLNode → Bool → Option (Int × HTMLParser × HTMLNode)
  | 0, _, _, _ => none
  | k + 1, p, node, firstCharFound =>
    if p.available then
      let r := p.readChar true
      if r.1 = '<' then
        let p1 := r.2.skipEmptyChars
        if ¬ p1.available then some (0, p1, node)
        else
          let r2 := p1.readChar true
          if r2.1 = '/' then
            let c := r2.2.readClosingTag
            if c.2.1 ≠ node.tagName then
              let e := c.2.2.parsingError (toSizeT (-2))
              some (e.1, e.2, node)
            else some (0, c.2.2, node)
          else
            let p2 := r2.2.putback 1
            let t := p2.parseTag HTMLNode.create
            (parseInternal k t.2.1 t.2.2).bind fun s =>
              if s.2.1.badState then some (s.2.1.LogError, s.2.1, node.appendNode s.2.2)
              else parseInternalLoop k s.2.1 (node.appendNode s.2.2) firstCharFound
      else
        let p1 := r.2.putback 1
        if ¬ firstCharFound then
          let t := p1.parseTextContent node
          parseInternalLoop k t.2.1 t.2.2 true
        else
          let t := p1.skipEmptyChars.parseTextContent node
          parseInternalLoop k t.2.1 t.2.2 true
    else some (0, p, node)

end

/-- One pass through the body of the `while (available())` loop of `parseInternal`, entered
with a character available: `Sum.inl` is a `return` of the function, `Sum.inr` holds the
state, the node and `firstCharFound` with which the loop test is evaluated again. -/
def parseInternalBody (k : Nat) (p : HTMLParser) (node : HTMLNode) (firstCharFound : Bool) :
    Option ((Int × HTMLParser × HTMLNode) ⊕ (HTMLParser × HTMLNode × Bool)) :=
  let r := p.readChar true
  if r.1 = '<' then
    let p1 := r.2.skipEmptyChars
    if ¬ p1.available then some (Sum.inl (0, p1, node))
    else
      let r2 := p1.readChar true
      if r2.1 = '/' then
        let c := r2.2.readClosingTag
        if c.2.1 ≠ node.tagName then
          let e := c.2.2.parsingError (toSizeT (-2))
          some (Sum.inl (e.1, e.2, node))
        else some (Sum.inl (0, c.2.2, node))
      else
        let p2 := r2.2.putback 1
        let t := p2.parseTag HTMLNode.create
        (parseInternal k t.2.1 t.2.2).bind fun s =>
          if s.2.1.badState then some (Sum.inl (s.2.1.LogError, s.2.1, node.appendNode s.2.2))
          else some (Sum.inr (s.2.1, node.appendNode s.2.2, firstCharFound))
  else
    let p1 := r.2.putback 1
    if ¬ firstCharFound then
      let t := p1.parseTextContent node
      some (Sum.inr (t.2.1, t.2.2, true))
    else
      let t := p1.skipEmptyChars.parseTextContent node
      some (Sum.inr (t.2.1, t.2.2, true))

/-- Method `parse`, with `Utils::readFile` as the parameter `readFile`.  The member `root` is
assigned the fresh node before `parseInternal(root)` runs and holds the filled node when
it returns. -/
def parse (readFile : CString → CString × fs_status_enum) (p : HTMLParser) :
    Option HTMLParser :=
  let f := readFile p.filepath
  if ¬ p.sourceLoaded ∧ f.2 ≠ fs_status_enum.FSU_SUCCESS then
    some { p with htmlRawDocument := f.1 }
  else
    let p1 : HTMLParser :=
      if ¬ p.sourceLoaded then { p with htmlRawDocument := f.1, sourceLoaded := true } else p
    let p2 : HTMLParser := { p1.reset with root := some HTMLNode.create }
    (parseInternal (p2.rawLen + 2) p2 HTMLNode.create).map fun s =>
      { s.2.1 with root := some s.2.2 }

/-- A parser constructed on a file whose read succeeds with `buf`, then `parse()`. -/
def parseBuffer (buf : CString) : Option HTMLParser :=
  parse (fun _ => (buf, fs_status_enum.FSU_SUCCESS)) (HTMLParser.new [])

end HTMLParser

open HTMLParser

/-! ## Predicates used by the statements -/

/-- The state `q` is `p` read further: same buffer and error code, cursor not before that of `p` and
inside the buffer. -/
structure Fwd (p q : HTMLParser) : Prop where
  doc : q.htmlRawDocument = p.htmlRawDocument
  st : q.parserState = p.parserState
  le : p.readingPos ≤ q.readingPos
  bound : q.readingPos ≤ q.htmlRawDocument.length

/-- The buffer fits a `size_t` length and the cursor is inside it. -/
structure InBuf (p : HTMLParser) : Prop where
  fits : p.htmlRawDocument.length < SIZE_MOD
  bound : p.readingPos ≤ p.htmlRawDocument.length


/-- What a run of `parseInternal` from `p` guarantees about its result `r`. -/
structure RunOk (p : HTMLParser) (r : Int × HTMLParser × HTMLNode) : Prop where
  doc : r.2.1.htmlRawDocument = p.htmlRawDocument
  code : r.1 = r.2.1.parserState
  fwd : r.2.1.parserState = 0 → Fwd p r.2.1

/-- The cursor view of a parser state without error: the buffer is `pre ++ rest`, the
cursor stands right after `pre`, and the buffer has a length that fits `size_t`. -/
structure Cur (p : HTMLParser) (pre rest : CString) : Prop where
  doc : p.htmlRawDocument = pre ++ rest
  pos : p.readingPos = pre.length
  ok : p.parserState = 0
  fits : (pre ++ rest).length < SIZE_MOD

/-- What `skipEmptyChars` leaves unread of the input `x`: the leading spaces are dropped,
then the leading newlines. -/
def afterEmptyChars (x : CString) : CString :=
  (x.dropWhile (fun c => c == ' ')).dropWhile (fun c => c == '\n')

/-- What `skipEmptyChars` consumes of the input `x`. -/
def emptyChars (x : CString) : CString :=
  x.takeWhile (fun c => c == ' ') ++
    (x.dropWhile (fun c => c == ' ')).takeWhile (fun c => c == '\n')

/-- The characters that end a tag name: `>`, space and newline. -/
def isNameEnd (c : Char) : Bool := c == '>' || c == ' ' || c == '\n'

/-- The longest prefix of `x` without a character that ends a name. -/
def scanName (x : CString) : CString := x.takeWhile (fun c => !isNameEnd c)

/-- What the scanner does from the terminator `y` on: the characters consumed and the ones
left.  A `>` is consumed alone; a space or newline is consumed with everything up to and
including the next `>`. -/
def scanTail : CString → CString × CString
  | [] => ([], [])
  | t :: more =>
    if t = '>' then ([t], more)
    else (t :: (more.takeWhile (fun c => c != '>') ++
            (more.dropWhile (fun c => c != '>')).take 1),
          (more.dropWhile (fun c => c != '>')).drop 1)

/-- The characters `parseTagName` consumes of the input `x`. -/
def scanned (x : CString) : CString :=
  scanName x ++ (scanTail (x.dropWhile (fun c => !isNameEnd c))).1

/-- The characters `parseTagName` leaves of the input `x`. -/
def unscanned (x : CString) : CString :=
  (scanTail (x.dropWhile (fun c => !isNameEnd c))).2

/-- A name: non-empty, without `<`, `>`, `/`, space or newline. -/
def IsName (n : CString) : Prop :=
  n ≠ [] ∧ ∀ c ∈ n, c ≠ '<' ∧ c ≠ '>' ∧ c ≠ '/' ∧ c ≠ ' ' ∧ c ≠ '\n'

/-- A text: without `<` or newline, not starting with a space. -/
def IsText (t : CString) : Prop :=
  (∀ c ∈ t, c ≠ '<' ∧ c ≠ '\n') ∧ t.head? ≠ some ' '

mutual

/-- Serialisation of an element: `<n>`, its text, its children, `</n>`. -/
def serialise : HTMLNode → CString
  | HTMLNode.mk n t _ cs => ['<'] ++ n ++ ['>'] ++ t ++ serialiseForest cs ++ ['<', '/'] ++ n ++ ['>']

/-- Serialisation of a forest: the concatenation of its elements. -/
def serialiseForest : List HTMLNode → CString
  | [] => []
  | c :: cs => serialise c ++ serialiseForest cs

end

mutual

/-- An element whose tag is a name, whose text is a text, without attributes, and whose
children are such elements. -/
def WellFormed : HTMLNode → Prop
  | HTMLNode.mk n t a cs => IsName n ∧ IsText t ∧ a = [] ∧ WellFormedForest cs

/-- A forest of well-formed elements. -/
def WellFormedForest : List HTMLNode → Prop
  | [] => True
  | c :: cs => WellFormed c ∧ WellFormedForest cs

end

/-- The tree builder, started in its loop on the serialisation of the forest `cs`, comes
back to its loop after it with `cs` appended to the children of the node. -/
def ForestLoop (cs : List HTMLNode) : Prop :=
  ∀ (pre rest : CString) (p : HTMLParser) (k : Nat) (tg tx : CString)
    (at_ : List (CString × CString)) (ch : List HTMLNode) (f : Bool),
    Cur p pre (serialiseForest cs ++ rest) → (serialiseForest cs ++ rest).length + 1 ≤ k →
    ∃ k2 q, Cur q (pre ++ serialiseForest cs) rest ∧ rest.length + 1 ≤ k2 ∧
      parseInternalLoop k p (HTMLNode.mk tg tx at_ ch) f =
        parseInternalLoop k2 q (HTMLNode.mk tg tx at_ (ch ++ cs)) f

/-- The state in which `parse` calls `parseInternal` on a parser without error, of empty
file path, whose buffer is `buf`: the state after `reset()` and `root = HTMLNode::create()`. -/
def startState (buf : CString) : HTMLParser :=
  { filepath := [], htmlRawDocument := buf, sourceLoaded := true,
    root := some HTMLNode.create, readingPos := 0, line := 0, colmn := 0, oldLine := 0,
    oldColmn := 0, oldReadingPos := 0, parserState := 0 }

mutual

/-- All the nodes of a tree, the node itself first. -/
def HTMLNode.nodes : HTMLNode → List HTMLNode
  | HTMLNode.mk t x a cs => HTMLNode.mk t x a cs :: nodesOfList cs

/-- All the nodes of the trees of a list. -/
def nodesOfList : List HTMLNode → List HTMLNode
  | [] => []
  | c :: cs => c.nodes ++ nodesOfList cs

end

/-- Everything but the cursor (`readingPos`, `line`, `colmn`) is the same in `q` as in
`p`. -/
structure Kept (p q : HTMLParser) : Prop where
  filepath : q.filepath = p.filepath
  doc : q.htmlRawDocument = p.htmlRawDocument
  loaded : q.sourceLoaded = p.sourceLoaded
  root : q.root = p.root
  oldLine : q.oldLine = p.oldLine
  oldColmn : q.oldColmn = p.oldColmn
  oldPos : q.oldReadingPos = p.oldReadingPos
  st : q.parserState = p.parserState

/-- The members that parsing never writes are the same in `q` as in `p`. -/
structure Static (p q : HTMLParser) : Prop where
  filepath : q.filepath = p.filepath
  doc : q.htmlRawDocument = p.htmlRawDocument
  loaded : q.sourceLoaded = p.sourceLoaded
  root : q.root = p.root

/-- A parser state with the error code `-2` set, on the buffer `a>`, cursor at 0. -/
def stuckState : HTMLParser :=
  { startState ['a', '>'] with parserState := -2 }

/-- The grammar of the markup: `Content := Text | Element`,
`Element := '<' Name (junk-until '>') Content* '</' Name '>'`. -/
inductive Content where
  | text (t : CString) : Content
  | element (name junk : CString) (body : List Content) : Content

mutual

/-- The characters of a content item. -/
def render : Content → CString
  | Content.text t => t
  | Content.element n j body => ['<'] ++ n ++ j ++ ['>'] ++ renderAll body ++ ['<', '/'] ++ n ++ ['>']

/-- The characters of a sequence of content items. -/
def renderAll : List Content → CString
  | [] => []
  | c :: cs => render c ++ renderAll cs

end

mutual

/-- The number of opening tags of a content item. -/
def openingTags : Content → Nat
  | Content.text _ => 0
  | Content.element _ _ body => 1 + openingTagsAll body

/-- The number of opening tags of a sequence of content items. -/
def openingTagsAll : List Content → Nat
  | [] => 0
  | c :: cs => openingTags c + openingTagsAll cs

end

/-- Junk between a tag name and `>`: nothing, or a space or newline followed by characters
other than `>`. -/
def IsJunk (j : CString) : Prop :=
  (j = [] ∨ j.head? = some ' ' ∨ j.head? = some '\n') ∧ ∀ c ∈ j, c ≠ '>'

mutual

/-- A content item of the grammar: a text is a run of characters other than `<`; the tag
of an element is a name, followed by junk, and its body is made of such items. -/
def Grammatical : Content → Prop
  | Content.text t => ∀ c ∈ t, c ≠ '<'
  | Content.element n j body => IsName n ∧ IsJunk j ∧ GrammaticalAll body

/-- A sequence of content items of the grammar. -/
def GrammaticalAll : List Content → Prop
  | [] => True
  | c :: cs => Grammatical c ∧ GrammaticalAll cs

end

/-- The tree builder, in its loop inside the leading text of `t ++ renderAll cs ++ rest`,
comes back to its loop at `rest`, with the tag of the node unchanged and one node more
per opening tag of `cs`. -/
def GrammarLoop (cs : List Content) : Prop :=
  ∀ (a b t rest pre : CString) (p : HTMLParser) (k : Nat) (node : HTMLNode) (f : Bool),
    (∀ d ∈ a, d ≠ '<') → (∀ d ∈ t, d ≠ '<') → a ++ b = t ++ (renderAll cs ++ rest) →
    (rest = [] ∨ ∃ y, rest = '<' :: y) → Cur p pre b → b.length + 1 ≤ k →
    ∃ k2 q pre2 node2 f2, Cur q pre2 rest ∧ rest.length + 1 ≤ k2 ∧
      parseInternalLoop k p node f = parseInternalLoop k2 q node2 f2 ∧
      node2.tagName = node.tagName ∧
      node2.nodes.length = node.nodes.length + openingTagsAll cs

/-- The cut of a buffer into `u` and `v` falls inside the name of a closing tag: `u` ends
with `</` followed by characters other than `>`, and `v` starts with a character other
than `>`. -/
def CutInClosingName (u v : CString) : Prop :=
  ∃ w m c v2, u = w ++ '<' :: '/' :: m ∧ (∀ d ∈ m, d ≠ '>') ∧ v = c :: v2 ∧ c ≠ '>'

/-- The tree builder, in its loop inside the leading text of `t ++ u`, where `u` is the
part of `renderAll cs` before a cut that is not inside a closing name and the buffer ends
after `u`, runs to the end of the buffer and returns `0`. -/
def TruncLoop (cs : List Content) : Prop :=
  ∀ (a b t u v pre : CString) (p : HTMLParser) (k : Nat) (node : HTMLNode) (f : Bool),
    (∀ d ∈ a, d ≠ '<') → (∀ d ∈ t, d ≠ '<') → renderAll cs = u ++ v → v ≠ [] →
    ¬ CutInClosingName u v → a ++ b = t ++ u → Cur p pre b → b.length + 1 ≤ k →
    ∃ q pre2 node2, parseInternalLoop k p node f = some (0, q, node2) ∧ Cur q pre2 []

/-- A parser state with the error code `-2` set and the checkpoint `(8, 0, 10)`: the state
in which the parse of `<a><b></a></b>` ends. -/
def failedState : HTMLParser :=
  { startState "<a><b></a></b>".toList with
    root := some (HTMLNode.mk [] [] [] [HTMLNode.mk ['a'] [] [] [HTMLNode.mk ['b'] [] [] []]]),
    readingPos := 8, colmn := 10, oldColmn := 10, oldReadingPos := 8, parserState := -2 }

/-- The state `p` with its error code replaced by `s`. -/
def withState (p : HTMLParser) (s : Int) : HTMLParser := { p with parserState := s }

/-- No character of `t` is a newline or `<`. -/
def PlainText (t : CString) : Prop := ∀ c ∈ t, c ≠ '\n' ∧ c ≠ '<'

/-- The state in which `parseInternal` returns when the closing tag whose `/` is the next
character of `p1` names another tag than the node: the `/` is read, `readClosingTag`
scans the name, `parsingError(-2)` rolls back. -/
def rejectAt (p1 : HTMLParser) : HTMLParser :=
  ((p1.readChar true).2.readClosingTag.2.2.parsingError (toSizeT (-2))).2

/-- The state `q` is the rejection of a closing tag whose `/` was read, without error until
then, at a state `p1` at least one character after the cursor of `p`. -/
def Rejected (p q : HTMLParser) : Prop :=
  ∃ p1 : HTMLParser, Fwd p p1 ∧ p.readingPos + 1 ≤ p1.readingPos ∧ p1.parserState = 0 ∧
    p1.available = true ∧ (p1.readChar true).1 = '/' ∧ q = rejectAt p1

/-- What a run from the state `p`, which has no error, guarantees about the state `q` it
ends in: without error `q` is `p` read further, with an error `q` is the rejection of a
closing tag read after `p`. -/
structure Outcome (p q : HTMLParser) : Prop where
  ok : q.parserState = 0 → Fwd p q
  err : q.parserState ≠ 0 → Rejected p q

/-- The parser state in which a pass through the loop body ends. -/
def stepState :
    (Int × HTMLParser × HTMLNode) ⊕ (HTMLParser × HTMLNode × Bool) → HTMLParser :=
  Sum.elim (fun r => r.2.1) (fun c => c.1)

/-- The state `q` is on the buffer `buf`, its cursor inside the buffer and not before the
cursor of `p`. -/
def Within (buf : CString) (p q : HTMLParser) : Prop :=
  q.htmlRawDocument = buf ∧ p.readingPos ≤ q.readingPos ∧ q.readingPos ≤ buf.length

/-- The 1-based line of the offset `o` of `buf`: 1 plus the number of newlines before
`o`. -/
def lineOf (buf : CString) (o : Nat) : Int := 1 + ((buf.take o).count '\n' : Nat)

/-- The 0-based column of the offset `o` of `buf`: the number of characters between the
last newline before `o`, or the start of the buffer, and `o`. -/
def colOf (buf : CString) (o : Nat) : Int :=
  (((buf.take o).reverse.takeWhile (fun c => c != '\n')).length : Nat)

/-- The memory in which no node has a child or a parent. -/
def emptyHeap : Heap := fun _ =>
  { tag := [], textContent := [], attribs := [], children := [], parent := none }

/-- Parent/children consistency of a memory: every node `c` listed in the children of `x`
has parent `x`, is listed in the children of no other node, and is listed only once. -/
def Consistent (h : Heap) : Prop :=
  ∀ x c, c ∈ (h x).children →
    (h c).parent = some x ∧ (∀ y, c ∈ (h y).children → y = x) ∧ (h x).children.count c = 1

/-! ## The cursor and the scanning primitives -/

theorem Fwd.refl {p : HTMLParser} (h : InBuf p) : Fwd p p :=
  ⟨rfl, rfl, le_refl _, h.bound⟩

theorem Fwd.trans {p q r : HTMLParser} (h1 : Fwd p q) (h2 : Fwd q r) : Fwd p r :=
  ⟨h2.doc.trans h1.doc, h2.st.trans h1.st, le_trans h1.le h2.le, h2.bound⟩

theorem Fwd.inBuf {p q : HTMLParser} (h : InBuf p) (h1 : Fwd p q) : InBuf q :=
  ⟨by rw [h1.doc]; exact h.fits, h1.bound⟩

theorem available_iff (p : HTMLParser) :
    p.available = true ↔ p.readingPos < p.htmlRawDocument.length := by
  simp [available, rawLen]

theorem available_false_iff (p : HTMLParser) :
    p.available = false ↔ p.htmlRawDocument.length ≤ p.readingPos := by
  simp [available, rawLen]

theorem readChar_false_snd (p : HTMLParser) : (p.readChar false).2 = p := by
  unfold readChar
  split <;> rfl

theorem readChar_fst_eq (p : HTMLParser) (a : Bool) (h : p.available = true) :
    (p.readChar a).1 = p.htmlRawDocument.getD p.readingPos EOF_CHAR := by
  unfold readChar
  simp only [h]
  cases a
  · simp
  · simp
    split <;> rfl

theorem readChar_pos (p : HTMLParser) (hf : p.htmlRawDocument.length < SIZE_MOD)
    (h : p.available = true) : (p.readChar true).2.readingPos = p.readingPos + 1 := by
  have hlt : (p.readingPos + 1) % SIZE_MOD = p.readingPos + 1 := by
    apply Nat.mod_eq_of_lt
    rw [available_iff] at h
    omega
  unfold readChar
  simp only [h]
  simp
  split <;> simp [hlt]

theorem readChar_doc (p : HTMLParser) (a : Bool) :
    (p.readChar a).2.htmlRawDocument = p.htmlRawDocument := by
  unfold readChar
  split
  · rfl
  · simp only []
    split
    · split <;> rfl
    · rfl

theorem readChar_state (p : HTMLParser) (a : Bool) :
    (p.readChar a).2.parserState = p.parserState := by
  unfold readChar
  split
  · rfl
  · simp only []
    split
    · split <;> rfl
    · rfl

theorem readChar_fwd {p : HTMLParser} (h : InBuf p) (ha : p.available = true) :
    Fwd p (p.readChar true).2 := by
  have hp := readChar_pos p h.fits ha
  refine ⟨readChar_doc p true, readChar_state p true, by omega, ?_⟩
  rw [readChar_doc, hp]
  rw [available_iff] at ha
  omega

theorem readChar_false_space {p : HTMLParser} {c : Char} (hc : c ≠ EOF_CHAR)
    (h : (p.readChar false).1 = c) : p.available = true := by
  by_contra hn
  have hn2 : p.available = false := by simpa using hn
  unfold readChar at h
  simp [hn2] at h
  exact hc h.symm

theorem one_lt_size : 1 < SIZE_MOD := by
  unfold SIZE_MOD
  norm_num

theorem one_mod_size : 1 % SIZE_MOD = 1 := Nat.mod_eq_of_lt one_lt_size

theorem dec_mod {n : Nat} (h1 : 1 ≤ n) (h2 : n ≤ SIZE_MOD) :
    (n + SIZE_MOD - 1) % SIZE_MOD = n - 1 := by
  have hS := one_lt_size
  generalize SIZE_MOD = M at *
  have e : n + M - 1 = (n - 1) + M := by omega
  rw [e, Nat.add_mod_right]
  apply Nat.mod_eq_of_lt
  omega

theorem putback_doc (p : HTMLParser) (n : Nat) :
    (p.putback n).htmlRawDocument = p.htmlRawDocument := rfl

theorem putback_state (p : HTMLParser) (n : Nat) :
    (p.putback n).parserState = p.parserState := rfl

theorem putback_one_pos (p : HTMLParser) (h1 : 1 ≤ p.readingPos)
    (h2 : p.readingPos ≤ SIZE_MOD) : (p.putback 1).readingPos = p.readingPos - 1 := by
  show (p.readingPos + SIZE_MOD - 1 % SIZE_MOD) % SIZE_MOD = p.readingPos - 1
  rw [one_mod_size]
  exact dec_mod h1 h2

theorem readChar_putback_pos {p : HTMLParser} (h : InBuf p) (ha : p.available = true) :
    ((p.readChar true).2.putback 1).readingPos = p.readingPos := by
  have hp := readChar_pos p h.fits ha
  rw [putback_one_pos _ (by omega), hp]
  · simp
  · rw [hp]
    have := h.fits
    have := h.bound
    rw [available_iff] at ha
    omega

theorem readChar_putback_fwd {p : HTMLParser} (h : InBuf p) (ha : p.available = true) :
    Fwd p ((p.readChar true).2.putback 1) := by
  refine ⟨?_, ?_, ?_, ?_⟩
  · rw [putback_doc, readChar_doc]
  · rw [putback_state, readChar_state]
  · rw [readChar_putback_pos h ha]
  · rw [readChar_putback_pos h ha, putback_doc, readChar_doc]
    exact h.bound

theorem skipUntilLoop_fwd (ch : Char) :
    ∀ (k : Nat) (p : HTMLParser), InBuf p → Fwd p (skipUntilLoop k p ch) := by
  intro k
  induction k with
  | zero => intro p h; exact Fwd.refl h
  | succ k ih =>
    intro p h
    unfold skipUntilLoop
    by_cases ha : p.available = true
    · have h1 := readChar_fwd h ha
      simp only [ha, if_true]
      split
      · exact h1.trans (ih _ (h1.inBuf h))
      · exact h1
    · simp only [ha]
      exact Fwd.refl h

theorem skipUntil_fwd (ch : Char) {p : HTMLParser} (h : InBuf p) :
    Fwd p (p.skipUntil ch) := skipUntilLoop_fwd ch _ p h

theorem skipUntilNotLoop_fwd (ch : Char) :
    ∀ (k : Nat) (p : HTMLParser), InBuf p →
      Fwd p (skipUntilNotLoop k p ch) ∧
      (1 ≤ k → p.available = true → p.readingPos + 1 ≤ (skipUntilNotLoop k p ch).readingPos) := by
  intro k
  induction k with
  | zero => intro p h; exact ⟨Fwd.refl h, by omega⟩
  | succ k ih =>
    intro p h
    unfold skipUntilNotLoop
    by_cases ha : p.available = true
    · have h1 := readChar_fwd h ha
      have hp := readChar_pos p h.fits ha
      simp only [ha, if_true]
      split
      · have h2 := (ih _ (h1.inBuf h)).1
        exact ⟨h1.trans h2, fun _ _ => by have := h2.le; omega⟩
      · exact ⟨h1, fun _ _ => by omega⟩
    · exact ⟨by simp only [ha]; exact Fwd.refl h, fun _ hh => absurd hh ha⟩

theorem skipUntilNot_fwd (ch : Char) {p : HTMLParser} (h : InBuf p)
    (ha : p.available = true) : Fwd p (p.skipUntilNot ch) := by
  have hk : 1 ≤ p.rawLen - p.readingPos := by
    rw [available_iff] at ha
    unfold rawLen
    omega
  obtain ⟨h1, h2⟩ := skipUntilNotLoop_fwd ch (p.rawLen - p.readingPos) p h
  have h3 := h2 hk ha
  unfold skipUntilNot
  generalize skipUntilNotLoop (p.rawLen - p.readingPos) p ch = q at *
  have hb := h1.bound
  rw [h1.doc] at hb
  have e := dec_mod (n := q.readingPos) (by omega) (le_of_lt (lt_of_le_of_lt hb h.fits))
  refine ⟨h1.doc, h1.st, ?_, ?_⟩
  · show p.readingPos ≤ _ % SIZE_MOD
    rw [e]
    omega
  · show _ % SIZE_MOD ≤ q.htmlRawDocument.length
    rw [e, h1.doc]
    omega

theorem skipEmptyChars_fwd {p : HTMLParser} (h : InBuf p) : Fwd p p.skipEmptyChars := by
  have key : ∀ (c : Char) (q : HTMLParser), c ≠ EOF_CHAR → Fwd p q →
      Fwd p (if (q.readChar false).1 = c then q.skipUntilNot c else q) := by
    intro c q hc hq
    split
    · rename_i hh
      exact hq.trans (skipUntilNot_fwd c (hq.inBuf h) (readChar_false_space hc hh))
    · exact hq
  exact key _ _ (by decide) (key _ _ (by decide) (Fwd.refl h))

theorem parseTextContentLoop_fwd :
    ∀ (k : Nat) (p : HTMLParser) (content : CString), InBuf p →
      Fwd p (parseTextContentLoop k p content).2 ∧
      (1 ≤ k → p.available = true → p.htmlRawDocument.getD p.readingPos EOF_CHAR ≠ '<' →
        p.readingPos + 1 ≤ (parseTextContentLoop k p content).2.readingPos) := by
  intro k
  induction k with
  | zero => intro p content h; exact ⟨Fwd.refl h, by omega⟩
  | succ k ih =>
    intro p content h
    unfold parseTextContentLoop
    by_cases ha : p.available = true
    · have h1 := readChar_fwd h ha
      have hp := readChar_pos p h.fits ha
      have hc := readChar_fst_eq p true ha
      simp only [ha, if_true]
      split
      · rename_i hlt
        refine ⟨readChar_putback_fwd h ha, fun _ _ hne => ?_⟩
        rw [hc] at hlt
        exact absurd hlt hne
      · split
        · have h2 := (ih (p.readChar true).2 content (h1.inBuf h)).1
          exact ⟨h1.trans h2, fun _ _ _ => by have := h2.le; omega⟩
        · have h2 := (ih (p.readChar true).2 (content ++ [(p.readChar true).1]) (h1.inBuf h)).1
          exact ⟨h1.trans h2, fun _ _ _ => by have := h2.le; omega⟩
    · exact ⟨by simp only [ha]; exact Fwd.refl h, fun _ hh => absurd hh ha⟩

theorem parseTagNameLoop_fwd :
    ∀ (k : Nat) (p : HTMLParser) (result : CString), InBuf p →
      Fwd p (parseTagNameLoop k p result).2 ∧
      (1 ≤ k → p.available = true →
        p.readingPos + 1 ≤ (parseTagNameLoop k p result).2.readingPos) := by
  intro k
  induction k with
  | zero => intro p result h; exact ⟨Fwd.refl h, by omega⟩
  | succ k ih =>
    intro p result h
    unfold parseTagNameLoop
    by_cases ha : p.available = true
    · have h1 := readChar_fwd h ha
      have hp := readChar_pos p h.fits ha
      simp only [ha, if_true]
      have h2 : Fwd (p.readChar true).2
          (if ((p.readChar true).1 = ' ' ∨ (p.readChar true).1 = '\n') ∧
              decide ((p.readChar true).1 = '>' ∨ (p.readChar true).1 = ' ' ∨
                (p.readChar true).1 = '\n') = true
            then (p.readChar true).2.skipUntil '>' else (p.readChar true).2) := by
        split
        · exact skipUntil_fwd _ (h1.inBuf h)
        · exact Fwd.refl (h1.inBuf h)
      generalize (if ((p.readChar true).1 = ' ' ∨ (p.readChar true).1 = '\n') ∧
              decide ((p.readChar true).1 = '>' ∨ (p.readChar true).1 = ' ' ∨
                (p.readChar true).1 = '\n') = true
            then (p.readChar true).2.skipUntil '>' else (p.readChar true).2) = q at *
      have hq := h2.le
      split
      · exact ⟨h1.trans h2, fun _ _ => by show p.readingPos + 1 ≤ q.readingPos; omega⟩
      · have h3 := (ih q (result ++ [(p.readChar true).1]) ((h1.trans h2).inBuf h)).1
        exact ⟨(h1.trans h2).trans h3, fun _ _ => by have := h3.le; omega⟩
    · exact ⟨by simp only [ha]; exact Fwd.refl h, fun _ hh => absurd hh ha⟩

theorem pushResetState_pos (p : HTMLParser) :
    p.pushResetState.readingPos = p.readingPos := by
  unfold pushResetState pushResetState__
  split <;> rfl

theorem pushResetState_doc (p : HTMLParser) :
    p.pushResetState.htmlRawDocument = p.htmlRawDocument := by
  unfold pushResetState pushResetState__
  split <;> rfl

theorem pushResetState_state (p : HTMLParser) :
    p.pushResetState.parserState = p.parserState := by
  unfold pushResetState pushResetState__
  split <;> rfl

theorem pushResetState_fwd {p : HTMLParser} (h : InBuf p) : Fwd p p.pushResetState :=
  ⟨pushResetState_doc p, pushResetState_state p, by rw [pushResetState_pos],
    by rw [pushResetState_pos, pushResetState_doc]; exact h.bound⟩

theorem pushResetState_available (p : HTMLParser) :
    p.pushResetState.available = p.available := by
  unfold available rawLen
  rw [pushResetState_pos, pushResetState_doc]

theorem parseTagName_fst (p : HTMLParser) : p.parseTagName.1 = 0 := rfl

theorem parseTagName_fwd {p : HTMLParser} (h : InBuf p) :
    Fwd p p.parseTagName.2.2 ∧
    (p.available = true → p.readingPos + 1 ≤ p.parseTagName.2.2.readingPos) := by
  have h0 := pushResetState_fwd h
  obtain ⟨h1, h2⟩ := parseTagNameLoop_fwd (p.pushResetState.rawLen - p.pushResetState.readingPos)
    p.pushResetState [] (h0.inBuf h)
  refine ⟨h0.trans h1, fun ha => ?_⟩
  have ha2 : p.pushResetState.available = true := by rw [pushResetState_available]; exact ha
  have hk : 1 ≤ p.pushResetState.rawLen - p.pushResetState.readingPos := by
    rw [available_iff] at ha2
    unfold rawLen
    omega
  have h3 := h2 hk ha2
  have e : p.readingPos + 1 = p.pushResetState.readingPos + 1 := by rw [pushResetState_pos]
  rw [e]
  exact h3

theorem badState_false {p : HTMLParser} (h : p.parserState = 0) : p.badState = false := by
  simp [badState, h]

theorem badState_true {p : HTMLParser} (h : p.parserState ≠ 0) : p.badState = true := by
  simp [badState, h]

theorem parseTag_ok {p : HTMLParser} (h0 : p.parserState = 0) (node : HTMLNode) :
    p.parseTag node =
      (0, p.pushResetState.parseTagName.2.2, node.setTagName p.pushResetState.parseTagName.2.1) := by
  unfold parseTag
  simp [badState_false h0, parseTagName_fst]

theorem parseTextContent_ok {p : HTMLParser} (h0 : p.parserState = 0) (node : HTMLNode) :
    p.parseTextContent node =
      (0, (parseTextContentLoop (p.rawLen - p.readingPos) p node.getTextContent).2,
        node.setTextContent
          (parseTextContentLoop (p.rawLen - p.readingPos) p node.getTextContent).1) := by
  unfold parseTextContent
  simp [badState_false h0]

theorem parsingError_doc (p : HTMLParser) (code : Nat) :
    (p.parsingError code).2.htmlRawDocument = p.htmlRawDocument := rfl

theorem parsingError_state (p : HTMLParser) (code : Nat) :
    (p.parsingError code).2.parserState = toInt code := rfl

theorem parsingError_fst (p : HTMLParser) (code : Nat) :
    (p.parsingError code).1 = toInt code := rfl

theorem toInt_toSizeT_neg_two : toInt (toSizeT (-2)) = -2 := by
  unfold toInt toSizeT SIZE_MOD
  norm_num

/-! ## The equations of `parseInternal` -/

theorem parseInternal_succ (k : Nat) (p : HTMLParser) (node : HTMLNode) :
    parseInternal (k + 1) p node =
      if p.badState then some (p.parserState, p, node)
      else parseInternalLoop k p.skipEmptyChars node false := by
  rw [parseInternal]

theorem loop_eof_eq (k : Nat) (p : HTMLParser) (node : HTMLNode) (f : Bool)
    (ha : p.available = false) :
    parseInternalLoop (k + 1) p node f = some (0, p, node) := by
  rw [parseInternalLoop]
  simp [ha]

theorem loop_text_eq (k : Nat) (p : HTMLParser) (node : HTMLNode) (f : Bool)
    (ha : p.available = true) (hc : (p.readChar true).1 ≠ '<') :
    parseInternalLoop (k + 1) p node f =
      parseInternalLoop k
        ((if f then ((p.readChar true).2.putback 1).skipEmptyChars
          else (p.readChar true).2.putback 1).parseTextContent node).2.1
        ((if f then ((p.readChar true).2.putback 1).skipEmptyChars
          else (p.readChar true).2.putback 1).parseTextContent node).2.2 true := by
  rw [parseInternalLoop]
  simp only [ha, if_true, hc, if_false]
  cases f <;> simp

theorem loop_lt_eof_eq (k : Nat) (p : HTMLParser) (node : HTMLNode) (f : Bool)
    (ha : p.available = true) (hc : (p.readChar true).1 = '<')
    (h2 : (p.readChar true).2.skipEmptyChars.available = false) :
    parseInternalLoop (k + 1) p node f =
      some (0, (p.readChar true).2.skipEmptyChars, node) := by
  rw [parseInternalLoop]
  simp [ha, hc, h2]

theorem loop_close_eq (k : Nat) (p : HTMLParser) (node : HTMLNode) (f : Bool)
    (ha : p.available = true) (hc : (p.readChar true).1 = '<')
    (h2 : (p.readChar true).2.skipEmptyChars.available = true)
    (h3 : ((p.readChar true).2.skipEmptyChars.readChar true).1 = '/') :
    parseInternalLoop (k + 1) p node f =
      if ((p.readChar true).2.skipEmptyChars.readChar true).2.readClosingTag.2.1 ≠ node.tagName
      then some ((((p.readChar true).2.skipEmptyChars.readChar true).2.readClosingTag.2.2.parsingError
              (toSizeT (-2))).1,
            (((p.readChar true).2.skipEmptyChars.readChar true).2.readClosingTag.2.2.parsingError
              (toSizeT (-2))).2, node)
      else some (0, ((p.readChar true).2.skipEmptyChars.readChar true).2.readClosingTag.2.2,
            node) := by
  rw [parseInternalLoop]
  simp [ha, hc, h2, h3]

theorem loop_open_eq (k : Nat) (p : HTMLParser) (node : HTMLNode) (f : Bool)
    (ha : p.available = true) (hc : (p.readChar true).1 = '<')
    (h2 : (p.readChar true).2.skipEmptyChars.available = true)
    (h3 : ((p.readChar true).2.skipEmptyChars.readChar true).1 ≠ '/') :
    parseInternalLoop (k + 1) p node f =
      (parseInternal k
          ((((p.readChar true).2.skipEmptyChars.readChar true).2.putback 1).parseTag
            HTMLNode.create).2.1
          ((((p.readChar true).2.skipEmptyChars.readChar true).2.putback 1).parseTag
            HTMLNode.create).2.2).bind fun s =>
        if s.2.1.badState then some (s.2.1.LogError, s.2.1, node.appendNode s.2.2)
        else parseInternalLoop k s.2.1 (node.appendNode s.2.2) f := by
  rw [parseInternalLoop]
  simp [ha, hc, h2, h3]

theorem RunOk.of_fwd {p q : HTMLParser} {r : Int × HTMLParser × HTMLNode}
    (h : Fwd p q) (hr : RunOk q r) : RunOk p r :=
  ⟨hr.doc.trans h.doc, hr.code, fun h0 => h.trans (hr.fwd h0)⟩

theorem RunOk.intro {p q : HTMLParser} {c : Int} (n : HTMLNode)
    (hd : q.htmlRawDocument = p.htmlRawDocument) (hc : c = q.parserState)
    (hf : q.parserState = 0 → Fwd p q) : RunOk p (c, q, n) :=
  ⟨hd, hc, hf⟩

theorem exists_some_run {p : HTMLParser} {r : Int × HTMLParser × HTMLNode}
    (h : RunOk p r) : ∃ r2, some r = some r2 ∧ RunOk p r2 :=
  ⟨r, rfl, h⟩

theorem parseInternal_total_aux : ∀ (k : Nat),
    (∀ (p : HTMLParser) (node : HTMLNode), InBuf p →
        p.htmlRawDocument.length - p.readingPos + 2 ≤ k →
        ∃ r, parseInternal k p node = some r ∧ RunOk p r) ∧
    (∀ (p : HTMLParser) (node : HTMLNode) (f : Bool), InBuf p → p.parserState = 0 →
        p.htmlRawDocument.length - p.readingPos + 1 ≤ k →
        ∃ r, parseInternalLoop k p node f = some r ∧ RunOk p r) := by
  intro k
  induction k with
  | zero =>
    exact ⟨fun p node _ hk => by omega, fun p node f _ _ hk => by omega⟩
  | succ k ih =>
    obtain ⟨ihI, ihL⟩ := ih
    constructor
    · intro p node hin hk
      rw [parseInternal_succ]
      by_cases h0 : p.parserState = 0
      · rw [badState_false h0]
        simp only [Bool.false_eq_true, if_false]
        have h1 := skipEmptyChars_fwd hin
        obtain ⟨r, hr, hok⟩ := ihL p.skipEmptyChars node false (h1.inBuf hin)
          (h1.st.trans h0) (by have := h1.le; rw [h1.doc]; omega)
        exact ⟨r, hr, hok.of_fwd h1⟩
      · rw [badState_true h0]
        exact exists_some_run (RunOk.intro node rfl rfl (fun h => absurd h h0))
    · intro p node f hin h0 hk
      by_cases ha : p.available = true
      · have h1 := readChar_fwd hin ha
        have hp1 := readChar_pos p hin.fits ha
        by_cases hc : (p.readChar true).1 = '<'
        · have h2 := skipEmptyChars_fwd (h1.inBuf hin)
          have h12 := h1.trans h2
          by_cases ha2 : (p.readChar true).2.skipEmptyChars.available = true
          · have h3 := readChar_fwd (h12.inBuf hin) ha2
            have hp3 := readChar_pos _ (h12.inBuf hin).fits ha2
            by_cases hs : ((p.readChar true).2.skipEmptyChars.readChar true).1 = '/'
            · rw [loop_close_eq k p node f ha hc ha2 hs]
              have h4 := (parseTagName_fwd ((h12.trans h3).inBuf hin)).1
              have h14 := (h12.trans h3).trans h4
              split
              · apply exists_some_run
                apply RunOk.intro node
                · rw [parsingError_doc]
                  exact h14.doc
                · rw [parsingError_fst, parsingError_state]
                · intro h
                  rw [parsingError_state, toInt_toSizeT_neg_two] at h
                  exact absurd h (by decide)
              · exact exists_some_run
                  (RunOk.intro node h14.doc (h14.st.trans h0).symm (fun _ => h14))
            · rw [loop_open_eq k p node f ha hc ha2 hs]
              have h4 := readChar_putback_fwd (h12.inBuf hin) ha2
              have hp4 := readChar_putback_pos (h12.inBuf hin) ha2
              have h14 := h12.trans h4
              have hst4 : (((p.readChar true).2.skipEmptyChars.readChar true).2.putback
                  1).parserState = 0 := h14.st.trans h0
              have hav4 : (((p.readChar true).2.skipEmptyChars.readChar true).2.putback
                  1).available = true := by
                rw [available_iff, hp4, h4.doc]
                exact (available_iff _).1 ha2
              rw [parseTag_ok hst4]
              generalize (((p.readChar true).2.skipEmptyChars.readChar true).2.putback 1) = q
                at *
              have h5 := pushResetState_fwd (h14.inBuf hin)
              have hav5 : q.pushResetState.available = true := by
                rw [pushResetState_available]; exact hav4
              obtain ⟨h6, h7⟩ := parseTagName_fwd ((h14.trans h5).inBuf hin)
              have h7 := h7 hav5
              rw [pushResetState_pos] at h7
              have h16 := (h14.trans h5).trans h6
              generalize q.pushResetState.parseTagName.2.2 = q2 at *
              have hle2 := h2.le
              have hb := h16.bound
              rw [h16.doc] at hb
              obtain ⟨r, hr, hok⟩ := ihI q2
                (HTMLNode.create.setTagName q.pushResetState.parseTagName.2.1)
                (h16.inBuf hin) (by rw [h16.doc]; omega)
              simp only [hr, Option.some_bind]
              by_cases hb2 : r.2.1.parserState = 0
              · rw [badState_false hb2]
                simp only [Bool.false_eq_true, if_false]
                have h8 := hok.fwd hb2
                have h18 := h16.trans h8
                have hle8 := h8.le
                obtain ⟨r2, hr2, hok2⟩ := ihL r.2.1 (node.appendNode r.2.2) f (h18.inBuf hin)
                  hb2 (by rw [h18.doc]; omega)
                exact ⟨r2, hr2, hok2.of_fwd h18⟩
              · rw [badState_true hb2]
                exact exists_some_run (RunOk.intro _ (hok.doc.trans h16.doc) rfl
                  (fun h => absurd h hb2))
          · have ha2f : (p.readChar true).2.skipEmptyChars.available = false := by
              simpa using ha2
            rw [loop_lt_eof_eq k p node f ha hc ha2f]
            exact exists_some_run
              (RunOk.intro node h12.doc (h12.st.trans h0).symm (fun _ => h12))
        · rw [loop_text_eq k p node f ha hc]
          have h2 := readChar_putback_fwd hin ha
          have hp2 := readChar_putback_pos hin ha
          have hc2 := readChar_fst_eq p true ha
          rw [hc2] at hc
          have h3 : Fwd ((p.readChar true).2.putback 1)
              (if f = true then ((p.readChar true).2.putback 1).skipEmptyChars
                else (p.readChar true).2.putback 1) := by
            split
            · exact skipEmptyChars_fwd (h2.inBuf hin)
            · exact Fwd.refl (h2.inBuf hin)
          generalize (if f = true then ((p.readChar true).2.putback 1).skipEmptyChars
                else (p.readChar true).2.putback 1) = q at *
          generalize ((p.readChar true).2.putback 1) = q0 at *
          have h23 := h2.trans h3
          rw [parseTextContent_ok (h23.st.trans h0)]
          obtain ⟨h4, h5⟩ := parseTextContentLoop_fwd (q.rawLen - q.readingPos) q
            node.getTextContent (h23.inBuf hin)
          have h24 := h23.trans h4
          have hb := h24.bound
          rw [h24.doc] at hb
          have hle3 := h3.le
          have hle4 := h4.le
          have hprog : p.readingPos + 1 ≤
              (parseTextContentLoop (q.rawLen - q.readingPos) q
                node.getTextContent).2.readingPos := by
            by_cases hq : q.readingPos = p.readingPos
            · have hav : q.available = true := by
                rw [available_iff, hq, h23.doc]
                exact (available_iff _).1 ha
              have hk1 : 1 ≤ q.rawLen - q.readingPos := by
                rw [available_iff] at hav
                unfold rawLen
                omega
              have := h5 hk1 hav (by rw [h23.doc, hq]; exact hc)
              omega
            · omega
          generalize (parseTextContentLoop (q.rawLen - q.readingPos) q node.getTextContent) = t
            at *
          obtain ⟨r, hr, hok⟩ := ihL t.2 (node.setTextContent t.1) true (h24.inBuf hin)
            (h24.st.trans h0) (by rw [h24.doc]; omega)
          exact ⟨r, hr, hok.of_fwd h24⟩
      · have haf : p.available = false := by simpa using ha
        rw [loop_eof_eq k p node f haf]
        exact exists_some_run (RunOk.intro node rfl h0.symm (fun _ => Fwd.refl hin))

theorem Cur.toInBuf {p : HTMLParser} {pre rest : CString} (h : Cur p pre rest) : InBuf p :=
  ⟨by rw [h.doc]; exact h.fits, by rw [h.doc, h.pos]; simp⟩

theorem Cur.cast {p : HTMLParser} {pre rest pre2 rest2 : CString} (h : Cur p pre rest)
    (h1 : pre = pre2) (h2 : rest = rest2) : Cur p pre2 rest2 := by
  subst h1 h2
  exact h

theorem Cur.of_inBuf {p : HTMLParser} (h : InBuf p) (h0 : p.parserState = 0) :
    Cur p (p.htmlRawDocument.take p.readingPos) (p.htmlRawDocument.drop p.readingPos) :=
  ⟨(List.take_append_drop _ _).symm, by rw [List.length_take]; exact (min_eq_left h.bound).symm,
    h0, by rw [List.take_append_drop]; exact h.fits⟩

theorem Cur.available {p : HTMLParser} {pre rest : CString} {c : Char}
    (h : Cur p pre (c :: rest)) : p.available = true := by
  rw [available_iff, h.doc, h.pos]
  simp

theorem Cur.not_available {p : HTMLParser} {pre : CString} (h : Cur p pre []) :
    p.available = false := by
  rw [available_false_iff, h.doc, h.pos]
  simp

theorem Cur.getD {p : HTMLParser} {pre rest : CString} {c : Char}
    (h : Cur p pre (c :: rest)) : p.htmlRawDocument.getD p.readingPos EOF_CHAR = c := by
  rw [h.doc, h.pos, List.getD_append_right _ _ _ _ (le_refl _)]
  simp

theorem Cur.readChar_fst {p : HTMLParser} {pre rest : CString} {c : Char} (a : Bool)
    (h : Cur p pre (c :: rest)) : (p.readChar a).1 = c := by
  rw [readChar_fst_eq p a h.available, h.getD]

theorem Cur.peek_nil {p : HTMLParser} {pre : CString} (h : Cur p pre []) :
    (p.readChar false).1 = EOF_CHAR := by
  unfold readChar
  simp [h.not_available]

theorem Cur.readChar {p : HTMLParser} {pre rest : CString} {c : Char}
    (h : Cur p pre (c :: rest)) : Cur (p.readChar true).2 (pre ++ [c]) rest := by
  have hf := readChar_fwd h.toInBuf h.available
  have hp := readChar_pos p h.toInBuf.fits h.available
  refine ⟨?_, ?_, ?_, ?_⟩
  · rw [hf.doc, h.doc]; simp
  · rw [hp, h.pos]; simp
  · rw [hf.st, h.ok]
  · have := h.fits
    simpa using this

theorem putback_one_eq (p : HTMLParser) :
    p.putback 1 = { p with readingPos := (p.readingPos + SIZE_MOD - 1) % SIZE_MOD } := by
  unfold putback
  rw [one_mod_size]

theorem Cur.putback {p : HTMLParser} {pre rest : CString} {c : Char}
    (h : Cur p (pre ++ [c]) rest) : Cur (p.putback 1) pre (c :: rest) := by
  have hb := h.toInBuf.bound
  have hle : p.readingPos ≤ SIZE_MOD := le_of_lt (lt_of_le_of_lt hb h.toInBuf.fits)
  have h1 : 1 ≤ p.readingPos := by rw [h.pos]; simp
  refine ⟨?_, ?_, ?_, ?_⟩
  · rw [putback_doc, h.doc]; simp
  · rw [putback_one_pos p h1 hle, h.pos]; simp
  · rw [putback_state, h.ok]
  · have := h.fits
    simpa using this

theorem skipUntilLoop_not_available (k : Nat) (p : HTMLParser) (ch : Char)
    (h : p.available = false) : skipUntilLoop k p ch = p := by
  cases k with
  | zero => rfl
  | succ k => unfold skipUntilLoop; simp [h]

theorem skipUntilNotLoop_not_available (k : Nat) (p : HTMLParser) (ch : Char)
    (h : p.available = false) : skipUntilNotLoop k p ch = p := by
  cases k with
  | zero => rfl
  | succ k => unfold skipUntilNotLoop; simp [h]

theorem Cur.skipUntilLoop (ch : Char) :
    ∀ (x pre : CString) (p : HTMLParser) (k : Nat), Cur p pre x → x.length ≤ k →
      Cur (skipUntilLoop k p ch)
        (pre ++ x.takeWhile (fun c => c != ch) ++ (x.dropWhile (fun c => c != ch)).take 1)
        ((x.dropWhile (fun c => c != ch)).drop 1) := by
  intro x
  induction x with
  | nil =>
    intro pre p k h _
    rw [skipUntilLoop_not_available k p ch h.not_available]
    simpa using h
  | cons d x ih =>
    intro pre p k h hk
    obtain ⟨k, rfl⟩ : ∃ j, k = j + 1 := ⟨k - 1, by simp at hk; omega⟩
    unfold HtmlParser.HTMLParser.skipUntilLoop
    have h1 := h.readChar
    simp only [h.available, if_true, h.readChar_fst true]
    by_cases hd : d = ch
    · subst hd
      simp only [ne_eq, not_true_eq_false, if_false]
      exact h1.cast (by simp) (by simp)
    · simp only [ne_eq, hd, not_false_eq_true, if_true]
      have h2 := ih (pre ++ [d]) _ k h1 (by simp at hk; omega)
      have hb : (d != ch) = true := by simpa using hd
      exact h2.cast (by simp [List.takeWhile_cons, hb, List.dropWhile_cons])
        (by simp [List.dropWhile_cons, hb])

theorem Cur.skipUntil (ch : Char) {x pre : CString} {p : HTMLParser} (h : Cur p pre x) :
    Cur (p.skipUntil ch)
      (pre ++ x.takeWhile (fun c => c != ch) ++ (x.dropWhile (fun c => c != ch)).take 1)
      ((x.dropWhile (fun c => c != ch)).drop 1) := by
  apply Cur.skipUntilLoop ch x pre p _ h
  unfold rawLen
  rw [h.doc, h.pos]
  simp

theorem Cur.skipUntilNotLoop (ch : Char) :
    ∀ (x pre : CString) (p : HTMLParser) (k : Nat), Cur p pre x → x.length ≤ k →
      Cur (skipUntilNotLoop k p ch)
        (pre ++ x.takeWhile (fun c => c == ch) ++ (x.dropWhile (fun c => c == ch)).take 1)
        ((x.dropWhile (fun c => c == ch)).drop 1) := by
  intro x
  induction x with
  | nil =>
    intro pre p k h _
    rw [skipUntilNotLoop_not_available k p ch h.not_available]
    simpa using h
  | cons d x ih =>
    intro pre p k h hk
    obtain ⟨k, rfl⟩ : ∃ j, k = j + 1 := ⟨k - 1, by simp at hk; omega⟩
    unfold HtmlParser.HTMLParser.skipUntilNotLoop
    have h1 := h.readChar
    simp only [h.available, if_true, h.readChar_fst true]
    by_cases hd : d = ch
    · subst hd
      simp only [if_true]
      have h2 := ih (pre ++ [d]) _ k h1 (by simp at hk; omega)
      exact h2.cast (by simp [List.takeWhile_cons, List.dropWhile_cons])
        (by simp [List.dropWhile_cons])
    · simp only [hd, if_false]
      have hb : (d == ch) = false := by simpa using hd
      exact h1.cast (by simp [List.takeWhile_cons, hb, List.dropWhile_cons])
        (by simp [List.dropWhile_cons, hb])

theorem emptyChars_append (x : CString) : emptyChars x ++ afterEmptyChars x = x := by
  unfold emptyChars afterEmptyChars
  rw [List.append_assoc, List.takeWhile_append_dropWhile, List.takeWhile_append_dropWhile]

theorem Cur.skipUntilNot (ch : Char) {x pre : CString} {p : HTMLParser} (h : Cur p pre x)
    (hx : x.dropWhile (fun c => c == ch) ≠ []) :
    Cur (p.skipUntilNot ch) (pre ++ x.takeWhile (fun c => c == ch))
      (x.dropWhile (fun c => c == ch)) := by
  have h1 := Cur.skipUntilNotLoop ch x pre p (p.rawLen - p.readingPos) h
    (by unfold rawLen; rw [h.doc, h.pos]; simp)
  have e : p.skipUntilNot ch =
      (HTMLParser.skipUntilNotLoop (p.rawLen - p.readingPos) p ch).putback 1 := by
    rw [putback_one_eq]
    rfl
  rw [e]
  generalize HTMLParser.skipUntilNotLoop (p.rawLen - p.readingPos) p ch = q at *
  obtain ⟨d, r, hdr⟩ := List.exists_cons_of_ne_nil hx
  rw [hdr] at h1 ⊢
  exact Cur.putback (h1.cast (by simp) (by simp))

theorem Cur.skipEmptyChars {x pre : CString} {p : HTMLParser} (h : Cur p pre x)
    (hx : afterEmptyChars x ≠ []) :
    Cur p.skipEmptyChars (pre ++ emptyChars x) (afterEmptyChars x) := by
  have key : ∀ (c : Char) (y pre2 : CString) (q : HTMLParser), c ≠ EOF_CHAR → Cur q pre2 y →
      y.dropWhile (fun a => a == c) ≠ [] →
      Cur (if (q.readChar false).1 = c then q.skipUntilNot c else q)
        (pre2 ++ y.takeWhile (fun a => a == c)) (y.dropWhile (fun a => a == c)) := by
    intro c y pre2 q hc hq hy
    cases y with
    | nil => simp at hy
    | cons d y =>
      rw [hq.readChar_fst false]
      split
      · exact hq.skipUntilNot c hy
      · rename_i hd
        have hb : (d == c) = false := by simpa using hd
        exact hq.cast (by simp [List.takeWhile_cons, hb]) (by simp [List.dropWhile_cons, hb])
  have hy : x.dropWhile (fun c => c == ' ') ≠ [] := by
    intro hn
    apply hx
    unfold afterEmptyChars
    rw [hn]
    rfl
  have h1 := key ' ' x pre p (by decide) h hy
  have h2 := key '\n' _ _ _ (by decide) h1 hx
  exact h2.cast (by unfold emptyChars; simp) rfl

theorem Cur.skipEmptyChars_id {c : Char} {rest pre : CString} {p : HTMLParser}
    (h : Cur p pre (c :: rest)) (h1 : c ≠ ' ') (h2 : c ≠ '\n') : p.skipEmptyChars = p := by
  unfold HtmlParser.HTMLParser.skipEmptyChars
  simp [h.readChar_fst false, h1, h2]

theorem Cur.skipEmptyChars_nil {pre : CString} {p : HTMLParser}
    (h : Cur p pre []) : p.skipEmptyChars = p := by
  unfold HtmlParser.HTMLParser.skipEmptyChars
  have e : EOF_CHAR ≠ ' ' ∧ EOF_CHAR ≠ '\n' := by decide
  simp [h.peek_nil, e.1, e.2]

theorem parseTextContentLoop_not_available (k : Nat) (p : HTMLParser) (content : CString)
    (h : p.available = false) : parseTextContentLoop k p content = (content, p) := by
  cases k with
  | zero => rfl
  | succ k => unfold parseTextContentLoop; simp [h]

theorem Cur.parseTextContentLoop :
    ∀ (x pre : CString) (p : HTMLParser) (k : Nat) (content : CString), Cur p pre x →
      x.length ≤ k →
      (HTMLParser.parseTextContentLoop k p content).1 =
        content ++ (x.takeWhile (fun c => c != '<')).filter (fun c => c != '\n') ∧
      Cur (HTMLParser.parseTextContentLoop k p content).2 (pre ++ x.takeWhile (fun c => c != '<'))
        (x.dropWhile (fun c => c != '<')) := by
  intro x
  induction x with
  | nil =>
    intro pre p k content h _
    rw [parseTextContentLoop_not_available k p content h.not_available]
    exact ⟨by simp, by simpa using h⟩
  | cons d x ih =>
    intro pre p k content h hk
    obtain ⟨k, rfl⟩ : ∃ j, k = j + 1 := ⟨k - 1, by simp at hk; omega⟩
    unfold HtmlParser.HTMLParser.parseTextContentLoop
    have h1 := h.readChar
    simp only [h.available, if_true, h.readChar_fst true]
    by_cases hd : d = '<'
    · subst hd
      simp only [if_true]
      exact ⟨by simp, h1.putback.cast (by simp) (by simp)⟩
    · have hb : (d != '<') = true := by simpa using hd
      simp only [hd, if_false]
      by_cases hn : d = '\n'
      · subst hn
        simp only [if_true]
        obtain ⟨e1, e2⟩ := ih (pre ++ ['\n']) _ k content h1 (by simp at hk; omega)
        exact ⟨by rw [e1]; simp [List.takeWhile_cons, hb],
          e2.cast (by simp [List.takeWhile_cons, hb]) (by simp [List.dropWhile_cons, hb])⟩
      · simp only [hn, if_false]
        obtain ⟨e1, e2⟩ := ih (pre ++ [d]) _ k (content ++ [d]) h1 (by simp at hk; omega)
        have hnb : (d != '\n') = true := by simpa using hn
        exact ⟨by rw [e1]; simp [List.takeWhile_cons, hb, List.filter_cons, hnb],
          e2.cast (by simp [List.takeWhile_cons, hb]) (by simp [List.dropWhile_cons, hb])⟩

theorem Cur.parseTextContent {x pre : CString} {p : HTMLParser} (node : HTMLNode)
    (h : Cur p pre x) :
    (HTMLParser.parseTextContent p node).1 = 0 ∧
    (HTMLParser.parseTextContent p node).2.2 = node.setTextContent
      (node.getTextContent ++ (x.takeWhile (fun c => c != '<')).filter (fun c => c != '\n')) ∧
    Cur (HTMLParser.parseTextContent p node).2.1 (pre ++ x.takeWhile (fun c => c != '<'))
      (x.dropWhile (fun c => c != '<')) := by
  rw [parseTextContent_ok h.ok]
  obtain ⟨e1, e2⟩ := Cur.parseTextContentLoop x pre p (p.rawLen - p.readingPos)
    node.getTextContent h (by unfold rawLen; rw [h.doc, h.pos]; simp)
  exact ⟨rfl, by rw [← e1], e2⟩

theorem scanTail_append (y : CString) : (scanTail y).1 ++ (scanTail y).2 = y := by
  cases y with
  | nil => rfl
  | cons t more =>
    by_cases ht : t = '>'
    · simp [scanTail, ht]
    · simp only [scanTail, ht, if_false, List.cons_append, List.append_assoc,
        List.take_append_drop, List.takeWhile_append_dropWhile]

theorem scanned_append (x : CString) : scanned x ++ unscanned x = x := by
  unfold scanned unscanned scanName
  rw [List.append_assoc, scanTail_append, List.takeWhile_append_dropWhile]

theorem scanName_cons_of_not_end {d : Char} (x : CString) (h : isNameEnd d = false) :
    scanName (d :: x) = d :: scanName x := by
  simp [scanName, List.takeWhile_cons, h]

theorem scanned_cons_of_not_end {d : Char} (x : CString) (h : isNameEnd d = false) :
    scanned (d :: x) = d :: scanned x := by
  simp [scanned, scanName, List.takeWhile_cons, List.dropWhile_cons, h]

theorem unscanned_cons_of_not_end {d : Char} (x : CString) (h : isNameEnd d = false) :
    unscanned (d :: x) = unscanned x := by
  simp [unscanned, List.dropWhile_cons, h]

theorem parseTagNameLoop_not_available (k : Nat) (p : HTMLParser) (result : CString)
    (h : p.available = false) : parseTagNameLoop k p result = (result, p) := by
  cases k with
  | zero => rfl
  | succ k => unfold parseTagNameLoop; simp [h]

theorem Cur.parseTagNameLoop :
    ∀ (x pre : CString) (p : HTMLParser) (k : Nat) (result : CString), Cur p pre x →
      x.length ≤ k →
      (HTMLParser.parseTagNameLoop k p result).1 = result ++ scanName x ∧
      Cur (HTMLParser.parseTagNameLoop k p result).2 (pre ++ scanned x) (unscanned x) := by
  intro x
  induction x with
  | nil =>
    intro pre p k result h _
    rw [parseTagNameLoop_not_available k p result h.not_available]
    exact ⟨by simp [scanName], by simpa [scanned, unscanned, scanName, scanTail] using h⟩
  | cons d x ih =>
    intro pre p k result h hk
    obtain ⟨k, rfl⟩ : ∃ j, k = j + 1 := ⟨k - 1, by simp at hk; omega⟩
    unfold HtmlParser.HTMLParser.parseTagNameLoop
    have h1 := h.readChar
    simp only [h.available, if_true, h.readChar_fst true]
    by_cases hgt : d = '>'
    · subst hgt
      have e : ('>' = ' ' ∨ '>' = '\n') = False := by decide
      simp only [true_or, decide_True, e, false_and, if_false, if_true]
      exact ⟨by simp [scanName, isNameEnd],
        h1.cast (by simp [scanned, scanName, scanTail, isNameEnd])
          (by simp [unscanned, scanTail, isNameEnd])⟩
    · by_cases hsp : d = ' ' ∨ d = '\n'
      · have hend : isNameEnd d = true := by
          rcases hsp with rfl | rfl <;> rfl
        simp only [hsp, or_true, decide_True, and_self, if_true]
        have h2 := h1.skipUntil '>'
        have hte : (fun c => !isNameEnd c) d = false := by simp [hend]
        exact ⟨by simp [scanName, List.takeWhile_cons, hend],
          h2.cast (by simp [scanned, scanName, scanTail, List.takeWhile_cons,
              List.dropWhile_cons, hend, hgt])
            (by simp [unscanned, scanTail, List.dropWhile_cons, hend, hgt])⟩
      · have hend : isNameEnd d = false := by
          simp only [not_or] at hsp
          simp [isNameEnd, hgt, hsp.1, hsp.2]
        simp only [hgt, hsp, false_or, or_false, decide_False, false_and, and_false, if_false,
          Bool.false_eq_true]
        obtain ⟨e1, e2⟩ := ih (pre ++ [d]) _ k (result ++ [d]) h1 (by simp at hk; omega)
        exact ⟨by rw [e1, scanName_cons_of_not_end x hend]; simp,
          e2.cast (by rw [scanned_cons_of_not_end x hend]; simp)
            (by rw [unscanned_cons_of_not_end x hend])⟩

theorem Cur.pushResetState {x pre : CString} {p : HTMLParser} (h : Cur p pre x) :
    Cur p.pushResetState pre x :=
  ⟨by rw [pushResetState_doc, h.doc], by rw [pushResetState_pos, h.pos],
    by rw [pushResetState_state, h.ok], h.fits⟩

theorem Cur.parseTagName {x pre : CString} {p : HTMLParser} (h : Cur p pre x) :
    (HTMLParser.parseTagName p).1 = 0 ∧ (HTMLParser.parseTagName p).2.1 = scanName x ∧
    Cur (HTMLParser.parseTagName p).2.2 (pre ++ scanned x) (unscanned x) := by
  have h1 := h.pushResetState
  obtain ⟨e1, e2⟩ := Cur.parseTagNameLoop x pre p.pushResetState
    (p.pushResetState.rawLen - p.pushResetState.readingPos) [] h1
    (by unfold rawLen; rw [h1.doc, h1.pos]; simp)
  exact ⟨rfl, by rw [← List.nil_append (scanName x), ← e1]; rfl, e2⟩

theorem Cur.parseTag {x pre : CString} {p : HTMLParser} (node : HTMLNode) (h : Cur p pre x) :
    (HTMLParser.parseTag p node).1 = 0 ∧
    (HTMLParser.parseTag p node).2.2 = node.setTagName (scanName x) ∧
    Cur (HTMLParser.parseTag p node).2.1 (pre ++ scanned x) (unscanned x) := by
  rw [parseTag_ok h.ok]
  obtain ⟨_, e1, e2⟩ := h.pushResetState.parseTagName
  exact ⟨rfl, by rw [← e1], e2⟩

theorem Cur.skipUntilNot_exists (ch : Char) {x pre : CString} {p : HTMLParser}
    (h : Cur p pre (ch :: x)) :
    ∃ a b, ch :: x = a ++ b ∧ Cur (p.skipUntilNot ch) (pre ++ a) b ∧ ∀ d ∈ a, d = ch := by
  by_cases hx : (ch :: x).dropWhile (fun c => c == ch) = []
  · have h1 := Cur.skipUntilNotLoop ch (ch :: x) pre p (p.rawLen - p.readingPos) h
      (by unfold rawLen; rw [h.doc, h.pos]; simp)
    have e : p.skipUntilNot ch =
        (HTMLParser.skipUntilNotLoop (p.rawLen - p.readingPos) p ch).putback 1 := by
      rw [putback_one_eq]
      rfl
    rw [e]
    generalize HTMLParser.skipUntilNotLoop (p.rawLen - p.readingPos) p ch = q at *
    have hall : (ch :: x).takeWhile (fun c => c == ch) = ch :: x := by
      have := List.takeWhile_append_dropWhile (fun c => c == ch) (ch :: x)
      rw [hx, List.append_nil] at this
      exact this
    rw [hx, hall] at h1
    have hne : ch :: x ≠ [] := by simp
    refine ⟨(ch :: x).dropLast, [(ch :: x).getLast hne],
      (List.dropLast_append_getLast hne).symm, ?_, ?_⟩
    · apply Cur.putback
      apply h1.cast _ rfl
      have e2 := List.dropLast_append_getLast hne
      simp only [List.take_nil, List.append_nil, List.append_assoc, e2]
    · intro d hd
      have hd2 : d ∈ (ch :: x).takeWhile (fun c => c == ch) := by
        rw [hall]
        exact List.mem_of_mem_dropLast hd
      simpa using List.mem_takeWhile_imp hd2
  · refine ⟨_, _, (List.takeWhile_append_dropWhile _ _).symm, h.skipUntilNot ch hx, ?_⟩
    intro d hd
    simpa using List.mem_takeWhile_imp hd

theorem Cur.skipEmptyChars_exists {x pre : CString} {p : HTMLParser} (h : Cur p pre x) :
    ∃ a b, x = a ++ b ∧ Cur p.skipEmptyChars (pre ++ a) b ∧ ∀ d ∈ a, d = ' ' ∨ d = '\n' := by
  have key : ∀ (c : Char) (y pre2 : CString) (q : HTMLParser), c ≠ EOF_CHAR → Cur q pre2 y →
      ∃ a b, y = a ++ b ∧
        Cur (if (q.readChar false).1 = c then q.skipUntilNot c else q) (pre2 ++ a) b ∧
        ∀ d ∈ a, d = c := by
    intro c y pre2 q hc hq
    cases y with
    | nil =>
      rw [hq.peek_nil, if_neg (Ne.symm hc)]
      exact ⟨[], [], rfl, by simpa using hq, by simp⟩
    | cons d y =>
      rw [hq.readChar_fst false]
      split
      · rename_i hd
        subst hd
        exact hq.skipUntilNot_exists d
      · exact ⟨[], d :: y, rfl, by simpa using hq, by simp⟩
  obtain ⟨a1, b1, e1, h1, m1⟩ := key ' ' x pre p (by decide) h
  obtain ⟨a2, b2, e2, h2, m2⟩ := key '\n' b1 _ _ (by decide) h1
  refine ⟨a1 ++ a2, b2, by rw [e1, e2]; simp, h2.cast (by simp) rfl, ?_⟩
  intro d hd
  rcases List.mem_append.1 hd with hd | hd
  · exact Or.inl (m1 d hd)
  · exact Or.inr (m2 d hd)

theorem Cur.loop_eof {pre : CString} {p : HTMLParser} (h : Cur p pre []) (k : Nat)
    (node : HTMLNode) (f : Bool) :
    parseInternalLoop (k + 1) p node f = some (0, p, node) :=
  loop_eof_eq k p node f h.not_available

theorem Cur.loop_close {x pre : CString} {p : HTMLParser} (h : Cur p pre ('<' :: '/' :: x))
    (k : Nat) (node : HTMLNode) (f : Bool) :
    ∃ q, Cur q (pre ++ '<' :: '/' :: scanned x) (unscanned x) ∧
      parseInternalLoop (k + 1) p node f =
        if scanName x ≠ node.tagName
        then some ((q.parsingError (toSizeT (-2))).1, (q.parsingError (toSizeT (-2))).2, node)
        else some (0, q, node) := by
  have h1 := h.readChar
  have e1 := h1.skipEmptyChars_id (by decide) (by decide)
  have h2 := h1.readChar
  obtain ⟨_, e3, h3⟩ := h2.parseTagName
  have hs : ((p.readChar true).2.skipEmptyChars.readChar true).1 = '/' := by
    rw [e1]; exact h1.readChar_fst true
  have ha2 : (p.readChar true).2.skipEmptyChars.available = true := by
    rw [e1]; exact h1.available
  rw [loop_close_eq k p node f h.available (h.readChar_fst true) ha2 hs]
  simp only [e1, readClosingTag, e3]
  exact ⟨_, h3.cast (by simp) rfl, rfl⟩

theorem Cur.loop_lt_eof {pre : CString} {p : HTMLParser} (h : Cur p pre ['<'])
    (k : Nat) (node : HTMLNode) (f : Bool) :
    ∃ q, Cur q (pre ++ ['<']) [] ∧ parseInternalLoop (k + 1) p node f = some (0, q, node) := by
  have h1 := h.readChar
  have e1 := h1.skipEmptyChars_nil
  have ha2 : (p.readChar true).2.skipEmptyChars.available = false := by
    rw [e1]; exact h1.not_available
  rw [loop_lt_eof_eq k p node f h.available (h.readChar_fst true) ha2, e1]
  exact ⟨_, h1, rfl⟩

theorem Cur.loop_open {c : Char} {x pre : CString} {p : HTMLParser}
    (h : Cur p pre ('<' :: c :: x)) (hc1 : c ≠ '/') (hc2 : c ≠ ' ') (hc3 : c ≠ '\n')
    (k : Nat) (node : HTMLNode) (f : Bool) :
    ∃ q, Cur q (pre ++ '<' :: scanned (c :: x)) (unscanned (c :: x)) ∧
      parseInternalLoop (k + 1) p node f =
        (parseInternal k q (HTMLNode.create.setTagName (scanName (c :: x)))).bind fun s =>
          if s.2.1.badState then some (s.2.1.LogError, s.2.1, node.appendNode s.2.2)
          else parseInternalLoop k s.2.1 (node.appendNode s.2.2) f := by
  have h1 := h.readChar
  have e1 := h1.skipEmptyChars_id hc2 hc3
  have h2 := h1.readChar.putback
  obtain ⟨_, e3, h3⟩ := h2.parseTag HTMLNode.create
  have hs : ((p.readChar true).2.skipEmptyChars.readChar true).1 ≠ '/' := by
    rw [e1, h1.readChar_fst true]; exact hc1
  have ha2 : (p.readChar true).2.skipEmptyChars.available = true := by
    rw [e1]; exact h1.available
  rw [loop_open_eq k p node f h.available (h.readChar_fst true) ha2 hs]
  simp only [e1, e3]
  exact ⟨_, h3.cast (by simp) rfl, rfl⟩

theorem takeWhile_append_of_all {α : Type} (q : α → Bool) (a b : List α)
    (h : ∀ d ∈ a, q d = true) : (a ++ b).takeWhile q = a ++ b.takeWhile q := by
  induction a with
  | nil => rfl
  | cons d a ih =>
    have hd := h d (List.mem_cons_self _ _)
    simp [List.takeWhile_cons, hd, ih (fun e he => h e (List.mem_cons_of_mem _ he))]

theorem dropWhile_append_of_all {α : Type} (q : α → Bool) (a b : List α)
    (h : ∀ d ∈ a, q d = true) : (a ++ b).dropWhile q = b.dropWhile q := by
  induction a with
  | nil => rfl
  | cons d a ih =>
    have hd := h d (List.mem_cons_self _ _)
    simp [List.dropWhile_cons, hd, ih (fun e he => h e (List.mem_cons_of_mem _ he))]

theorem Cur.loop_text_first {c : Char} {x pre : CString} {p : HTMLParser}
    (h : Cur p pre (c :: x)) (hc : c ≠ '<') (k : Nat) (node : HTMLNode) :
    ∃ q, Cur q (pre ++ (c :: x).takeWhile (fun d => d != '<'))
        ((c :: x).dropWhile (fun d => d != '<')) ∧
      parseInternalLoop (k + 1) p node false =
        parseInternalLoop k q
          (node.setTextContent (node.getTextContent ++
            ((c :: x).takeWhile (fun d => d != '<')).filter (fun d => d != '\n'))) true := by
  have hc0 : (p.readChar true).1 ≠ '<' := by rw [h.readChar_fst true]; exact hc
  rw [loop_text_eq k p node false h.available hc0]
  simp only [Bool.false_eq_true, if_false]
  obtain ⟨_, e2, h2⟩ := h.readChar.putback.parseTextContent node
  rw [e2]
  exact ⟨_, h2, rfl⟩

theorem Cur.loop_text {c : Char} {x pre : CString} {p : HTMLParser}
    (h : Cur p pre (c :: x)) (hc : c ≠ '<') (k : Nat) (node : HTMLNode) (f : Bool) :
    ∃ q t, Cur q (pre ++ (c :: x).takeWhile (fun d => d != '<'))
        ((c :: x).dropWhile (fun d => d != '<')) ∧
      parseInternalLoop (k + 1) p node f = parseInternalLoop k q (node.setTextContent t) true := by
  have hc0 : (p.readChar true).1 ≠ '<' := by rw [h.readChar_fst true]; exact hc
  rw [loop_text_eq k p node f h.available hc0]
  have h1 := h.readChar.putback
  cases f with
  | false =>
    simp only [Bool.false_eq_true, if_false]
    obtain ⟨_, e2, h2⟩ := h1.parseTextContent node
    rw [e2]
    exact ⟨_, _, h2, rfl⟩
  | true =>
    simp only [if_true]
    obtain ⟨a, b, e, h2, hm⟩ := h1.skipEmptyChars_exists
    obtain ⟨_, e3, h3⟩ := h2.parseTextContent node
    rw [e3]
    have hall : ∀ d ∈ a, (fun d => d != '<') d = true := by
      intro d hd
      rcases hm d hd with rfl | rfl <;> decide
    refine ⟨_, _, h3.cast ?_ ?_, rfl⟩
    · rw [e, takeWhile_append_of_all _ a b hall]; simp
    · rw [e, dropWhile_append_of_all _ a b hall]

theorem IsName.not_end {n : CString} (h : IsName n) :
    ∀ c ∈ n, (fun c => !isNameEnd c) c = true := by
  intro c hc
  obtain ⟨_, h2, _, h4, h5⟩ := h.2 c hc
  simp [isNameEnd, h2, h4, h5]

theorem scanName_name {n : CString} (x : CString) (h : IsName n) :
    scanName (n ++ '>' :: x) = n := by
  unfold scanName
  rw [takeWhile_append_of_all _ n _ h.not_end]
  simp [List.takeWhile_cons, isNameEnd]

theorem scanned_name {n : CString} (x : CString) (h : IsName n) :
    scanned (n ++ '>' :: x) = n ++ ['>'] := by
  unfold scanned
  rw [scanName_name x h, dropWhile_append_of_all _ n _ h.not_end]
  simp [List.dropWhile_cons, isNameEnd, scanTail]

theorem unscanned_name {n : CString} (x : CString) (h : IsName n) :
    unscanned (n ++ '>' :: x) = x := by
  unfold unscanned
  rw [dropWhile_append_of_all _ n _ h.not_end]
  simp [List.dropWhile_cons, isNameEnd, scanTail]

theorem takeWhile_text {t : CString} (x : CString) (h : ∀ c ∈ t, c ≠ '<') :
    (t ++ '<' :: x).takeWhile (fun d => d != '<') = t := by
  rw [takeWhile_append_of_all _ t _ (fun d hd => by simpa using h d hd)]
  simp [List.takeWhile_cons]

theorem dropWhile_text {t : CString} (x : CString) (h : ∀ c ∈ t, c ≠ '<') :
    (t ++ '<' :: x).dropWhile (fun d => d != '<') = '<' :: x := by
  rw [dropWhile_append_of_all _ t _ (fun d hd => by simpa using h d hd)]
  simp [List.dropWhile_cons]

theorem filter_no_newline {t : CString} (h : ∀ c ∈ t, c ≠ '\n') :
    t.filter (fun d => d != '\n') = t := by
  rw [List.filter_eq_self]
  intro d hd
  simpa using h d hd

theorem serialise_eq (n t : CString) (a : List (CString × CString)) (cs : List HTMLNode) :
    serialise (HTMLNode.mk n t a cs) =
      '<' :: (n ++ '>' :: (t ++ (serialiseForest cs ++ '<' :: '/' :: (n ++ ['>'])))) := by
  rw [serialise]
  simp

theorem serialiseForest_cons (c : HTMLNode) (cs : List HTMLNode) :
    serialiseForest (c :: cs) = serialise c ++ serialiseForest cs := by
  rw [serialiseForest]

theorem serialiseForest_nil : serialiseForest [] = [] := by
  rw [serialiseForest]

theorem serialiseForest_head (cs : List HTMLNode) (x : CString) :
    ∃ y, serialiseForest cs ++ '<' :: x = '<' :: y := by
  cases cs with
  | nil => exact ⟨x, by rw [serialiseForest_nil]; rfl⟩
  | cons c cs =>
    cases c with
    | mk n t a ce =>
      rw [serialiseForest_cons, serialise_eq]
      exact ⟨_, rfl⟩

theorem parseBuffer_eq (buf : CString) :
    parseBuffer buf =
      (parseInternal (buf.length + 2) (startState buf) HTMLNode.create).map fun s =>
        { s.2.1 with root := some s.2.2 } := by
  simp [parseBuffer, parse, HTMLParser.new, reset, pushResetState__, badState, rawLen,
    startState]

theorem startState_cur (buf : CString) (h : buf.length < SIZE_MOD) :
    Cur (startState buf) [] buf :=
  ⟨rfl, rfl, rfl, h⟩

theorem parseBuffer_lt (y : CString) (hl : ('<' :: y).length < SIZE_MOD) :
    parseBuffer ('<' :: y) =
      (parseInternalLoop (y.length + 2) (startState ('<' :: y)) (HTMLNode.mk [] [] [] [])
        false).map fun s => { s.2.1 with root := some s.2.2 } := by
  have h0 := startState_cur _ hl
  rw [parseBuffer_eq, parseInternal_succ, badState_false h0.ok,
    Cur.skipEmptyChars_id h0 (by decide) (by decide)]
  rfl

theorem parsingError_bad (q : HTMLParser) :
    (q.parsingError (toSizeT (-2))).2.badState = true := by
  apply badState_true
  rw [parsingError_state, toInt_toSizeT_neg_two]
  decide

theorem IsName.head {n : CString} (h : IsName n) :
    ∃ c n2, n = c :: n2 ∧ c ≠ '/' ∧ c ≠ ' ' ∧ c ≠ '\n' := by
  obtain ⟨c, n2, e⟩ := List.exists_cons_of_ne_nil h.1
  obtain ⟨_, _, h3, h4, h5⟩ := h.2 c (by rw [e]; exact List.mem_cons_self _ _)
  exact ⟨c, n2, e, h3, h4, h5⟩

theorem Cur.loop_open_name {n x pre : CString} {p : HTMLParser} (hn : IsName n)
    (h : Cur p pre ('<' :: (n ++ '>' :: x))) (k : Nat) (node : HTMLNode) (f : Bool) :
    ∃ q, Cur q (pre ++ '<' :: (n ++ ['>'])) x ∧
      parseInternalLoop (k + 1) p node f =
        (parseInternal k q (HTMLNode.mk n [] [] [])).bind fun s =>
          if s.2.1.badState then some (s.2.1.LogError, s.2.1, node.appendNode s.2.2)
          else parseInternalLoop k s.2.1 (node.appendNode s.2.2) f := by
  obtain ⟨c, n2, e, h1, h2, h3⟩ := hn.head
  have h0 : Cur p pre ('<' :: c :: (n2 ++ '>' :: x)) := h.cast rfl (by rw [e]; rfl)
  obtain ⟨q, hq, eq⟩ := Cur.loop_open h0 h1 h2 h3 k node f
  have en : c :: (n2 ++ '>' :: x) = n ++ '>' :: x := by rw [e]; rfl
  rw [en] at hq eq
  rw [scanName_name _ hn] at eq
  rw [scanned_name _ hn, unscanned_name _ hn] at hq
  exact ⟨q, hq, eq⟩


theorem takeWhile_append_stop {α : Type} (q : α → Bool) (t : List α) (c : α) (y : List α)
    (hc : q c = false) : (t ++ c :: y).takeWhile q = t.takeWhile q := by
  induction t with
  | nil => simp [List.takeWhile_cons, hc]
  | cons d t ih =>
    by_cases hd : q d = true
    · simp [List.takeWhile_cons, hd, ih]
    · simp [List.takeWhile_cons, hd]

theorem dropWhile_append_stop {α : Type} (q : α → Bool) (t : List α) (c : α) (y : List α)
    (hc : q c = false) : (t ++ c :: y).dropWhile q = t.dropWhile q ++ c :: y := by
  induction t with
  | nil => simp [List.dropWhile_cons, hc]
  | cons d t ih =>
    by_cases hd : q d = true
    · simp [List.dropWhile_cons, hd, ih]
    · simp [List.dropWhile_cons, hd]

theorem afterEmptyChars_append (t y : CString) :
    afterEmptyChars (t ++ '<' :: y) = afterEmptyChars t ++ '<' :: y := by
  unfold afterEmptyChars
  rw [dropWhile_append_stop _ t '<' y (by decide), dropWhile_append_stop _ _ '<' y (by decide)]

theorem emptyChars_append_lt (t y : CString) :
    emptyChars (t ++ '<' :: y) = emptyChars t := by
  unfold emptyChars
  rw [takeWhile_append_stop _ t '<' y (by decide), dropWhile_append_stop _ t '<' y (by decide),
    takeWhile_append_stop _ _ '<' y (by decide)]

theorem afterEmptyChars_of_head {t : CString} (h1 : t.head? ≠ some ' ')
    (h2 : t.head? ≠ some '\n') : afterEmptyChars t = t := by
  cases t with
  | nil => rfl
  | cons c t =>
    have e1 : (c == ' ') = false := by
      simp only [beq_eq_false_iff_ne, ne_eq]
      intro hc
      exact h1 (by simp [hc])
    have e2 : (c == '\n') = false := by
      simp only [beq_eq_false_iff_ne, ne_eq]
      intro hc
      exact h2 (by simp [hc])
    simp [afterEmptyChars, List.dropWhile_cons, e1, e2]

theorem afterEmptyChars_no_lt {t : CString} (h : ∀ c ∈ t, c ≠ '<') :
    ∀ c ∈ afterEmptyChars t, c ≠ '<' := by
  intro c hc
  apply h c
  unfold afterEmptyChars at hc
  exact (List.dropWhile_sublist _).subset ((List.dropWhile_sublist _).subset hc)

theorem Cur.skipEmptyChars_text {t y pre : CString} {p : HTMLParser}
    (h : Cur p pre (t ++ '<' :: y)) :
    Cur p.skipEmptyChars (pre ++ emptyChars t) (afterEmptyChars t ++ '<' :: y) := by
  have h1 := Cur.skipEmptyChars h (by rw [afterEmptyChars_append]; simp)
  rw [afterEmptyChars_append, emptyChars_append_lt] at h1
  exact h1

theorem Cur.loop_text_plain {c : Char} {x pre : CString} {p : HTMLParser}
    (h : Cur p pre (c :: x)) (hc : c ≠ '<') (k : Nat) (node : HTMLNode) (f : Bool)
    (hf : f = true → c ≠ ' ' ∧ c ≠ '\n') :
    ∃ q, Cur q (pre ++ (c :: x).takeWhile (fun d => d != '<'))
        ((c :: x).dropWhile (fun d => d != '<')) ∧
      parseInternalLoop (k + 1) p node f =
        parseInternalLoop k q
          (node.setTextContent (node.getTextContent ++
            ((c :: x).takeWhile (fun d => d != '<')).filter (fun d => d != '\n'))) true := by
  cases f with
  | false => exact Cur.loop_text_first h hc k node
  | true =>
    have hc0 : (p.readChar true).1 ≠ '<' := by rw [h.readChar_fst true]; exact hc
    rw [loop_text_eq k p node true h.available hc0]
    simp only [if_true]
    have h1 := h.readChar.putback
    rw [Cur.skipEmptyChars_id h1 (hf rfl).1 (hf rfl).2]
    obtain ⟨_, e2, h2⟩ := h1.parseTextContent node
    rw [e2]
    exact ⟨_, h2, rfl⟩

theorem text_run {t y pre : CString} {p : HTMLParser} (ht : ∀ c ∈ t, c ≠ '<')
    (h : Cur p pre (t ++ '<' :: y)) (k : Nat) (hk : (t ++ '<' :: y).length + 1 ≤ k)
    (tg tx : CString) (at_ : List (CString × CString)) (ch : List HTMLNode) (f : Bool)
    (hf : f = true → t.head? ≠ some ' ' ∧ t.head? ≠ some '\n') :
    ∃ k2 q f2, Cur q (pre ++ t) ('<' :: y) ∧ ('<' :: y).length + 1 ≤ k2 ∧
      parseInternalLoop k p (HTMLNode.mk tg tx at_ ch) f =
        parseInternalLoop k2 q
          (HTMLNode.mk tg (tx ++ t.filter (fun d => d != '\n')) at_ ch) f2 := by
  cases t with
  | nil => exact ⟨k, p, f, by simpa using h, by simpa using hk, by simp⟩
  | cons c t =>
    obtain ⟨k, rfl⟩ : ∃ j, k = j + 1 := ⟨k - 1, by omega⟩
    have hf2 : f = true → c ≠ ' ' ∧ c ≠ '\n' := by
      intro e
      obtain ⟨h1, h2⟩ := hf e
      exact ⟨fun hc => h1 (by simp [hc]), fun hc => h2 (by simp [hc])⟩
    obtain ⟨q, hq, e⟩ := Cur.loop_text_plain (x := t ++ '<' :: y) h
      (ht c (List.mem_cons_self _ _)) k (HTMLNode.mk tg tx at_ ch) f hf2
    have e1 := takeWhile_text y ht
    have e2 := dropWhile_text y ht
    rw [List.cons_append] at e1 e2
    rw [e1] at e hq
    rw [e2] at hq
    refine ⟨k, q, true, hq, ?_, ?_⟩
    · simp at hk ⊢
      omega
    · rw [e]
      rfl

theorem element_run {n t : CString} {cs : List HTMLNode} (hn : IsName n)
    (ht : ∀ c ∈ t, c ≠ '<') (hA : ForestLoop cs) (pre rest : CString) (p : HTMLParser)
    (m : Nat)
    (h : Cur p pre (t ++ (serialiseForest cs ++ '<' :: '/' :: (n ++ '>' :: rest))))
    (hm : (t ++ (serialiseForest cs ++ '<' :: '/' :: (n ++ '>' :: rest))).length + 2 ≤ m) :
    ∃ q, Cur q (pre ++ (t ++ (serialiseForest cs ++ '<' :: '/' :: (n ++ ['>'])))) rest ∧
      parseInternal m p (HTMLNode.mk n [] [] []) =
        some (0, q, HTMLNode.mk n ((afterEmptyChars t).filter (fun d => d != '\n')) [] cs) := by
  obtain ⟨m, rfl⟩ : ∃ j, m = j + 1 := ⟨m - 1, by omega⟩
  obtain ⟨y, hy⟩ := serialiseForest_head cs ('/' :: (n ++ '>' :: rest))
  rw [parseInternal_succ, badState_false h.ok]
  simp only [Bool.false_eq_true, if_false]
  rw [hy] at h hm
  have h0 := h.skipEmptyChars_text
  have hlen : (afterEmptyChars t).length ≤ t.length := by
    have := congrArg List.length (emptyChars_append t)
    simp at this
    omega
  obtain ⟨k1, q1, f1, h1, hk1, e1⟩ := text_run (afterEmptyChars_no_lt ht) h0 m
    (by simp at hm ⊢; omega) n [] [] [] false (by simp)
  rw [e1]
  rw [← hy] at h1 hk1
  obtain ⟨k2, q2, h2, hk2, e2⟩ := hA _ ('<' :: '/' :: (n ++ '>' :: rest)) q1 k1 n
    ([] ++ (afterEmptyChars t).filter (fun d => d != '\n')) [] [] f1 h1 hk1
  rw [e2]
  obtain ⟨k2, rfl⟩ : ∃ j, k2 = j + 1 := ⟨k2 - 1, by omega⟩
  obtain ⟨q3, h3, e3⟩ := Cur.loop_close h2 k2 _ f1
  rw [e3, scanName_name rest hn]
  rw [scanned_name rest hn, unscanned_name rest hn] at h3
  refine ⟨q3, h3.cast ?_ rfl, ?_⟩
  · have := emptyChars_append t
    simp only [List.append_assoc]
    rw [← List.append_assoc (emptyChars t), this]
  · simp [HTMLNode.tagName]

theorem element_step {n t : CString} {cs : List HTMLNode} (hn : IsName n)
    (ht : ∀ c ∈ t, c ≠ '<') (hA : ForestLoop cs) (pre rest : CString) (p : HTMLParser)
    (k : Nat) (tg tx : CString) (at_ : List (CString × CString)) (ch : List HTMLNode)
    (f : Bool)
    (h : Cur p pre ('<' :: (n ++ '>' :: (t ++ (serialiseForest cs ++
        '<' :: '/' :: (n ++ '>' :: rest))))))
    (hk : ('<' :: (n ++ '>' :: (t ++ (serialiseForest cs ++
        '<' :: '/' :: (n ++ '>' :: rest))))).length ≤ k) :
    ∃ q, Cur q (pre ++ '<' :: (n ++ '>' :: (t ++ (serialiseForest cs ++
        '<' :: '/' :: (n ++ ['>']))))) rest ∧
      parseInternalLoop (k + 1) p (HTMLNode.mk tg tx at_ ch) f =
        parseInternalLoop k q (HTMLNode.mk tg tx at_ (ch ++
          [HTMLNode.mk n ((afterEmptyChars t).filter (fun d => d != '\n')) [] cs])) f := by
  obtain ⟨q, hq, e⟩ := Cur.loop_open_name hn h k (HTMLNode.mk tg tx at_ ch) f
  obtain ⟨q2, hq2, e2⟩ := element_run hn ht hA _ _ q k hq (by simp at hk ⊢; omega)
  rw [e, e2]
  simp only [Option.some_bind, badState_false hq2.ok, Bool.false_eq_true, if_false]
  exact ⟨q2, hq2.cast (by simp) rfl, rfl⟩

theorem forestLoop_nil : ForestLoop [] := by
  intro pre rest p k tg tx at_ ch f h hk
  rw [serialiseForest_nil] at h hk ⊢
  exact ⟨k, p, by simpa using h, by simpa using hk, by simp⟩

theorem forest_loop : ∀ (cs : List HTMLNode), WellFormedForest cs → ForestLoop cs
  | [], _ => forestLoop_nil
  | HTMLNode.mk n t a ce :: cs, hw => by
    rw [WellFormedForest, WellFormed] at hw
    obtain ⟨⟨hn, ht, ha, hwe⟩, hws⟩ := hw
    have hce := forest_loop ce hwe
    have hcs := forest_loop cs hws
    subst ha
    intro pre rest p k tg tx at_ ch f h hk
    have es : serialiseForest (HTMLNode.mk n t [] ce :: cs) ++ rest =
        '<' :: (n ++ '>' :: (t ++ (serialiseForest ce ++
          '<' :: '/' :: (n ++ '>' :: (serialiseForest cs ++ rest))))) := by
      rw [serialiseForest_cons, serialise_eq]
      simp
    rw [es] at h hk
    obtain ⟨k, rfl⟩ : ∃ j, k = j + 1 := ⟨k - 1, by omega⟩
    obtain ⟨q, hq, e⟩ := element_step hn (fun c hc => (ht.1 c hc).1) hce pre _ p k tg tx at_ ch
      f h (by omega)
    have ha : afterEmptyChars t = t :=
      afterEmptyChars_of_head ht.2 (fun hh => by
        cases t with
        | nil => simp at hh
        | cons c t =>
          simp at hh
          exact (ht.1 c (List.mem_cons_self _ _)).2 hh)
    rw [ha, filter_no_newline (fun c hc => (ht.1 c hc).2)] at e
    obtain ⟨k3, q3, hq3, hk3, e3⟩ := hcs _ rest q k tg tx at_ (ch ++ [HTMLNode.mk n t [] ce]) f
      hq (by simp at hk ⊢; omega)
    refine ⟨k3, q3, hq3.cast ?_ rfl, hk3, ?_⟩
    · rw [serialiseForest_cons, serialise_eq]
      simp
    · rw [e, e3]
      simp
termination_by cs => sizeOf cs

/-! ## Claims -/

/-- C1. Round trip: for every forest `f` of well-formed elements (names without `<`, `>`,
`/`, space, newline; texts without `<` or newline and not starting with a space),
serialised as `<n>` text children `</n>`, parsing the serialisation with a fresh parser
returns, ends with error code 0, and yields a root with empty tag and text whose children
are exactly `f`. -/
theorem roundtrip_wellformed (f : List HTMLNode) (hw : WellFormedForest f)
    (hl : (serialiseForest f).length < SIZE_MOD) :
    ∃ p, parseBuffer (serialiseForest f) = some p ∧ p.parserState = 0 ∧
      p.root = some (HTMLNode.mk [] [] [] f) := by
  rw [parseBuffer_eq, parseInternal_succ]
  have h0 := startState_cur _ hl
  have hs : (startState (serialiseForest f)).skipEmptyChars = startState (serialiseForest f) := by
    cases f with
    | nil =>
      apply @Cur.skipEmptyChars_nil []
      rw [serialiseForest_nil] at h0 ⊢
      exact h0
    | cons c cs =>
      cases c with
      | mk n t a ce =>
        rw [serialiseForest_cons, serialise_eq] at h0 ⊢
        exact Cur.skipEmptyChars_id h0 (by decide) (by decide)
  rw [badState_false h0.ok, hs]
  simp only [Bool.false_eq_true, if_false]
  obtain ⟨k2, q, hq, hk2, e⟩ := forest_loop f hw [] [] (startState (serialiseForest f))
    ((serialiseForest f).length + 1) [] [] [] [] false (by simpa using h0) (by simp)
  have ec : HTMLNode.create = HTMLNode.mk [] [] [] [] := rfl
  rw [ec, e]
  obtain ⟨k2, rfl⟩ : ∃ j, k2 = j + 1 := ⟨k2 - 1, by omega⟩
  rw [Cur.loop_eof hq]
  exact ⟨_, rfl, hq.ok, by simp⟩

/-- Witness of C1: the forest of `<a><b></b></a>`. -/
theorem roundtrip_wellformed_witness :
    WellFormedForest [HTMLNode.mk ['a'] [] [] [HTMLNode.mk ['b'] [] [] []]] ∧
    (serialiseForest [HTMLNode.mk ['a'] [] [] [HTMLNode.mk ['b'] [] [] []]]).length < SIZE_MOD ∧
    serialiseForest [HTMLNode.mk ['a'] [] [] [HTMLNode.mk ['b'] [] [] []]] =
      "<a><b></b></a>".toList ∧
    ∃ p, parseBuffer (serialiseForest [HTMLNode.mk ['a'] [] [] [HTMLNode.mk ['b'] [] [] []]])
        = some p ∧ p.parserState = 0 ∧
      p.root = some (HTMLNode.mk [] [] [] [HTMLNode.mk ['a'] [] [] [HTMLNode.mk ['b'] [] [] []]]) :=
  ⟨by simp [WellFormedForest, WellFormed, IsName, IsText], by decide, by decide,
    roundtrip_wellformed _ (by simp [WellFormedForest, WellFormed, IsName, IsText])
      (by decide)⟩

/-- C5. Tag mismatch: for all distinct names `a`, `b` and every suffix `s`, parsing
`<a><b></a>` followed by `s` returns, ends with error code `-2`, and the tree is exactly
root, `a`, `b` with empty texts, whatever `s` is. -/
theorem mismatch_freezes_tree (a b s : CString) (ha : IsName a) (hb : IsName b) (hab : a ≠ b)
    (hl : ('<' :: (a ++ '>' :: '<' :: (b ++ '>' :: '<' :: '/' :: (a ++ '>' :: s)))).length
      < SIZE_MOD) :
    ∃ p, parseBuffer ('<' :: (a ++ '>' :: '<' :: (b ++ '>' :: '<' :: '/' :: (a ++ '>' :: s))))
        = some p ∧ p.parserState = -2 ∧
      p.root = some (HTMLNode.mk [] [] [] [HTMLNode.mk a [] [] [HTMLNode.mk b [] [] []]]) := by
  rw [parseBuffer_lt _ hl]
  have h0 := startState_cur _ hl
  generalize startState _ = p0 at *
  generalize hk : (a ++ '>' :: '<' :: (b ++ '>' :: '<' :: '/' :: (a ++ '>' :: s))).length = L
  have hL : 6 ≤ L := by
    rw [← hk]
    simp
    omega
  obtain ⟨k, rfl⟩ : ∃ j, L = j + 6 := ⟨L - 6, by omega⟩
  obtain ⟨q1, h1, e1⟩ := Cur.loop_open_name ha h0 (k + 7) (HTMLNode.mk [] [] [] []) false
  rw [e1, parseInternal_succ, badState_false h1.ok,
    Cur.skipEmptyChars_id h1 (by decide) (by decide)]
  simp only [Bool.false_eq_true, if_false]
  obtain ⟨q2, h2, e2⟩ := Cur.loop_open_name hb h1 (k + 5) (HTMLNode.mk a [] [] []) false
  rw [e2, parseInternal_succ, badState_false h2.ok,
    Cur.skipEmptyChars_id h2 (by decide) (by decide)]
  simp only [Bool.false_eq_true, if_false]
  obtain ⟨q3, h3, e3⟩ := Cur.loop_close h2 (k + 3) (HTMLNode.mk b [] [] []) false
  rw [e3, scanName_name _ ha]
  have hne : a ≠ (HTMLNode.mk b [] [] []).tagName := hab
  simp only [ne_eq, hne, not_false_eq_true, if_true, Option.some_bind, parsingError_bad,
    Option.map_some']
  refine ⟨_, rfl, ?_, rfl⟩
  show (q3.parsingError (toSizeT (-2))).2.parserState = -2
  rw [parsingError_state, toInt_toSizeT_neg_two]

/-- Witness of C5: the buffer `<a><b></a></b>`. -/
theorem mismatch_freezes_tree_witness :
    IsName ['a'] ∧ IsName ['b'] ∧ ['a'] ≠ ['b'] ∧
    '<' :: (['a'] ++ '>' :: '<' :: (['b'] ++ '>' :: '<' :: '/' :: (['a'] ++ '>' ::
      "</b>".toList))) = "<a><b></a></b>".toList ∧
    ∃ p, parseBuffer ('<' :: (['a'] ++ '>' :: '<' :: (['b'] ++ '>' :: '<' :: '/' :: (['a'] ++
        '>' :: "</b>".toList)))) = some p ∧ p.parserState = -2 ∧
      p.root = some (HTMLNode.mk [] [] [] [HTMLNode.mk ['a'] [] [] [HTMLNode.mk ['b'] [] [] []]]) :=
  ⟨by simp [IsName], by simp [IsName], by decide, by decide,
    mismatch_freezes_tree ['a'] ['b'] "</b>".toList (by simp [IsName]) (by simp [IsName])
      (by decide) (by decide)⟩

/-- C3. Text content with newlines stripped: for every name `n` and every `t` without `<`
that does not start with a space or a newline, parsing `<n>` `t` `</n>` returns with error
code 0 and a root whose only child has tag `n`, no children, no attributes, and as text
`t` with the newlines filtered out. -/
theorem text_newlines_stripped (n t : CString) (hn : IsName n) (ht : ∀ c ∈ t, c ≠ '<')
    (h1 : t.head? ≠ some ' ') (h2 : t.head? ≠ some '\n')
    (hl : (['<'] ++ n ++ ['>'] ++ t ++ ['<', '/'] ++ n ++ ['>']).length < SIZE_MOD) :
    ∃ p, parseBuffer (['<'] ++ n ++ ['>'] ++ t ++ ['<', '/'] ++ n ++ ['>']) = some p ∧
      p.parserState = 0 ∧
      p.root = some (HTMLNode.mk [] [] []
        [HTMLNode.mk n (t.filter (fun d => d != '\n')) [] []]) := by
  have eb : ['<'] ++ n ++ ['>'] ++ t ++ ['<', '/'] ++ n ++ ['>'] =
      '<' :: (n ++ '>' :: (t ++ (serialiseForest [] ++ '<' :: '/' :: (n ++ '>' :: [])))) := by
    rw [serialiseForest_nil]
    simp
  rw [eb] at hl ⊢
  rw [parseBuffer_lt _ hl]
  have h0 := startState_cur _ hl
  generalize startState _ = p0 at *
  generalize hL : (n ++ '>' :: (t ++ (serialiseForest [] ++
      '<' :: '/' :: (n ++ '>' :: [])))).length = L
  obtain ⟨q, hq, e⟩ := element_step hn ht forestLoop_nil [] [] p0 (L + 1) [] [] [] [] false h0
    (by rw [List.length_cons, hL])
  rw [e, afterEmptyChars_of_head h1 h2, Cur.loop_eof hq]
  exact ⟨_, rfl, hq.ok, rfl⟩

/-- Witness of C3: the buffers `<a>hello</a>` and `<a>line1`, newline, `line2</a>`. -/
theorem text_newlines_stripped_witness :
    (∃ p, parseBuffer "<a>hello</a>".toList = some p ∧ p.parserState = 0 ∧
      p.root = some (HTMLNode.mk [] [] [] [HTMLNode.mk ['a'] "hello".toList [] []])) ∧
    (∃ p, parseBuffer "<a>line1\nline2</a>".toList = some p ∧ p.parserState = 0 ∧
      p.root = some (HTMLNode.mk [] [] [] [HTMLNode.mk ['a'] "line1line2".toList [] []])) :=
  ⟨text_newlines_stripped ['a'] "hello".toList (by simp [IsName]) (by decide) (by decide)
      (by decide) (by decide),
    text_newlines_stripped ['a'] "line1\nline2".toList (by simp [IsName]) (by decide)
      (by decide) (by decide) (by decide)⟩

theorem IsText.no_lt {t : CString} (h : IsText t) : ∀ c ∈ t, c ≠ '<' :=
  fun c hc => (h.1 c hc).1

theorem IsText.no_newline {t : CString} (h : IsText t) : ∀ c ∈ t, c ≠ '\n' :=
  fun c hc => (h.1 c hc).2

theorem IsText.head_newline {t : CString} (h : IsText t) : t.head? ≠ some '\n' := by
  cases t with
  | nil => simp
  | cons c t =>
    intro hh
    simp at hh
    exact (h.1 c (List.mem_cons_self _ _)).2 hh

theorem IsText.filter_after {t : CString} (h : IsText t) :
    (afterEmptyChars t).filter (fun d => d != '\n') = t := by
  rw [afterEmptyChars_of_head h.2 h.head_newline, filter_no_newline h.no_newline]

/-- C4. Split text runs: for all names `a`, `b` and all texts `x`, `y`, `z` (without `<` or
newline, not starting with a space), parsing `<a>` `x` `<b>` `z` `</b>` `y` `</a>` returns
with error code 0; node `a` has text `x ++ y` and the single child `b`, whose text is `z`. -/
theorem split_text_concatenated (a b x y z : CString) (ha : IsName a) (hb : IsName b)
    (hx : IsText x) (hy : IsText y) (hz : IsText z)
    (hl : (['<'] ++ a ++ ['>'] ++ x ++ ['<'] ++ b ++ ['>'] ++ z ++ ['<', '/'] ++ b ++ ['>'] ++ y
      ++ ['<', '/'] ++ a ++ ['>']).length < SIZE_MOD) :
    ∃ p, parseBuffer (['<'] ++ a ++ ['>'] ++ x ++ ['<'] ++ b ++ ['>'] ++ z ++ ['<', '/'] ++ b
        ++ ['>'] ++ y ++ ['<', '/'] ++ a ++ ['>']) = some p ∧ p.parserState = 0 ∧
      p.root = some (HTMLNode.mk [] [] []
        [HTMLNode.mk a (x ++ y) [] [HTMLNode.mk b z [] []]]) := by
  have eb : ['<'] ++ a ++ ['>'] ++ x ++ ['<'] ++ b ++ ['>'] ++ z ++ ['<', '/'] ++ b ++ ['>'] ++ y
      ++ ['<', '/'] ++ a ++ ['>'] =
      '<' :: (a ++ '>' :: (x ++ '<' :: (b ++ '>' :: (z ++ (serialiseForest [] ++
        '<' :: '/' :: (b ++ '>' :: (y ++ '<' :: '/' :: (a ++ '>' :: [])))))))) := by
    rw [serialiseForest_nil]
    simp
  rw [eb] at hl ⊢
  rw [parseBuffer_lt _ hl]
  have h0 := startState_cur _ hl
  generalize startState _ = p0 at *
  generalize hL : (a ++ '>' :: (x ++ '<' :: (b ++ '>' :: (z ++ (serialiseForest [] ++
        '<' :: '/' :: (b ++ '>' :: (y ++ '<' :: '/' :: (a ++ '>' :: [])))))))).length = L
  -- the opening tag of `a`
  obtain ⟨q1, h1, e1⟩ := Cur.loop_open_name ha h0 (L + 1) (HTMLNode.mk [] [] [] []) false
  rw [e1]
  obtain ⟨L1, hL1⟩ : ∃ j, L = j + 1 := ⟨L - 1, by rw [← hL]; simp; omega⟩
  subst hL1
  rw [parseInternal_succ, badState_false h1.ok]
  simp only [Bool.false_eq_true, if_false]
  have h1s := h1.skipEmptyChars_text
  rw [afterEmptyChars_of_head hx.2 hx.head_newline] at h1s
  -- the text `x`
  obtain ⟨k2, q2, f2, h2, hk2, e2⟩ := text_run hx.no_lt h1s (L1 + 1)
    (by rw [← hL]; simp) a [] [] [] false (by simp)
  rw [e2, filter_no_newline hx.no_newline]
  -- the element `b`
  obtain ⟨k2, rfl⟩ : ∃ j, k2 = j + 1 := ⟨k2 - 1, by omega⟩
  obtain ⟨q3, h3, e3⟩ := element_step hb hz.no_lt forestLoop_nil _ _ q2 k2 a ([] ++ x) [] [] f2
    h2 (by omega)
  rw [e3, hz.filter_after]
  -- the text `y`
  obtain ⟨k4, q4, f4, h4, hk4, e4⟩ := text_run hy.no_lt h3 k2
    (by simp at hk2 ⊢; omega) a ([] ++ x) [] ([] ++ [HTMLNode.mk b z [] []]) f2
    (fun _ => ⟨hy.2, hy.head_newline⟩)
  rw [e4, filter_no_newline hy.no_newline]
  -- the closing tag of `a`
  obtain ⟨k4, rfl⟩ : ∃ j, k4 = j + 1 := ⟨k4 - 1, by omega⟩
  obtain ⟨q5, h5, e5⟩ := Cur.loop_close h4 k4 _ f4
  rw [e5, scanName_name [] ha]
  rw [scanned_name [] ha, unscanned_name [] ha] at h5
  simp only [HTMLNode.tagName, ne_eq, not_true_eq_false, if_false, Option.some_bind,
    badState_false h5.ok, Bool.false_eq_true]
  rw [Cur.loop_eof h5]
  exact ⟨_, rfl, h5.ok, by simp [HTMLNode.appendNode]⟩

/-- Witness of C4: the buffer `<a>x<b></b>y</a>`. -/
theorem split_text_concatenated_witness :
    ∃ p, parseBuffer "<a>x<b></b>y</a>".toList = some p ∧ p.parserState = 0 ∧
      p.root = some (HTMLNode.mk [] [] []
        [HTMLNode.mk ['a'] "xy".toList [] [HTMLNode.mk ['b'] [] [] []]]) :=
  split_text_concatenated ['a'] ['b'] ['x'] ['y'] [] (by simp [IsName]) (by simp [IsName])
    (by simp [IsText]) (by simp [IsText]) (by simp [IsText]) (by decide)

theorem nodes_eq (t x : CString) (a : List (CString × CString)) (cs : List HTMLNode) :
    (HTMLNode.mk t x a cs).nodes = HTMLNode.mk t x a cs :: nodesOfList cs := by
  rw [HTMLNode.nodes]

theorem nodesOfList_nil : nodesOfList [] = [] := by
  rw [nodesOfList]

theorem nodesOfList_cons (c : HTMLNode) (cs : List HTMLNode) :
    nodesOfList (c :: cs) = c.nodes ++ nodesOfList cs := by
  rw [nodesOfList]

theorem nodesOfList_append (cs ds : List HTMLNode) :
    nodesOfList (cs ++ ds) = nodesOfList cs ++ nodesOfList ds := by
  induction cs with
  | nil => simp [nodesOfList_nil]
  | cons c cs ih => simp [nodesOfList_cons, ih]

theorem nodes_appendNode (node c : HTMLNode) :
    (node.appendNode c).nodes =
      HTMLNode.mk node.tagName node.getTextContent node.attribs (node.children ++ [c]) ::
        (nodesOfList node.children ++ c.nodes) := by
  cases node with
  | mk t x a cs =>
    simp [HTMLNode.appendNode, nodes_eq, nodesOfList_append, nodesOfList_cons, nodesOfList_nil,
      HTMLNode.tagName, HTMLNode.getTextContent, HTMLNode.attribs, HTMLNode.children]

theorem nodes_setTextContent (node : HTMLNode) (t : CString) :
    (node.setTextContent t).nodes =
      HTMLNode.mk node.tagName t node.attribs node.children :: nodesOfList node.children := by
  cases node with
  | mk tg x a cs =>
    simp [HTMLNode.setTextContent, nodes_eq, HTMLNode.tagName, HTMLNode.attribs,
      HTMLNode.children]

theorem nodes_self (node : HTMLNode) :
    node.nodes = node :: nodesOfList node.children := by
  cases node with
  | mk tg x a cs => simp [nodes_eq, HTMLNode.children]

theorem parseTag_node (p : HTMLParser) (node : HTMLNode) :
    (p.parseTag node).2.2 = node ∨ ∃ name, (p.parseTag node).2.2 = node.setTagName name := by
  unfold parseTag
  split
  · exact Or.inl rfl
  · simp only []
    split
    · exact Or.inl rfl
    · exact Or.inr ⟨_, rfl⟩

theorem parseTextContent_node (p : HTMLParser) (node : HTMLNode) :
    (p.parseTextContent node).2.2 = node ∨
      ∃ t, (p.parseTextContent node).2.2 = node.setTextContent t := by
  unfold parseTextContent
  split
  · exact Or.inl rfl
  · exact Or.inr ⟨_, rfl⟩

theorem parseInternal_invariant (P : HTMLNode → Prop)
    (hTag : ∀ p : HTMLParser, P (p.parseTag HTMLNode.create).2.2)
    (hText : ∀ (p : HTMLParser) (node : HTMLNode), P node → P (p.parseTextContent node).2.2)
    (hApp : ∀ node c : HTMLNode, P node → P c → P (node.appendNode c)) :
    ∀ k : Nat,
      (∀ (p : HTMLParser) (node : HTMLNode) (r : Int × HTMLParser × HTMLNode),
        parseInternal k p node = some r → P node → P r.2.2) ∧
      (∀ (p : HTMLParser) (node : HTMLNode) (f : Bool) (r : Int × HTMLParser × HTMLNode),
        parseInternalLoop k p node f = some r → P node → P r.2.2) := by
  intro k
  induction k with
  | zero =>
    constructor
    · intro p node r h
      rw [parseInternal] at h
      cases h
    · intro p node f r h
      rw [parseInternalLoop] at h
      cases h
  | succ k ih =>
    obtain ⟨ihI, ihL⟩ := ih
    constructor
    · intro p node r h hP
      rw [parseInternal_succ] at h
      split at h
      · cases h
        exact hP
      · exact ihL _ _ _ _ h hP
    · intro p node f r h hP
      by_cases ha : p.available = true
      · by_cases hc : (p.readChar true).1 = '<'
        · by_cases ha2 : (p.readChar true).2.skipEmptyChars.available = true
          · by_cases hs : ((p.readChar true).2.skipEmptyChars.readChar true).1 = '/'
            · rw [loop_close_eq k p node f ha hc ha2 hs] at h
              split at h <;> (cases h; exact hP)
            · rw [loop_open_eq k p node f ha hc ha2 hs] at h
              cases hr : parseInternal k
                  ((((p.readChar true).2.skipEmptyChars.readChar true).2.putback 1).parseTag
                    HTMLNode.create).2.1
                  ((((p.readChar true).2.skipEmptyChars.readChar true).2.putback 1).parseTag
                    HTMLNode.create).2.2 with
              | none =>
                rw [hr] at h
                cases h
              | some s =>
                rw [hr] at h
                simp only [Option.some_bind] at h
                have hs2 := ihI _ _ _ hr (hTag _)
                split at h
                · cases h
                  exact hApp _ _ hP hs2
                · exact ihL _ _ _ _ h (hApp _ _ hP hs2)
          · have ha2f : (p.readChar true).2.skipEmptyChars.available = false := by
              simpa using ha2
            rw [loop_lt_eof_eq k p node f ha hc ha2f] at h
            cases h
            exact hP
        · rw [loop_text_eq k p node f ha hc] at h
          exact ihL _ _ _ _ h (hText _ _ hP)
      · have haf : p.available = false := by simpa using ha
        rw [loop_eof_eq k p node f haf] at h
        cases h
        exact hP

theorem parseBuffer_total (buf : CString) (hl : buf.length < SIZE_MOD) :
    ∃ r, parseInternal (buf.length + 2) (startState buf) HTMLNode.create = some r ∧
      RunOk (startState buf) r :=
  (parseInternal_total_aux (buf.length + 2)).1 (startState buf) HTMLNode.create
    ⟨hl, Nat.zero_le _⟩ (by show buf.length - 0 + 2 ≤ buf.length + 2; omega)

theorem scan_junk {n j : CString} {sep : Char} (x : CString) (hn : IsName n)
    (hsep : sep = ' ' ∨ sep = '\n') (hj : ∀ c ∈ j, c ≠ '>') :
    scanName (n ++ sep :: (j ++ '>' :: x)) = n ∧
    scanned (n ++ sep :: (j ++ '>' :: x)) = n ++ sep :: (j ++ ['>']) ∧
    unscanned (n ++ sep :: (j ++ '>' :: x)) = x := by
  have hend : isNameEnd sep = true := by
    rcases hsep with rfl | rfl <;> rfl
  have hgt : sep ≠ '>' := by
    rcases hsep with rfl | rfl <;> decide
  have e1 : scanName (n ++ sep :: (j ++ '>' :: x)) = n := by
    unfold scanName
    rw [takeWhile_append_of_all _ n _ hn.not_end]
    simp [List.takeWhile_cons, hend]
  have hj2 : ∀ d ∈ j, (fun c => c != '>') d = true := fun d hd => by simpa using hj d hd
  have e2 : (j ++ '>' :: x).takeWhile (fun c => c != '>') = j := by
    rw [takeWhile_append_of_all _ j _ hj2]
    simp [List.takeWhile_cons]
  have e3 : (j ++ '>' :: x).dropWhile (fun c => c != '>') = '>' :: x := by
    rw [dropWhile_append_of_all _ j _ hj2]
    simp [List.dropWhile_cons]
  refine ⟨e1, ?_, ?_⟩
  · unfold scanned
    rw [e1, dropWhile_append_of_all _ n _ hn.not_end]
    simp [List.dropWhile_cons, hend, scanTail, hgt, e2, e3]
  · unfold unscanned
    rw [dropWhile_append_of_all _ n _ hn.not_end]
    simp [List.dropWhile_cons, hend, scanTail, hgt, e3]

theorem Cur.loop_open_junk {n j x pre : CString} {sep : Char} {p : HTMLParser} (hn : IsName n)
    (hsep : sep = ' ' ∨ sep = '\n') (hj : ∀ c ∈ j, c ≠ '>')
    (h : Cur p pre ('<' :: (n ++ sep :: (j ++ '>' :: x)))) (k : Nat) (node : HTMLNode)
    (f : Bool) :
    ∃ q, Cur q (pre ++ '<' :: (n ++ sep :: (j ++ ['>']))) x ∧
      parseInternalLoop (k + 1) p node f =
        (parseInternal k q (HTMLNode.mk n [] [] [])).bind fun s =>
          if s.2.1.badState then some (s.2.1.LogError, s.2.1, node.appendNode s.2.2)
          else parseInternalLoop k s.2.1 (node.appendNode s.2.2) f := by
  obtain ⟨c, n2, e, h1, h2, h3⟩ := hn.head
  have h0 : Cur p pre ('<' :: c :: (n2 ++ sep :: (j ++ '>' :: x))) :=
    h.cast rfl (by rw [e]; rfl)
  obtain ⟨q, hq, eq⟩ := Cur.loop_open h0 h1 h2 h3 k node f
  have en : c :: (n2 ++ sep :: (j ++ '>' :: x)) = n ++ sep :: (j ++ '>' :: x) := by
    rw [e]; rfl
  obtain ⟨e1, e2, e3⟩ := scan_junk x hn hsep hj
  rw [en] at hq eq
  rw [e1] at eq
  rw [e2, e3] at hq
  exact ⟨q, hq, eq⟩

theorem no_attribs_everywhere (buf : CString) (hl : buf.length < SIZE_MOD) :
    ∃ p root, parseBuffer buf = some p ∧ p.root = some root ∧
      ∀ m ∈ root.nodes, m.attribs = [] := by
  obtain ⟨r, hr, _⟩ := parseBuffer_total buf hl
  rw [parseBuffer_eq, hr]
  refine ⟨_, r.2.2, rfl, rfl, ?_⟩
  refine (parseInternal_invariant (fun node => ∀ m ∈ node.nodes, m.attribs = []) ?_ ?_ ?_
    (buf.length + 2)).1 _ _ _ hr ?_
  · intro p
    rcases parseTag_node p HTMLNode.create with e | ⟨name, e⟩ <;> rw [e] <;> intro m hm
    · simp [HTMLNode.create, nodes_eq, nodesOfList_nil] at hm
      rw [hm]; rfl
    · simp [HTMLNode.create, HTMLNode.setTagName, nodes_eq, nodesOfList_nil] at hm
      rw [hm]; rfl
  · intro p node hP
    rcases parseTextContent_node p node with e | ⟨t, e⟩ <;> rw [e]
    · exact hP
    · intro m hm
      rw [nodes_setTextContent] at hm
      rcases List.mem_cons.1 hm with rfl | hm
      · have := hP node (by rw [nodes_self]; exact List.mem_cons_self _ _)
        simpa [HTMLNode.attribs] using this
      · exact hP m (by rw [nodes_self]; exact List.mem_cons_of_mem _ hm)
  · intro node c hP hc m hm
    rw [nodes_appendNode] at hm
    rcases List.mem_cons.1 hm with rfl | hm
    · have := hP node (by rw [nodes_self]; exact List.mem_cons_self _ _)
      simpa [HTMLNode.attribs] using this
    · rcases List.mem_append.1 hm with hm | hm
      · exact hP m (by rw [nodes_self]; exact List.mem_cons_of_mem _ hm)
      · exact hc m hm
  · intro m hm
    simp [HTMLNode.create, nodes_eq, nodesOfList_nil] at hm
    rw [hm]; rfl

theorem junk_same_tree (n j t : CString) (hn : IsName n) (hj : ∀ c ∈ j, c ≠ '>')
    (ht : ∀ c ∈ t, c ≠ '<')
    (hl : (['<'] ++ n ++ [' '] ++ j ++ ['>'] ++ t ++ ['<', '/'] ++ n ++ ['>']).length
      < SIZE_MOD) :
    (∃ p, parseBuffer (['<'] ++ n ++ [' '] ++ j ++ ['>'] ++ t ++ ['<', '/'] ++ n ++ ['>'])
        = some p ∧ p.parserState = 0 ∧
      p.root = some (HTMLNode.mk [] [] []
        [HTMLNode.mk n ((afterEmptyChars t).filter (fun d => d != '\n')) [] []])) ∧
    (∃ p, parseBuffer (['<'] ++ n ++ ['>'] ++ t ++ ['<', '/'] ++ n ++ ['>']) = some p ∧
      p.parserState = 0 ∧
      p.root = some (HTMLNode.mk [] [] []
        [HTMLNode.mk n ((afterEmptyChars t).filter (fun d => d != '\n')) [] []])) := by
  have eb1 : ['<'] ++ n ++ [' '] ++ j ++ ['>'] ++ t ++ ['<', '/'] ++ n ++ ['>'] =
      '<' :: (n ++ ' ' :: (j ++ '>' :: (t ++ (serialiseForest [] ++
        '<' :: '/' :: (n ++ '>' :: []))))) := by
    rw [serialiseForest_nil]
    simp
  have eb2 : ['<'] ++ n ++ ['>'] ++ t ++ ['<', '/'] ++ n ++ ['>'] =
      '<' :: (n ++ '>' :: (t ++ (serialiseForest [] ++ '<' :: '/' :: (n ++ '>' :: [])))) := by
    rw [serialiseForest_nil]
    simp
  have hl2 : ('<' :: (n ++ '>' :: (t ++ (serialiseForest [] ++
      '<' :: '/' :: (n ++ '>' :: []))))).length < SIZE_MOD := by
    refine lt_of_le_of_lt ?_ hl
    rw [serialiseForest_nil]
    simp
    omega
  rw [eb1] at hl ⊢
  rw [eb2]
  constructor
  · rw [parseBuffer_lt _ hl]
    have h0 := startState_cur _ hl
    generalize startState _ = p0 at *
    generalize hL : (n ++ ' ' :: (j ++ '>' :: (t ++ (serialiseForest [] ++
        '<' :: '/' :: (n ++ '>' :: []))))).length = L
    obtain ⟨q1, h1, e1⟩ := Cur.loop_open_junk hn (Or.inl rfl) hj h0 (L + 1)
      (HTMLNode.mk [] [] [] []) false
    obtain ⟨q2, h2, e2⟩ := element_run hn ht forestLoop_nil _ [] q1 (L + 1) h1
      (by rw [← hL]; simp; omega)
    rw [e1, e2]
    simp only [Option.some_bind, badState_false h2.ok, Bool.false_eq_true, if_false]
    rw [Cur.loop_eof h2]
    exact ⟨_, rfl, h2.ok, rfl⟩
  · rw [parseBuffer_lt _ hl2]
    have h0 := startState_cur _ hl2
    generalize startState _ = p0 at *
    generalize hL : (n ++ '>' :: (t ++ (serialiseForest [] ++
        '<' :: '/' :: (n ++ '>' :: [])))).length = L
    obtain ⟨q, hq, e⟩ := element_step hn ht forestLoop_nil [] [] p0 (L + 1) [] [] [] [] false
      h0 (by rw [List.length_cons, hL])
    rw [e, Cur.loop_eof hq]
    exact ⟨_, rfl, hq.ok, rfl⟩

/-- C6. Attribute-like content is discarded: for every name `n`, every junk `j` without `>`
and every text `t` without `<`, parsing `<n ` `j` `>` `t` `</n>` and parsing `<n>` `t`
`</n>` both return, with the same tree and the same error code; and for every buffer the
parse returns a tree in which the attribute map of every node is empty. -/
theorem attributes_discarded :
    (∀ n j t : CString, IsName n → (∀ c ∈ j, c ≠ '>') → (∀ c ∈ t, c ≠ '<') →
      (['<'] ++ n ++ [' '] ++ j ++ ['>'] ++ t ++ ['<', '/'] ++ n ++ ['>']).length < SIZE_MOD →
      ∃ p1 p2,
        parseBuffer (['<'] ++ n ++ [' '] ++ j ++ ['>'] ++ t ++ ['<', '/'] ++ n ++ ['>'])
          = some p1 ∧
        parseBuffer (['<'] ++ n ++ ['>'] ++ t ++ ['<', '/'] ++ n ++ ['>']) = some p2 ∧
        p1.root = p2.root ∧ p1.parserState = p2.parserState) ∧
    (∀ buf : CString, buf.length < SIZE_MOD →
      ∃ p root, parseBuffer buf = some p ∧ p.root = some root ∧
        ∀ m ∈ root.nodes, m.attribs = []) := by
  constructor
  · intro n j t hn hj ht hl
    obtain ⟨⟨p1, e1, s1, r1⟩, ⟨p2, e2, s2, r2⟩⟩ := junk_same_tree n j t hn hj ht hl
    exact ⟨p1, p2, e1, e2, r1.trans r2.symm, s1.trans s2.symm⟩
  · exact no_attribs_everywhere

/-- Witness of C6: the buffer with `class` and `id` junk in the tag of `a`. -/
theorem attributes_discarded_witness :
    (∃ p1 p2, parseBuffer "<a class=\"x\" id='y'>t</a>".toList = some p1 ∧
      parseBuffer "<a>t</a>".toList = some p2 ∧ p1.root = p2.root ∧
      p1.parserState = p2.parserState) ∧
    (∃ p root, parseBuffer "<a class=\"x\" id='y'>t</a>".toList = some p ∧
      p.root = some root ∧ ∀ m ∈ root.nodes, m.attribs = []) :=
  ⟨attributes_discarded.1 ['a'] "class=\"x\" id='y'".toList ['t'] (by simp [IsName])
      (by decide) (by decide) (by decide),
    attributes_discarded.2 "<a class=\"x\" id='y'>t</a>".toList (by decide)⟩

theorem dropWhile_head_false {α : Type} (q : α → Bool) :
    ∀ (l : List α) (d : α) (r : List α), l.dropWhile q = d :: r → q d = false := by
  intro l
  induction l with
  | nil => intro d r h; simp at h
  | cons a l ih =>
    intro d r h
    by_cases ha : q a = true
    · rw [List.dropWhile_cons, if_pos ha] at h
      exact ih d r h
    · rw [List.dropWhile_cons, if_neg ha] at h
      cases h
      simpa using ha

theorem isNameEnd_false_iff (c : Char) :
    (!isNameEnd c) = true ↔ c ≠ '>' ∧ c ≠ ' ' ∧ c ≠ '\n' := by
  simp [isNameEnd, and_assoc]

theorem isNameEnd_cases {c : Char} (h : (!isNameEnd c) = false) :
    c = '>' ∨ c = ' ' ∨ c = '\n' := by
  by_contra hn
  simp only [not_or] at hn
  have := (isNameEnd_false_iff c).2 ⟨hn.1, hn.2.1, hn.2.2⟩
  rw [h] at this
  cases this

/-- C9. Tag name scanner: from every state without error whose cursor `p` is inside the
buffer, `parseTagName` returns `0`, leaves the error code and the buffer unchanged, and
returns as name the longest prefix of `buffer[p..]` without `>`, space or newline (what
follows it is empty or starts with such a terminator).  The cursor ends just past a
terminating `>`; just past the first `>` after a terminating space or newline, or at the
end of the buffer when there is none; at the end of the buffer when there is no
terminator. -/
theorem tag_name_scanner (p : HTMLParser) (hf : p.htmlRawDocument.length < SIZE_MOD)
    (hb : p.readingPos ≤ p.htmlRawDocument.length) (h0 : p.parserState = 0) :
    p.parseTagName.1 = 0 ∧ p.parseTagName.2.2.parserState = p.parserState ∧
    p.parseTagName.2.2.htmlRawDocument = p.htmlRawDocument ∧
    ∃ name after, p.htmlRawDocument.drop p.readingPos = name ++ after ∧
      p.parseTagName.2.1 = name ∧ (∀ c ∈ name, c ≠ '>' ∧ c ≠ ' ' ∧ c ≠ '\n') ∧
      ((after = [] ∧ p.parseTagName.2.2.readingPos = p.htmlRawDocument.length) ∨
       (∃ more, after = '>' :: more ∧
          p.parseTagName.2.2.readingPos = p.readingPos + name.length + 1) ∨
       (∃ t more, after = t :: more ∧ (t = ' ' ∨ t = '\n') ∧
          ((∃ j more2, more = j ++ '>' :: more2 ∧ (∀ c ∈ j, c ≠ '>') ∧
              p.parseTagName.2.2.readingPos = p.readingPos + name.length + 1 + j.length + 1) ∨
           ((∀ c ∈ more, c ≠ '>') ∧
              p.parseTagName.2.2.readingPos = p.htmlRawDocument.length)))) := by
  have hc := Cur.of_inBuf ⟨hf, hb⟩ h0
  obtain ⟨e0, e1, h1⟩ := hc.parseTagName
  have hfw := (parseTagName_fwd ⟨hf, hb⟩).1
  have hpre : (p.htmlRawDocument.take p.readingPos).length = p.readingPos := by
    rw [List.length_take]
    exact min_eq_left hb
  have hlen : p.htmlRawDocument.length =
      p.readingPos + (p.htmlRawDocument.drop p.readingPos).length := by
    rw [List.length_drop]
    omega
  have hpos := h1.pos
  rw [List.length_append, hpre] at hpos
  generalize p.htmlRawDocument.drop p.readingPos = x at *
  generalize p.parseTagName = r at *
  have hx : x = scanName x ++ x.dropWhile (fun c => !isNameEnd c) :=
    (List.takeWhile_append_dropWhile _ _).symm
  have hname : ∀ c ∈ scanName x, c ≠ '>' ∧ c ≠ ' ' ∧ c ≠ '\n' := by
    intro c hc
    have hc2 : (fun c => !isNameEnd c) c = true :=
      List.mem_takeWhile_imp (p := fun c => !isNameEnd c) hc
    exact (isNameEnd_false_iff c).1 hc2
  have hxl : x.length = (scanName x).length + (x.dropWhile (fun c => !isNameEnd c)).length := by
    have := congrArg List.length hx
    rw [List.length_append] at this
    exact this
  refine ⟨e0, hfw.st, hfw.doc, scanName x, x.dropWhile (fun c => !isNameEnd c), hx, e1, hname, ?_⟩
  unfold scanned at hpos
  cases hd : x.dropWhile (fun c => !isNameEnd c) with
  | nil =>
    rw [hd] at hpos hxl
    left
    refine ⟨rfl, ?_⟩
    simp [scanTail] at hpos hxl
    omega
  | cons t more =>
    rw [hd] at hpos hxl
    have ht := isNameEnd_cases (dropWhile_head_false _ x t more hd)
    right
    by_cases hgt : t = '>'
    · left
      subst hgt
      refine ⟨more, rfl, ?_⟩
      simp [scanTail] at hpos
      omega
    · right
      have ht2 : t = ' ' ∨ t = '\n' := by
        rcases ht with h | h
        · exact absurd h hgt
        · exact h
      refine ⟨t, more, rfl, ht2, ?_⟩
      have hm : more = more.takeWhile (fun c => c != '>') ++ more.dropWhile (fun c => c != '>') :=
        (List.takeWhile_append_dropWhile _ _).symm
      have hj : ∀ c ∈ more.takeWhile (fun c => c != '>'), c ≠ '>' := by
        intro c hc
        simpa using List.mem_takeWhile_imp hc
      have hml := congrArg List.length hm
      rw [List.length_append] at hml
      cases hd2 : more.dropWhile (fun c => c != '>') with
      | nil =>
        right
        rw [hd2] at hm hml
        simp [scanTail, hgt, hd2] at hpos hxl
        refine ⟨?_, by simp at hml; omega⟩
        rw [hm]
        simpa using hj
      | cons d r2 =>
        left
        have hdgt : d = '>' := by
          simpa using dropWhile_head_false _ more d r2 hd2
        subst hdgt
        rw [hd2] at hm
        refine ⟨_, r2, hm, hj, ?_⟩
        simp [scanTail, hgt, hd2] at hpos
        omega

/-- Witness of C9: the scanner on `div class>x` from offset 0 returns `div` and stops at offset 10. -/
theorem tag_name_scanner_witness :
    (startState "div class>x".toList).parseTagName.2.1 = "div".toList ∧
    (startState "div class>x".toList).parseTagName.2.2.readingPos = 10 ∧
    (startState "div class>x".toList).parseTagName.1 = 0 ∧
    ∃ name after, "div class>x".toList.drop 0 = name ++ after ∧
      (startState "div class>x".toList).parseTagName.2.1 = name :=
  ⟨by decide, by decide, (tag_name_scanner (startState "div class>x".toList) (by decide)
      (by decide) (by decide)).1,
    (tag_name_scanner (startState "div class>x".toList) (by decide) (by decide)
      (by decide)).2.2.2.imp fun _ h => h.imp fun _ h2 => ⟨h2.1, h2.2.1⟩⟩

theorem Kept.same (p : HTMLParser) : Kept p p :=
  ⟨rfl, rfl, rfl, rfl, rfl, rfl, rfl, rfl⟩

theorem Kept.kthen {p q r : HTMLParser} (h1 : Kept p q) (h2 : Kept q r) : Kept p r :=
  ⟨h2.filepath.trans h1.filepath, h2.doc.trans h1.doc, h2.loaded.trans h1.loaded,
    h2.root.trans h1.root, h2.oldLine.trans h1.oldLine, h2.oldColmn.trans h1.oldColmn,
    h2.oldPos.trans h1.oldPos, h2.st.trans h1.st⟩

theorem Static.fixed (p : HTMLParser) : Static p p := ⟨rfl, rfl, rfl, rfl⟩

theorem Static.sthen {p q r : HTMLParser} (h1 : Static p q) (h2 : Static q r) : Static p r :=
  ⟨h2.filepath.trans h1.filepath, h2.doc.trans h1.doc, h2.loaded.trans h1.loaded,
    h2.root.trans h1.root⟩

theorem Kept.static {p q : HTMLParser} (h : Kept p q) : Static p q :=
  ⟨h.filepath, h.doc, h.loaded, h.root⟩

theorem readChar_kept (p : HTMLParser) (a : Bool) : Kept p (p.readChar a).2 := by
  unfold readChar
  split
  · exact Kept.same p
  · simp only []
    split
    · split <;> exact ⟨rfl, rfl, rfl, rfl, rfl, rfl, rfl, rfl⟩
    · exact Kept.same p

theorem putback_kept (p : HTMLParser) (n : Nat) : Kept p (p.putback n) :=
  ⟨rfl, rfl, rfl, rfl, rfl, rfl, rfl, rfl⟩

theorem skipUntilLoop_kept (ch : Char) :
    ∀ (k : Nat) (p : HTMLParser), Kept p (skipUntilLoop k p ch) := by
  intro k
  induction k with
  | zero => intro p; exact Kept.same p
  | succ k ih =>
    intro p
    unfold skipUntilLoop
    split
    · simp only []
      split
      · exact (readChar_kept p true).kthen (ih _)
      · exact readChar_kept p true
    · exact Kept.same p

theorem skipUntil_kept (p : HTMLParser) (ch : Char) : Kept p (p.skipUntil ch) :=
  skipUntilLoop_kept ch _ p

theorem skipUntilNotLoop_kept (ch : Char) :
    ∀ (k : Nat) (p : HTMLParser), Kept p (skipUntilNotLoop k p ch) := by
  intro k
  induction k with
  | zero => intro p; exact Kept.same p
  | succ k ih =>
    intro p
    unfold skipUntilNotLoop
    split
    · simp only []
      split
      · exact (readChar_kept p true).kthen (ih _)
      · exact readChar_kept p true
    · exact Kept.same p

theorem skipUntilNot_eq_putback (p : HTMLParser) (ch : Char) :
    p.skipUntilNot ch = (skipUntilNotLoop (p.rawLen - p.readingPos) p ch).putback 1 := by
  rw [putback_one_eq]
  rfl

theorem skipUntilNot_kept (p : HTMLParser) (ch : Char) : Kept p (p.skipUntilNot ch) := by
  rw [skipUntilNot_eq_putback]
  exact (skipUntilNotLoop_kept ch _ p).kthen (putback_kept _ 1)

theorem skipEmptyChars_kept (p : HTMLParser) : Kept p p.skipEmptyChars := by
  have key : ∀ (c : Char) (q : HTMLParser),
      Kept q (if (q.readChar false).1 = c then q.skipUntilNot c else q) := by
    intro c q
    split
    · exact skipUntilNot_kept q c
    · exact Kept.same q
  exact (key ' ' p).kthen (key '\n' _)

theorem parseTextContentLoop_kept :
    ∀ (k : Nat) (p : HTMLParser) (content : CString),
      Kept p (parseTextContentLoop k p content).2 := by
  intro k
  induction k with
  | zero => intro p content; exact Kept.same p
  | succ k ih =>
    intro p content
    unfold parseTextContentLoop
    split
    · simp only []
      split
      · exact (readChar_kept p true).kthen (putback_kept _ 1)
      · split
        · exact (readChar_kept p true).kthen (ih _ _)
        · exact (readChar_kept p true).kthen (ih _ _)
    · exact Kept.same p

theorem parseTagNameLoop_kept :
    ∀ (k : Nat) (p : HTMLParser) (result : CString),
      Kept p (parseTagNameLoop k p result).2 := by
  intro k
  induction k with
  | zero => intro p result; exact Kept.same p
  | succ k ih =>
    intro p result
    unfold parseTagNameLoop
    split
    · simp only []
      have h2 : Kept p
          (if ((p.readChar true).1 = ' ' ∨ (p.readChar true).1 = '\n') ∧
              decide ((p.readChar true).1 = '>' ∨ (p.readChar true).1 = ' ' ∨
                (p.readChar true).1 = '\n') = true
            then (p.readChar true).2.skipUntil '>' else (p.readChar true).2) := by
        split
        · exact (readChar_kept p true).kthen (skipUntil_kept _ _)
        · exact readChar_kept p true
      split
      · exact h2
      · exact h2.kthen (ih _ _)
    · exact Kept.same p

theorem parseTextContent_static (p : HTMLParser) (node : HTMLNode) :
    Static p (p.parseTextContent node).2.1 ∧
      (p.parseTextContent node).2.1.parserState = p.parserState := by
  unfold parseTextContent
  split
  · exact ⟨Static.fixed p, rfl⟩
  · exact ⟨(parseTextContentLoop_kept _ p _).static, (parseTextContentLoop_kept _ p _).st⟩

theorem pushResetState_static (p : HTMLParser) : Static p p.pushResetState := by
  unfold pushResetState pushResetState__
  split
  · exact ⟨rfl, rfl, rfl, rfl⟩
  · exact Static.fixed p

theorem pushResetState_bad {p : HTMLParser} (h : p.parserState ≠ 0) :
    p.pushResetState = p := by
  unfold pushResetState pushResetState__
  simp [badState_true h]

theorem parseTagName_static (p : HTMLParser) : Static p p.parseTagName.2.2 :=
  (pushResetState_static p).sthen (parseTagNameLoop_kept _ _ _).static

theorem parseTagName_kept_of_bad {p : HTMLParser} (h : p.parserState ≠ 0) :
    Kept p p.parseTagName.2.2 := by
  have e : p.parseTagName.2.2 =
      (parseTagNameLoop (p.rawLen - p.readingPos) p []).2 := by
    unfold parseTagName
    simp only [pushResetState_bad h]
  rw [e]
  exact parseTagNameLoop_kept _ p []

theorem parsingError_static (p : HTMLParser) (code : Nat) :
    Static p (p.parsingError code).2 := ⟨rfl, rfl, rfl, rfl⟩

theorem parseTag_static (p : HTMLParser) (node : HTMLNode) :
    Static p (p.parseTag node).2.1 := by
  unfold parseTag
  split
  · exact Static.fixed p
  · simp only []
    split
    · exact ((pushResetState_static p).sthen (parseTagName_static _)).sthen
        (parsingError_static _ _)
    · exact (pushResetState_static p).sthen (parseTagName_static _)

theorem static_of_some {p q : HTMLParser} {c : Int} {n : HTMLNode}
    {r : Int × HTMLParser × HTMLNode} (h : some (c, q, n) = some r) (hq : Static p q) :
    Static p r.2.1 := by
  cases h
  exact hq

theorem parseInternal_static : ∀ k : Nat,
    (∀ (p : HTMLParser) (node : HTMLNode) (r : Int × HTMLParser × HTMLNode),
      parseInternal k p node = some r → Static p r.2.1) ∧
    (∀ (p : HTMLParser) (node : HTMLNode) (f : Bool) (r : Int × HTMLParser × HTMLNode),
      parseInternalLoop k p node f = some r → Static p r.2.1) := by
  intro k
  induction k with
  | zero =>
    constructor
    · intro p node r h
      rw [parseInternal] at h
      cases h
    · intro p node f r h
      rw [parseInternalLoop] at h
      cases h
  | succ k ih =>
    obtain ⟨ihI, ihL⟩ := ih
    constructor
    · intro p node r h
      rw [parseInternal_succ] at h
      split at h
      · exact static_of_some h (Static.fixed p)
      · exact (skipEmptyChars_kept p).static.sthen (ihL _ _ _ _ h)
    · intro p node f r h
      have h1 := (readChar_kept p true).static
      by_cases ha : p.available = true
      · by_cases hc : (p.readChar true).1 = '<'
        · have h2 := h1.sthen (skipEmptyChars_kept _).static
          by_cases ha2 : (p.readChar true).2.skipEmptyChars.available = true
          · have h3 := h2.sthen (readChar_kept _ true).static
            by_cases hs : ((p.readChar true).2.skipEmptyChars.readChar true).1 = '/'
            · rw [loop_close_eq k p node f ha hc ha2 hs] at h
              have h4 := h3.sthen (parseTagName_static _)
              split at h
              · exact static_of_some h (h4.sthen (parsingError_static _ _))
              · exact static_of_some h h4
            · rw [loop_open_eq k p node f ha hc ha2 hs] at h
              have h4 := (h3.sthen (putback_kept _ 1).static).sthen
                (parseTag_static _ HTMLNode.create)
              cases hr : parseInternal k
                  ((((p.readChar true).2.skipEmptyChars.readChar true).2.putback 1).parseTag
                    HTMLNode.create).2.1
                  ((((p.readChar true).2.skipEmptyChars.readChar true).2.putback 1).parseTag
                    HTMLNode.create).2.2 with
              | none =>
                rw [hr] at h
                cases h
              | some s =>
                rw [hr] at h
                simp only [Option.some_bind] at h
                have h5 := h4.sthen (ihI _ _ _ hr)
                split at h
                · exact static_of_some h h5
                · exact h5.sthen (ihL _ _ _ _ h)
          · have ha2f : (p.readChar true).2.skipEmptyChars.available = false := by
              simpa using ha2
            rw [loop_lt_eof_eq k p node f ha hc ha2f] at h
            exact static_of_some h h2
        · rw [loop_text_eq k p node f ha hc] at h
          have h2 := h1.sthen (putback_kept _ 1).static
          have h3 : Static p (if f = true then ((p.readChar true).2.putback 1).skipEmptyChars
              else (p.readChar true).2.putback 1) := by
            split
            · exact h2.sthen (skipEmptyChars_kept _).static
            · exact h2
          exact (h3.sthen (parseTextContent_static _ _).1).sthen (ihL _ _ _ _ h)
      · have haf : p.available = false := by simpa using ha
        rw [loop_eof_eq k p node f haf] at h
        exact static_of_some h (Static.fixed p)

theorem parse_eq_parseBuffer (rf : CString → CString × fs_status_enum) (p : HTMLParser)
    (h1 : p.sourceLoaded = true) (h2 : p.parserState = 0) (h3 : p.filepath = []) :
    parse rf p = parseBuffer p.htmlRawDocument := by
  rw [parseBuffer_eq]
  cases p with
  | mk fp doc sl rt pos ln cl ol oc op st =>
    simp only at h1 h2 h3
    subst h1 h2 h3
    simp [parse, reset, pushResetState__, badState, startState, rawLen]

/-- C7. Idempotence: for every buffer, parsing it with a fresh parser returns a state
`p1`; clearing the error code and calling `parse` again on that instance returns a state
`p2` with the same tree and the same final error code, whatever cursor, line, column and
checkpoint the first parse left behind (the second call does not read the file again). -/
theorem parse_idempotent (buf : CString) (hl : buf.length < SIZE_MOD)
    (rf2 : CString → CString × fs_status_enum) :
    ∃ p1 p2, parseBuffer buf = some p1 ∧
      parse rf2 { p1 with parserState := 0 } = some p2 ∧
      p2.root = p1.root ∧ p2.parserState = p1.parserState := by
  obtain ⟨r, hr, hok⟩ := parseBuffer_total buf hl
  have hs := (parseInternal_static (buf.length + 2)).1 _ _ _ hr
  have e1 : parseBuffer buf = some { r.2.1 with root := some r.2.2 } := by
    rw [parseBuffer_eq, hr]
    rfl
  refine ⟨_, _, e1, ?_, rfl, rfl⟩
  have e2 := parse_eq_parseBuffer rf2
    { ({ r.2.1 with root := some r.2.2 } : HTMLParser) with parserState := 0 }
    hs.loaded rfl hs.filepath
  rw [e2]
  show parseBuffer r.2.1.htmlRawDocument = _
  rw [hs.doc]
  exact e1

/-- Witness of C7: the buffer `<a><b></a></b>`, whose first parse ends in error. -/
theorem parse_idempotent_witness :
    "<a><b></a></b>".toList.length < SIZE_MOD ∧
    ∃ p1 p2, parseBuffer "<a><b></a></b>".toList = some p1 ∧
      parse (fun _ => ([], fs_status_enum.FSU_ERR)) { p1 with parserState := 0 } = some p2 ∧
      p2.root = p1.root ∧ p2.parserState = p1.parserState :=
  ⟨by decide, parse_idempotent "<a><b></a></b>".toList (by decide) _⟩

/-- C10, as stated, fails for the tag-name scanner: in the state `stuckState`, whose error
code is `-2`, `parseTagName` (and so `readClosingTag`) returns `0`, moves the cursor from 0
to 2 and writes the name `a`. -/
theorem scanner_ignores_error :
    stuckState.parserState = -2 ∧ stuckState.readingPos = 0 ∧
    stuckState.parseTagName.1 = 0 ∧ stuckState.readClosingTag.1 = 0 ∧
    stuckState.parseTagName.2.2.readingPos = 2 ∧ stuckState.parseTagName.2.1 = ['a'] := by
  decide

/-- C10, amended. In every state whose error code is non-zero, `parseInternal`,
`parseTextContent` and `parseTag` return that code at once and change neither the state
(cursor, line, column, checkpoint, error code) nor the node.  `parseTagName`, which
`readClosingTag` is, has no such check: it returns `0`, and leaves the error code and the
checkpoint as they are. -/
theorem sticky_error_state (p : HTMLParser) (node : HTMLNode) (h : p.parserState ≠ 0) :
    (∀ k : Nat, parseInternal (k + 1) p node = some (p.parserState, p, node)) ∧
    p.parseTextContent node = (p.parserState, p, node) ∧
    p.parseTag node = (p.parserState, p, node) ∧
    p.readClosingTag = p.parseTagName ∧ p.parseTagName.1 = 0 ∧
    p.parseTagName.2.2.parserState = p.parserState ∧
    p.parseTagName.2.2.oldReadingPos = p.oldReadingPos ∧
    p.parseTagName.2.2.oldLine = p.oldLine ∧ p.parseTagName.2.2.oldColmn = p.oldColmn := by
  have hk := parseTagName_kept_of_bad h
  refine ⟨fun k => ?_, ?_, ?_, rfl, rfl, hk.st, hk.oldPos, hk.oldLine, hk.oldColmn⟩
  · rw [parseInternal_succ, badState_true h]
    rfl
  · unfold parseTextContent
    rw [badState_true h]
    rfl
  · unfold parseTag
    rw [badState_true h]
    rfl

/-- Witness of C10, amended: the state `stuckState`. -/
theorem sticky_error_state_witness :
    stuckState.parserState ≠ 0 ∧
    (∀ k : Nat, parseInternal (k + 1) stuckState HTMLNode.create =
      some (stuckState.parserState, stuckState, HTMLNode.create)) ∧
    stuckState.parseTextContent HTMLNode.create =
      (stuckState.parserState, stuckState, HTMLNode.create) ∧
    stuckState.parseTag HTMLNode.create =
      (stuckState.parserState, stuckState, HTMLNode.create) :=
  ⟨by decide, (sticky_error_state stuckState HTMLNode.create (by decide)).1,
    (sticky_error_state stuckState HTMLNode.create (by decide)).2.1,
    (sticky_error_state stuckState HTMLNode.create (by decide)).2.2.1⟩

theorem nodes_length_appendNode (node c : HTMLNode) :
    (node.appendNode c).nodes.length = node.nodes.length + c.nodes.length := by
  rw [nodes_appendNode, nodes_self node]
  simp
  omega

theorem nodes_length_setTextContent (node : HTMLNode) (t : CString) :
    (node.setTextContent t).nodes.length = node.nodes.length := by
  rw [nodes_setTextContent, nodes_self node]
  simp

theorem tagName_appendNode (node c : HTMLNode) :
    (node.appendNode c).tagName = node.tagName := by
  cases node
  rfl

theorem tagName_setTextContent (node : HTMLNode) (t : CString) :
    (node.setTextContent t).tagName = node.tagName := by
  cases node
  rfl

theorem prefix_split : ∀ (a b t z : CString), (∀ d ∈ a, d ≠ '<') → (∀ d ∈ t, d ≠ '<') →
    a ++ b = t ++ '<' :: z → ∃ t2, t = a ++ t2 ∧ b = t2 ++ '<' :: z := by
  intro a
  induction a with
  | nil => intro b t z _ _ h; exact ⟨t, rfl, by simpa using h⟩
  | cons c a ih =>
    intro b t z ha ht h
    cases t with
    | nil =>
      simp at h
      exact absurd h.1 (ha c (List.mem_cons_self _ _))
    | cons c2 t =>
      simp only [List.cons_append, List.cons.injEq] at h
      obtain ⟨t2, e1, e2⟩ := ih b t z (fun d hd => ha d (List.mem_cons_of_mem _ hd))
        (fun d hd => ht d (List.mem_cons_of_mem _ hd)) h.2
      exact ⟨t2, by rw [h.1, e1]; rfl, e2⟩

theorem suffix_split (a b t rest : CString) (ha : ∀ d ∈ a, d ≠ '<') (ht : ∀ d ∈ t, d ≠ '<')
    (h : a ++ b = t ++ rest) (hr : rest = [] ∨ ∃ y, rest = '<' :: y) :
    ∃ t2, (∀ d ∈ t2, d ≠ '<') ∧ b = t2 ++ rest := by
  rcases hr with rfl | ⟨y, rfl⟩
  · refine ⟨b, ?_, by simp⟩
    intro d hd
    apply ht d
    have : d ∈ a ++ b := List.mem_append_right _ hd
    rw [h] at this
    simpa using this
  · obtain ⟨t2, e1, e2⟩ := prefix_split a b t y ha ht h
    refine ⟨t2, ?_, e2⟩
    intro d hd
    exact ht d (by rw [e1]; exact List.mem_append_right _ hd)

theorem takeWhile_all {α : Type} (q : α → Bool) (l : List α) (h : ∀ d ∈ l, q d = true) :
    l.takeWhile q = l ∧ l.dropWhile q = [] := by
  induction l with
  | nil => exact ⟨rfl, rfl⟩
  | cons a l ih =>
    have ha := h a (List.mem_cons_self _ _)
    obtain ⟨e1, e2⟩ := ih (fun d hd => h d (List.mem_cons_of_mem _ hd))
    simp [List.takeWhile_cons, List.dropWhile_cons, ha, e1, e2]

theorem text_gap {t rest pre : CString} {p : HTMLParser} (ht : ∀ d ∈ t, d ≠ '<')
    (hr : rest = [] ∨ ∃ y, rest = '<' :: y) (h : Cur p pre (t ++ rest)) (k : Nat)
    (hk : (t ++ rest).length + 1 ≤ k) (node : HTMLNode) (f : Bool) :
    ∃ k2 q pre2 node2 f2, Cur q pre2 rest ∧ rest.length + 1 ≤ k2 ∧
      parseInternalLoop k p node f = parseInternalLoop k2 q node2 f2 ∧
      node2.tagName = node.tagName ∧ node2.nodes.length = node.nodes.length := by
  cases t with
  | nil => exact ⟨k, p, pre, node, f, by simpa using h, by simpa using hk, rfl, rfl, rfl⟩
  | cons c t =>
    obtain ⟨k, rfl⟩ : ∃ j, k = j + 1 := ⟨k - 1, by omega⟩
    obtain ⟨q, tx, hq, e⟩ := Cur.loop_text (x := t ++ rest) h (ht c (List.mem_cons_self _ _)) k
      node f
    have hd : ((c :: t) ++ rest).dropWhile (fun d => d != '<') = rest := by
      rcases hr with rfl | ⟨y, rfl⟩
      · rw [List.append_nil]
        exact (takeWhile_all _ _ (fun d hd => by simpa using ht d hd)).2
      · exact dropWhile_text y ht
    rw [List.cons_append] at hd
    rw [hd] at hq
    refine ⟨k, q, _, node.setTextContent tx, true, hq, ?_, e, tagName_setTextContent _ _,
      nodes_length_setTextContent _ _⟩
    simp at hk ⊢
    omega

theorem render_text (t : CString) : render (Content.text t) = t := by
  rw [render]

theorem render_element (n j : CString) (body : List Content) :
    render (Content.element n j body) =
      '<' :: (n ++ (j ++ '>' :: (renderAll body ++ '<' :: '/' :: (n ++ ['>'])))) := by
  rw [render]
  simp

theorem renderAll_nil : renderAll [] = [] := by
  rw [renderAll]

theorem renderAll_cons (c : Content) (cs : List Content) :
    renderAll (c :: cs) = render c ++ renderAll cs := by
  rw [renderAll]

theorem openingTagsAll_nil : openingTagsAll [] = 0 := by
  rw [openingTagsAll]

theorem openingTagsAll_cons (c : Content) (cs : List Content) :
    openingTagsAll (c :: cs) = openingTags c + openingTagsAll cs := by
  rw [openingTagsAll]

theorem openingTags_text (t : CString) : openingTags (Content.text t) = 0 := by
  rw [openingTags]

theorem openingTags_element (n j : CString) (body : List Content) :
    openingTags (Content.element n j body) = 1 + openingTagsAll body := by
  rw [openingTags]

theorem Cur.loop_open_tag {n j x pre : CString} {p : HTMLParser} (hn : IsName n)
    (hj : IsJunk j) (h : Cur p pre ('<' :: (n ++ (j ++ '>' :: x)))) (k : Nat)
    (node : HTMLNode) (f : Bool) :
    ∃ q pre2, Cur q pre2 x ∧
      parseInternalLoop (k + 1) p node f =
        (parseInternal k q (HTMLNode.mk n [] [] [])).bind fun s =>
          if s.2.1.badState then some (s.2.1.LogError, s.2.1, node.appendNode s.2.2)
          else parseInternalLoop k s.2.1 (node.appendNode s.2.2) f := by
  cases j with
  | nil =>
    obtain ⟨q, hq, e⟩ := Cur.loop_open_name (x := x) hn (h.cast rfl (by simp)) k node f
    exact ⟨q, _, hq, e⟩
  | cons sep j =>
    have hsep : sep = ' ' ∨ sep = '\n' := by
      rcases hj.1 with h1 | h1 | h1
      · cases h1
      · left; simpa using h1
      · right; simpa using h1
    obtain ⟨q, hq, e⟩ := Cur.loop_open_junk hn hsep
      (fun c hc => hj.2 c (List.mem_cons_of_mem _ hc)) (x := x) (h.cast rfl (by simp)) k node f
    exact ⟨q, _, hq, e⟩

theorem grammar_element {n j : CString} {body : List Content} (hn : IsName n) (hj : IsJunk j)
    (hbody : GrammarLoop body) (rest pre : CString) (p : HTMLParser) (k : Nat)
    (node : HTMLNode) (f : Bool)
    (h : Cur p pre ('<' :: (n ++ (j ++ '>' :: (renderAll body ++
      '<' :: '/' :: (n ++ '>' :: rest))))))
    (hk : ('<' :: (n ++ (j ++ '>' :: (renderAll body ++
      '<' :: '/' :: (n ++ '>' :: rest))))).length ≤ k) :
    ∃ q pre2 node4, Cur q pre2 rest ∧
      parseInternalLoop (k + 1) p node f = parseInternalLoop k q (node.appendNode node4) f ∧
      node4.nodes.length = 1 + openingTagsAll body := by
  obtain ⟨q2, pre2, hq2, e2⟩ := Cur.loop_open_tag hn hj h k node f
  obtain ⟨k1, rfl⟩ : ∃ i, k = i + 1 := ⟨k - 1, by simp at hk; omega⟩
  obtain ⟨a3, b3, e3, hq3, ha3⟩ := hq2.skipEmptyChars_exists
  have hlen3 : b3.length ≤ (renderAll body ++ '<' :: '/' :: (n ++ '>' :: rest)).length := by
    rw [e3]
    simp
  have hn1 : 1 ≤ n.length := by
    have := hn.1
    cases n with
    | nil => exact absurd rfl this
    | cons c n => simp
  obtain ⟨k4, q4, pre4, node4, f4, hq4, hk4, e4, tg4, n4⟩ := hbody a3 b3 []
    ('<' :: '/' :: (n ++ '>' :: rest)) _ q2.skipEmptyChars k1
    (HTMLNode.mk n [] [] []) false
    (fun d hd => by rcases ha3 d hd with rfl | rfl <;> decide) (by simp)
    (by rw [← e3]; rfl) (Or.inr ⟨_, rfl⟩) hq3
    (by simp at hk hlen3 ⊢; omega)
  obtain ⟨k4, rfl⟩ : ∃ i, k4 = i + 1 := ⟨k4 - 1, by omega⟩
  obtain ⟨q5, hq5, e5⟩ := Cur.loop_close hq4 k4 node4 f4
  rw [scanName_name _ hn, tg4] at e5
  rw [scanned_name _ hn, unscanned_name _ hn] at hq5
  have e6 : parseInternal (k1 + 1) q2 (HTMLNode.mk n [] [] []) = some (0, q5, node4) := by
    rw [parseInternal_succ, badState_false hq2.ok]
    simp only [Bool.false_eq_true, if_false]
    rw [e4, e5]
    simp [HTMLNode.tagName]
  refine ⟨q5, _, node4, hq5, ?_, ?_⟩
  · rw [e2, e6]
    simp only [Option.some_bind, badState_false hq5.ok, Bool.false_eq_true, if_false]
  · rw [n4]
    have : (HTMLNode.mk n [] [] []).nodes.length = 1 := by
      rw [nodes_eq, nodesOfList_nil]
      rfl
    omega

theorem grammar_loop : ∀ (cs : List Content), GrammaticalAll cs → GrammarLoop cs
  | [], _ => by
    intro a b t rest pre p k node f ha ht hab hr h hk
    rw [renderAll_nil, List.nil_append] at hab
    obtain ⟨t2, ht2, e⟩ := suffix_split a b t rest ha ht hab hr
    subst e
    obtain ⟨k2, q, pre2, node2, f2, hq, hk2, e2, e3, e4⟩ := text_gap ht2 hr h k hk node f
    exact ⟨k2, q, pre2, node2, f2, hq, hk2, e2, e3, by rw [e4, openingTagsAll_nil]; rfl⟩
  | Content.text t1 :: cs, hw => by
    rw [GrammaticalAll, Grammatical] at hw
    have hcs := grammar_loop cs hw.2
    intro a b t rest pre p k node f ha ht hab hr h hk
    rw [renderAll_cons, render_text] at hab
    obtain ⟨k2, q, pre2, node2, f2, hq, hk2, e2, e3, e4⟩ := hcs a b (t ++ t1) rest pre p k node f
      ha (fun d hd => by
        rcases List.mem_append.1 hd with h1 | h1
        · exact ht d h1
        · exact hw.1 d h1) (by rw [hab]; simp) hr h hk
    exact ⟨k2, q, pre2, node2, f2, hq, hk2, e2, e3,
      by rw [e4, openingTagsAll_cons, openingTags_text]; omega⟩
  | Content.element n j body :: cs, hw => by
    rw [GrammaticalAll, Grammatical] at hw
    obtain ⟨⟨hn, hj, hwb⟩, hws⟩ := hw
    have hbody := grammar_loop body hwb
    have hcs := grammar_loop cs hws
    intro a b t rest pre p k node f ha ht hab hr h hk
    have hab2 : a ++ b = t ++ '<' :: (n ++ (j ++ '>' :: (renderAll body ++
        '<' :: '/' :: (n ++ '>' :: (renderAll cs ++ rest))))) := by
      rw [hab, renderAll_cons, render_element]
      simp
    obtain ⟨t2, _, e⟩ := prefix_split a b t _ ha ht hab2
    have ht2 : ∀ d ∈ t2, d ≠ '<' := by
      intro d hd
      apply ht d
      rw [‹t = a ++ t2›]
      exact List.mem_append_right _ hd
    subst e
    obtain ⟨k1, q1, pre1, node1, f1, hq1, hk1, e1, tg1, n1⟩ :=
      text_gap ht2 (Or.inr ⟨_, rfl⟩) h k hk node f
    obtain ⟨k1, rfl⟩ : ∃ i, k1 = i + 1 := ⟨k1 - 1, by omega⟩
    obtain ⟨q5, pre5, node4, hq5, e5, n4⟩ := grammar_element hn hj hbody _ _ q1 k1 node1 f1 hq1
      (by omega)
    obtain ⟨k7, q7, pre7, node7, f7, hq7, hk7, e7, tg7, n7⟩ := hcs [] (renderAll cs ++ rest) []
      rest _ q5 k1 (node1.appendNode node4) f1 (by simp) (by simp) (by simp) hr hq5
      (by simp at hk1 ⊢; omega)
    refine ⟨k7, q7, pre7, node7, f7, hq7, hk7, ?_, ?_, ?_⟩
    · rw [e1, e5, e7]
    · rw [tg7, tagName_appendNode, tg1]
    · rw [n7, nodes_length_appendNode, n1, n4, openingTagsAll_cons, openingTags_element]
      omega
termination_by cs => sizeOf cs

/-- C2. Node count on well-formed input: for every sequence of content items of the
grammar `Element := '<' Name (junk-until '>') Content* '</' Name '>'`,
`Content := Text | Element` (names as in C1; junk empty or a space or newline followed by
characters other than `>`; texts without `<`), parsing its characters returns with error
code 0 and a tree whose number of nodes is the number of opening tags plus one. -/
theorem node_count_wellformed (doc : List Content) (hw : GrammaticalAll doc)
    (hl : (renderAll doc).length < SIZE_MOD) :
    ∃ p root, parseBuffer (renderAll doc) = some p ∧ p.parserState = 0 ∧
      p.root = some root ∧ root.nodes.length = openingTagsAll doc + 1 := by
  rw [parseBuffer_eq, parseInternal_succ]
  have h0 := startState_cur _ hl
  rw [badState_false h0.ok]
  simp only [Bool.false_eq_true, if_false]
  obtain ⟨a, b, e, h1, ha⟩ := h0.skipEmptyChars_exists
  have hlen : b.length ≤ (renderAll doc).length := by
    rw [e]
    simp
  obtain ⟨k2, q, pre2, node2, f2, hq, hk2, e2, _, n2⟩ := grammar_loop doc hw a b [] [] _
    (startState (renderAll doc)).skipEmptyChars ((renderAll doc).length + 1) HTMLNode.create
    false (fun d hd => by rcases ha d hd with rfl | rfl <;> decide) (by simp)
    (by rw [← e]; simp) (Or.inl rfl) h1 (by omega)
  obtain ⟨k2, rfl⟩ : ∃ i, k2 = i + 1 := ⟨k2 - 1, by omega⟩
  rw [e2, Cur.loop_eof hq]
  refine ⟨_, node2, rfl, hq.ok, rfl, ?_⟩
  rw [n2]
  have : HTMLNode.create.nodes.length = 1 := by
    rw [HTMLNode.create, nodes_eq, nodesOfList_nil]
    rfl
  omega

/-- Witness of C2: a document with leading text, junk in a tag, text with a newline and a nested element. -/
theorem node_count_wellformed_witness :
    GrammaticalAll [Content.text ['x'], Content.element ['a'] " id=1".toList
      [Content.text " hi\n".toList, Content.element ['b'] [] [], Content.text ['y']]] ∧
    renderAll [Content.text ['x'], Content.element ['a'] " id=1".toList
      [Content.text " hi\n".toList, Content.element ['b'] [] [], Content.text ['y']]] =
      "x<a id=1> hi\n<b></b>y</a>".toList ∧
    ∃ p root, parseBuffer (renderAll [Content.text ['x'], Content.element ['a'] " id=1".toList
      [Content.text " hi\n".toList, Content.element ['b'] [] [], Content.text ['y']]]) = some p ∧
      p.parserState = 0 ∧ p.root = some root ∧
      root.nodes.length = openingTagsAll [Content.text ['x'],
        Content.element ['a'] " id=1".toList
          [Content.text " hi\n".toList, Content.element ['b'] [] [], Content.text ['y']]] + 1 :=
  ⟨by simp [GrammaticalAll, Grammatical, IsName, IsJunk], by decide,
    node_count_wellformed _ (by simp [GrammaticalAll, Grammatical, IsName, IsJunk])
      (by decide)⟩

theorem CutInClosingName.left {u v : CString} (x : CString) (h : CutInClosingName u v) :
    CutInClosingName (x ++ u) v := by
  obtain ⟨w, m, c, v2, e1, hm, e2, hc⟩ := h
  exact ⟨x ++ w, m, c, v2, by rw [e1]; simp, hm, e2, hc⟩

theorem CutInClosingName.right {u v : CString} (y : CString) (h : CutInClosingName u v) :
    CutInClosingName u (v ++ y) := by
  obtain ⟨w, m, c, v2, e1, hm, e2, hc⟩ := h
  exact ⟨w, m, c, v2 ++ y, e1, hm, by rw [e2]; rfl, hc⟩

theorem split_cases {α : Type} (s r u v : List α) (h : s ++ r = u ++ v) :
    (∃ u2, u = s ++ u2 ∧ r = u2 ++ v) ∨ (∃ c, c ≠ [] ∧ s = u ++ c ∧ v = c ++ r) := by
  rcases List.append_eq_append_iff.1 h with ⟨a2, e1, e2⟩ | ⟨c, e1, e2⟩
  · exact Or.inl ⟨a2, e1, e2⟩
  · by_cases hc : c = []
    · subst hc
      exact Or.inl ⟨[], by simpa using e1.symm, by simpa using e2.symm⟩
    · exact Or.inr ⟨c, hc, e1, e2⟩

theorem unscanned_no_gt {x : CString} (h : ∀ c ∈ x, c ≠ '>') : unscanned x = [] := by
  unfold unscanned
  have hy : ∀ c ∈ x.dropWhile (fun c => !isNameEnd c), c ≠ '>' :=
    fun c hc => h c ((List.dropWhile_sublist _).subset hc)
  cases hd : x.dropWhile (fun c => !isNameEnd c) with
  | nil => rfl
  | cons t more =>
    rw [hd] at hy
    have ht : t ≠ '>' := hy t (List.mem_cons_self _ _)
    have hm := (takeWhile_all (fun c => c != '>') more
      (fun d hd => by simpa using hy d (List.mem_cons_of_mem _ hd))).2
    simp [scanTail, ht, hm]

theorem scanned_no_gt {x : CString} (h : ∀ c ∈ x, c ≠ '>') : scanned x = x := by
  have := scanned_append x
  rw [unscanned_no_gt h, List.append_nil] at this
  exact this

theorem IsName.no_gt {n : CString} (h : IsName n) : ∀ c ∈ n, c ≠ '>' :=
  fun c hc => (h.2 c hc).2.1

theorem scanName_eob {n : CString} (h : IsName n) : scanName n = n :=
  (takeWhile_all _ n h.not_end).1

theorem eob_result {pre : CString} {p : HTMLParser} (h : Cur p pre []) (k : Nat)
    (hk : 1 ≤ k) (node : HTMLNode) (f : Bool) :
    ∃ q pre2 node2, parseInternalLoop k p node f = some (0, q, node2) ∧ Cur q pre2 [] := by
  obtain ⟨k, rfl⟩ : ∃ i, k = i + 1 := ⟨k - 1, by omega⟩
  exact ⟨p, pre, node, Cur.loop_eof h k node f, h⟩

theorem Cur.loop_open_eob {c : Char} {x pre : CString} {p : HTMLParser}
    (h : Cur p pre ('<' :: c :: x)) (hc1 : c ≠ '/') (hc2 : c ≠ ' ') (hc3 : c ≠ '\n')
    (hx : ∀ d ∈ c :: x, d ≠ '>') (k : Nat) (hk : 3 ≤ k) (node : HTMLNode) (f : Bool) :
    ∃ q pre2 node2, parseInternalLoop k p node f = some (0, q, node2) ∧ Cur q pre2 [] := by
  obtain ⟨k, rfl⟩ : ∃ i, k = i + 3 := ⟨k - 3, by omega⟩
  obtain ⟨q, hq, e⟩ := Cur.loop_open h hc1 hc2 hc3 (k + 2) node f
  rw [unscanned_no_gt hx] at hq
  have e2 : parseInternal (k + 2) q (HTMLNode.create.setTagName (scanName (c :: x))) =
      some (0, q, HTMLNode.create.setTagName (scanName (c :: x))) := by
    rw [parseInternal_succ, badState_false hq.ok, hq.skipEmptyChars_nil]
    simp only [Bool.false_eq_true, if_false]
    exact Cur.loop_eof hq k _ false
  refine ⟨q, _, node.appendNode (HTMLNode.create.setTagName (scanName (c :: x))), ?_, hq⟩
  rw [e, e2]
  simp only [Option.some_bind, badState_false hq.ok, Bool.false_eq_true, if_false]
  exact Cur.loop_eof hq (k + 1) _ f

theorem Cur.loop_close_eob {n pre : CString} {p : HTMLParser} (hn : IsName n)
    (h : Cur p pre ('<' :: '/' :: n)) (k : Nat) (hk : 1 ≤ k) (node : HTMLNode)
    (ht : node.tagName = n) (f : Bool) :
    ∃ q pre2 node2, parseInternalLoop k p node f = some (0, q, node2) ∧ Cur q pre2 [] := by
  obtain ⟨k, rfl⟩ : ∃ i, k = i + 1 := ⟨k - 1, by omega⟩
  obtain ⟨q, hq, e⟩ := Cur.loop_close h k node f
  rw [unscanned_no_gt hn.no_gt] at hq
  rw [scanName_eob hn, ht] at e
  refine ⟨q, _, node, ?_, hq⟩
  rw [e]
  simp

theorem trunc_closing {n u4 c pre : CString} {p : HTMLParser} (hn : IsName n)
    (h : Cur p pre u4) (hs : '<' :: '/' :: (n ++ ['>']) = u4 ++ c) (hc : c ≠ [])
    (hgood : ¬ CutInClosingName u4 c) (k : Nat) (hk : u4.length + 1 ≤ k) (node : HTMLNode)
    (ht : node.tagName = n) (f : Bool) :
    ∃ q pre2 node2, parseInternalLoop k p node f = some (0, q, node2) ∧ Cur q pre2 [] := by
  cases u4 with
  | nil => exact eob_result h k hk node f
  | cons c1 u5 =>
    simp only [List.cons_append, List.cons.injEq] at hs
    obtain ⟨rfl, hs⟩ := hs
    cases u5 with
    | nil =>
      obtain ⟨k, rfl⟩ : ∃ i, k = i + 1 := ⟨k - 1, by omega⟩
      obtain ⟨q, hq, e⟩ := Cur.loop_lt_eof h k node f
      exact ⟨q, _, node, e, hq⟩
    | cons c2 m =>
      simp only [List.cons_append, List.cons.injEq] at hs
      obtain ⟨rfl, hs⟩ := hs
      rcases split_cases n ['>'] m c hs with ⟨u2, e1, e2⟩ | ⟨c3, hc3, e1, e2⟩
      · have hu2 : u2 = [] := by
          cases u2 with
          | nil => rfl
          | cons d u2 =>
            cases c with
            | nil => exact absurd rfl hc
            | cons d2 c =>
              have := congrArg List.length e2
              simp at this
        subst hu2
        rw [List.append_nil] at e1
        subst e1
        exact Cur.loop_close_eob hn h k (by omega) node ht f
      · exfalso
        apply hgood
        obtain ⟨d, c4, e3⟩ := List.exists_cons_of_ne_nil hc3
        refine ⟨[], m, d, c4 ++ ['>'], rfl, ?_, by rw [e2, e3]; rfl, ?_⟩
        · intro x hx
          exact hn.no_gt x (by rw [e1]; exact List.mem_append_left _ hx)
        · exact hn.no_gt d (by rw [e1, e3]; simp)

theorem trunc_body {n u2 c pre : CString} {body : List Content} {p : HTMLParser}
    (hn : IsName n) (hG : GrammarLoop body) (hT : TruncLoop body) (h : Cur p pre u2)
    (hs : renderAll body ++ '<' :: '/' :: (n ++ ['>']) = u2 ++ c) (hc : c ≠ [])
    (hgood : ¬ CutInClosingName u2 c) (m : Nat) (hm : u2.length + 2 ≤ m) :
    ∃ q pre2 node2, parseInternal m p (HTMLNode.mk n [] [] []) = some (0, q, node2) ∧
      Cur q pre2 [] := by
  obtain ⟨m, rfl⟩ : ∃ i, m = i + 1 := ⟨m - 1, by omega⟩
  rw [parseInternal_succ, badState_false h.ok]
  simp only [Bool.false_eq_true, if_false]
  obtain ⟨a3, b3, e3, h3, ha3⟩ := h.skipEmptyChars_exists
  have ha3lt : ∀ d ∈ a3, d ≠ '<' := fun d hd => by rcases ha3 d hd with rfl | rfl <;> decide
  have hlen3 : b3.length ≤ u2.length := by
    rw [e3]
    simp
  rcases split_cases _ _ u2 c hs with ⟨u4, e1, e2⟩ | ⟨c2, hc2, e1, e2⟩
  · have hu4 : u4 = [] ∨ ∃ y, u4 = '<' :: y := by
      cases u4 with
      | nil => exact Or.inl rfl
      | cons d u4 =>
        simp only [List.cons_append, List.cons.injEq] at e2
        exact Or.inr ⟨u4, by rw [← e2.1]⟩
    obtain ⟨k4, q4, pre4, node4, f4, hq4, hk4, e4, tg4, _⟩ := hG a3 b3 [] u4 _
      p.skipEmptyChars m (HTMLNode.mk n [] [] []) false ha3lt (by simp)
      (by rw [← e3, e1]; rfl) hu4 h3 (by omega)
    rw [e4]
    exact trunc_closing hn hq4 e2 hc
      (fun hcut => hgood (by rw [e1]; exact hcut.left _)) k4 hk4 node4 tg4 f4
  · exact hT a3 b3 [] u2 c2 _ p.skipEmptyChars m (HTMLNode.mk n [] [] []) false ha3lt (by simp)
      e1 hc2 (fun hcut => hgood (by rw [e2]; exact hcut.right _)) (by rw [← e3]; rfl) h3
      (by omega)

theorem trunc_open {n j u1 c2 pre : CString} {p : HTMLParser} (hn : IsName n)
    (hj : IsJunk j) (h : Cur p pre ('<' :: u1)) (hs : n ++ j = u1 ++ c2) (k : Nat)
    (hk : ('<' :: u1).length + 1 ≤ k) (node : HTMLNode) (f : Bool) :
    ∃ q pre2 node2, parseInternalLoop k p node f = some (0, q, node2) ∧ Cur q pre2 [] := by
  have hgt : ∀ d ∈ u1, d ≠ '>' := by
    intro d hd
    have : d ∈ n ++ j := by rw [hs]; exact List.mem_append_left _ hd
    rcases List.mem_append.1 this with h1 | h1
    · exact hn.no_gt d h1
    · exact hj.2 d h1
  cases u1 with
  | nil =>
    obtain ⟨k, rfl⟩ : ∃ i, k = i + 1 := ⟨k - 1, by omega⟩
    obtain ⟨q, hq, e⟩ := Cur.loop_lt_eof h k node f
    exact ⟨q, _, node, e, hq⟩
  | cons c0 x =>
    obtain ⟨c, n2, e, h1, h2, h3⟩ := hn.head
    rw [e] at hs
    simp only [List.cons_append, List.cons.injEq] at hs
    obtain ⟨rfl, _⟩ := hs
    exact Cur.loop_open_eob h h1 h2 h3 hgt k (by simp at hk; omega) node f

theorem trunc_element {n j u1 c pre : CString} {body : List Content} {p : HTMLParser}
    (hn : IsName n) (hj : IsJunk j) (hG : GrammarLoop body) (hT : TruncLoop body)
    (h : Cur p pre ('<' :: u1))
    (hs : n ++ (j ++ '>' :: (renderAll body ++ '<' :: '/' :: (n ++ ['>']))) = u1 ++ c)
    (hc : c ≠ []) (hgood : ¬ CutInClosingName ('<' :: u1) c) (k : Nat)
    (hk : ('<' :: u1).length + 1 ≤ k) (node : HTMLNode) (f : Bool) :
    ∃ q pre2 node2, parseInternalLoop k p node f = some (0, q, node2) ∧ Cur q pre2 [] := by
  have hs2 : (n ++ j) ++ '>' :: (renderAll body ++ '<' :: '/' :: (n ++ ['>'])) = u1 ++ c := by
    rw [← hs]
    simp
  rcases split_cases _ _ u1 c hs2 with ⟨u3, e1, e2⟩ | ⟨c2, _, e1, _⟩
  · cases u3 with
    | nil =>
      exact @trunc_open n j u1 [] pre p hn hj h (by rw [e1]; simp) k hk node f
    | cons d u2 =>
      simp only [List.cons_append, List.cons.injEq] at e2
      obtain ⟨rfl, e2⟩ := e2
      subst e1
      have hn1 : 1 ≤ n.length := by
        have := hn.1
        cases n with
        | nil => exact absurd rfl this
        | cons c n => simp
      obtain ⟨k, rfl⟩ : ∃ i, k = i + 1 := ⟨k - 1, by omega⟩
      obtain ⟨q2, pre2, hq2, e⟩ := Cur.loop_open_tag (x := u2) hn hj (h.cast rfl (by simp)) k
        node f
      obtain ⟨q3, pre3, node3, e3, hq3⟩ := trunc_body hn hG hT hq2 e2 hc
        (fun hcut => hgood (by
          have := hcut.left ('<' :: (n ++ (j ++ ['>'])))
          simpa using this)) k (by simp at hk; omega)
      rw [e, e3]
      simp only [Option.some_bind, badState_false hq3.ok, Bool.false_eq_true, if_false]
      exact eob_result hq3 k (by simp at hk; omega) _ f
  · exact trunc_open hn hj h e1 k hk node f

theorem trunc_text {a b t pre : CString} {p : HTMLParser} (ht : ∀ d ∈ t, d ≠ '<') (hab : a ++ b = t) (h : Cur p pre b) (k : Nat)
    (hk : b.length + 1 ≤ k) (node : HTMLNode) (f : Bool) :
    ∃ q pre2 node2, parseInternalLoop k p node f = some (0, q, node2) ∧ Cur q pre2 [] := by
  have hb : ∀ d ∈ b, d ≠ '<' := by
    intro d hd
    exact ht d (by rw [← hab]; exact List.mem_append_right _ hd)
  obtain ⟨k2, q, pre2, node2, f2, hq, hk2, e2, _, _⟩ := @text_gap b [] pre p hb (Or.inl rfl)
    (h.cast rfl (by simp)) k (by simpa using hk) node f
  rw [e2]
  exact eob_result hq k2 (by omega) node2 f2

theorem trunc_loop : ∀ (cs : List Content), GrammaticalAll cs → TruncLoop cs
  | [], _ => by
    intro a b t u v pre p k node f ha ht hs hv
    rw [renderAll_nil] at hs
    have : v = [] := (List.append_eq_nil.1 hs.symm).2
    exact absurd this hv
  | Content.text t1 :: cs, hw => by
    rw [GrammaticalAll, Grammatical] at hw
    have hcs := trunc_loop cs hw.2
    intro a b t u v pre p k node f ha ht hs hv hgood hab h hk
    rw [renderAll_cons, render_text] at hs
    rcases split_cases _ _ u v hs with ⟨u2, e1, e2⟩ | ⟨c, _, e1, _⟩
    · exact hcs a b (t ++ t1) u2 v pre p k node f ha
        (fun d hd => by
          rcases List.mem_append.1 hd with h1 | h1
          · exact ht d h1
          · exact hw.1 d h1) e2 hv
        (fun hcut => hgood (by rw [e1]; exact hcut.left _)) (by rw [hab, e1]; simp) h hk
    · refine trunc_text (t := t ++ u) ?_ hab h k hk node f
      intro d hd
      rcases List.mem_append.1 hd with h1 | h1
      · exact ht d h1
      · exact hw.1 d (by rw [e1]; exact List.mem_append_left _ h1)
  | Content.element n j body :: cs, hw => by
    rw [GrammaticalAll, Grammatical] at hw
    obtain ⟨⟨hn, hj, hwb⟩, hws⟩ := hw
    have hTb := trunc_loop body hwb
    have hTc := trunc_loop cs hws
    have hGb := grammar_loop body hwb
    intro a b t u v pre p k node f ha ht hs hv hgood hab h hk
    rw [renderAll_cons, render_element] at hs
    rcases split_cases _ _ u v hs with ⟨u2, e1, e2⟩ | ⟨c, hc, e1, e2⟩
    · -- the element is complete, the cut is after it
      have hab2 : a ++ b = t ++ '<' :: (n ++ (j ++ '>' :: (renderAll body ++
          '<' :: '/' :: (n ++ '>' :: u2)))) := by
        rw [hab, e1]
        simp
      obtain ⟨t2, et, e⟩ := prefix_split a b t _ ha ht hab2
      have ht2 : ∀ d ∈ t2, d ≠ '<' := by
        intro d hd
        apply ht d
        rw [et]
        exact List.mem_append_right _ hd
      subst e
      obtain ⟨k1, q1, pre1, node1, f1, hq1, hk1, e3, _, _⟩ :=
        text_gap ht2 (Or.inr ⟨_, rfl⟩) h k hk node f
      obtain ⟨k1, rfl⟩ : ∃ i, k1 = i + 1 := ⟨k1 - 1, by omega⟩
      obtain ⟨q5, pre5, node4, hq5, e5, _⟩ := grammar_element hn hj hGb _ _ q1 k1 node1 f1 hq1
        (by omega)
      rw [e3, e5]
      exact hTc [] u2 [] u2 v pre5 q5 k1 _ f1 (by simp) (by simp) e2 hv
        (fun hcut => hgood (by rw [e1]; exact hcut.left _)) rfl hq5
        (by simp at hk1 ⊢; omega)
    · -- the cut is inside the element
      have hgood2 : ¬ CutInClosingName u c :=
        fun hcut => hgood (by rw [e2]; exact hcut.right _)
      cases u with
      | nil =>
        exact trunc_text ht (by simpa using hab) h k hk node f
      | cons d u1 =>
        simp only [List.cons_append, List.cons.injEq] at e1
        obtain ⟨rfl, e1⟩ := e1
        obtain ⟨t2, et, e⟩ := prefix_split a b t u1 ha ht hab
        have ht2 : ∀ d ∈ t2, d ≠ '<' := by
          intro d hd
          apply ht d
          rw [et]
          exact List.mem_append_right _ hd
        subst e
        obtain ⟨k1, q1, pre1, node1, f1, hq1, hk1, e3, _, _⟩ :=
          text_gap ht2 (Or.inr ⟨_, rfl⟩) h k hk node f
        rw [e3]
        exact trunc_element hn hj hGb hTb hq1 e1 hc hgood2 k1 hk1 node1 f1
termination_by cs => sizeOf cs

/-- C8, as stated, fails: `<a></` is a proper prefix of the well-formed document `<a></a>`,
the buffer ends while `a` is open, and the parse ends with error code `-2`. -/
theorem truncated_closing_tag_errors :
    GrammaticalAll [Content.element ['a'] [] []] ∧
    renderAll [Content.element ['a'] [] []] = "<a></".toList ++ "a>".toList ∧
    (parseBuffer "<a></".toList).map (fun p => p.parserState) = some (-2) :=
  ⟨by simp [GrammaticalAll, Grammatical, IsName, IsJunk], by decide, by decide⟩

/-- C8, amended. For every document of the grammar of C2 cut into `u` and `v`, where the
cut is not inside the name of a closing tag (`u` does not end with `</` and characters
other than `>` while `v` starts with a character other than `>`), parsing the prefix `u`
returns with error code 0: reaching the end of the buffer with elements still open is not
an error. -/
theorem prefix_completes (doc : List Content) (hw : GrammaticalAll doc) (u v : CString)
    (hs : renderAll doc = u ++ v) (hgood : ¬ CutInClosingName u v)
    (hl : u.length < SIZE_MOD) :
    ∃ p, parseBuffer u = some p ∧ p.parserState = 0 := by
  rw [parseBuffer_eq, parseInternal_succ]
  have h0 := startState_cur _ hl
  rw [badState_false h0.ok]
  simp only [Bool.false_eq_true, if_false]
  obtain ⟨a, b, e, h1, ha⟩ := h0.skipEmptyChars_exists
  have halt : ∀ d ∈ a, d ≠ '<' := fun d hd => by rcases ha d hd with rfl | rfl <;> decide
  have hlen : b.length ≤ u.length := by
    rw [e]
    simp
  have key : ∃ q pre2 node2, parseInternalLoop (u.length + 1) (startState u).skipEmptyChars
      HTMLNode.create false = some (0, q, node2) ∧ Cur q pre2 [] := by
    by_cases hv : v = []
    · subst hv
      rw [List.append_nil] at hs
      obtain ⟨k2, q, pre2, node2, f2, hq, hk2, e2, _, _⟩ := grammar_loop doc hw a b [] [] _
        (startState u).skipEmptyChars (u.length + 1) HTMLNode.create false halt (by simp)
        (by rw [← e, hs]; simp) (Or.inl rfl) h1 (by omega)
      rw [e2]
      exact eob_result hq k2 (by omega) node2 f2
    · exact trunc_loop doc hw a b [] u v _ (startState u).skipEmptyChars (u.length + 1)
        HTMLNode.create false halt (by simp) hs hv hgood (by rw [← e]; rfl) h1 (by omega)
  obtain ⟨q, pre2, node2, e2, hq⟩ := key
  rw [e2]
  exact ⟨_, rfl, hq.ok⟩

/-- Witness of C8, amended: `<a>x<b></b></a`, the document `<a>x<b></b></a>` without its last `>`. -/
theorem prefix_completes_witness :
    renderAll [Content.element ['a'] [] [Content.text ['x'], Content.element ['b'] [] []]] =
      "<a>x<b></b></a".toList ++ ['>'] ∧
    (∃ p, parseBuffer "<a>x<b></b></a".toList = some p ∧ p.parserState = 0) ∧
    (parseBuffer "<a>x<b></b></a".toList).map (fun p => p.root) =
      some (some (HTMLNode.mk [] [] [] [HTMLNode.mk ['a'] ['x'] [] [HTMLNode.mk ['b'] [] [] []]])) :=
  ⟨by decide,
    prefix_completes
      [Content.element ['a'] [] [Content.text ['x'], Content.element ['b'] [] []]]
      (by simp [GrammaticalAll, Grammatical, IsName, IsJunk]) "<a>x<b></b></a".toList ['>']
      (by decide)
      (by
        rintro ⟨w, m, c, v2, _, _, e, hc⟩
        cases e
        exact hc rfl)
      (by decide),
    rfl⟩

/-! ## The scanning primitives do not read the error code -/

theorem readChar_withState (p : HTMLParser) (a : Bool) (s : Int) :
    (withState p s).readChar a = ((p.readChar a).1, withState (p.readChar a).2 s) := by
  have ha : (withState p s).available = p.available := rfl
  have hd : (withState p s).htmlRawDocument = p.htmlRawDocument := rfl
  have hp : (withState p s).readingPos = p.readingPos := rfl
  unfold HTMLParser.readChar
  rw [ha, hd, hp]
  dsimp only
  split_ifs <;> rfl

theorem skipUntilNotLoop_withState (ch : Char) (s : Int) :
    ∀ (k : Nat) (p : HTMLParser),
      skipUntilNotLoop k (withState p s) ch = withState (skipUntilNotLoop k p ch) s := by
  intro k
  induction k with
  | zero => intro p; rfl
  | succ k ih =>
    intro p
    have ha : (withState p s).available = p.available := rfl
    rw [skipUntilNotLoop, skipUntilNotLoop, ha]
    by_cases h : p.available = true
    · simp only [h, if_true, readChar_withState]
      by_cases hc : (p.readChar true).1 = ch
      · simp only [hc, if_true]
        exact ih _
      · simp only [hc, if_false]
    · simp only [h, Bool.false_eq_true, if_false]

theorem skipUntilNot_withState (p : HTMLParser) (ch : Char) (s : Int) :
    (withState p s).skipUntilNot ch = withState (p.skipUntilNot ch) s := by
  unfold HTMLParser.skipUntilNot
  have e : (withState p s).rawLen - (withState p s).readingPos = p.rawLen - p.readingPos := rfl
  simp only [e, skipUntilNotLoop_withState]
  rfl

theorem skipEmptyChars_withState (p : HTMLParser) (s : Int) :
    (withState p s).skipEmptyChars = withState p.skipEmptyChars s := by
  unfold HTMLParser.skipEmptyChars
  simp only [readChar_withState]
  by_cases h1 : (p.readChar false).1 = ' '
  · simp only [h1, if_true, skipUntilNot_withState, readChar_withState]
    by_cases h2 : ((p.skipUntilNot ' ').readChar false).1 = '\n'
    · simp only [h2, if_true, skipUntilNot_withState]
    · simp only [h2, if_false]
  · simp only [h1, if_false, readChar_withState]
    by_cases h2 : (p.readChar false).1 = '\n'
    · simp only [h2, if_true, skipUntilNot_withState]
    · simp only [h2, if_false]

theorem withState_pos (q : HTMLParser) (s : Int) :
    (withState q s).readingPos = q.readingPos := rfl

theorem withState_doc (q : HTMLParser) (s : Int) :
    (withState q s).htmlRawDocument = q.htmlRawDocument := rfl

theorem cur_withState {p : HTMLParser} {pre rest : CString}
    (hdoc : p.htmlRawDocument = pre ++ rest) (hpos : p.readingPos = pre.length)
    (hfit : p.htmlRawDocument.length < SIZE_MOD) : Cur (withState p 0) pre rest :=
  ⟨hdoc, hpos, rfl, by rw [← hdoc]; exact hfit⟩


/-! ## Claims on `reset`, `skipUntilNot`, `skipEmptyChars`, a second `parse`, the texts -/

/-- C13, as stated, fails: the parse of `<a><b></a></b>` ends in the state `failedState`,
with error code `-2` and checkpoint offset 8, column 10; `reset()` in that state leaves the
checkpoint at offset 8, column 10 instead of clearing it. -/
theorem reset_keeps_checkpoint :
    parseBuffer "<a><b></a></b>".toList = some failedState ∧
    failedState.parserState = -2 ∧
    failedState.reset.oldReadingPos = 8 ∧ failedState.reset.oldColmn = 10 :=
  ⟨rfl, by decide, by decide, by decide⟩

/-- C13, amended. In every parser state `reset()` sets offset, line and column to 0 and
leaves the error code (and the buffer) unchanged; it clears the checkpoint when no error
is set, and leaves the checkpoint as it was when the error code is not 0. -/
theorem reset_effect (p : HTMLParser) :
    p.reset.readingPos = 0 ∧ p.reset.line = 0 ∧ p.reset.colmn = 0 ∧
    p.reset.parserState = p.parserState ∧ p.reset.htmlRawDocument = p.htmlRawDocument ∧
    (p.parserState = 0 →
      p.reset.oldReadingPos = 0 ∧ p.reset.oldLine = 0 ∧ p.reset.oldColmn = 0) ∧
    (p.parserState ≠ 0 →
      p.reset.oldReadingPos = p.oldReadingPos ∧ p.reset.oldLine = p.oldLine ∧
        p.reset.oldColmn = p.oldColmn) := by
  unfold HTMLParser.reset HTMLParser.pushResetState__ HTMLParser.badState
  by_cases h : p.parserState = 0
  · simp [h]
  · simp [h]

/-- Witness of C13, amended: `failedState`, where an error is set, and a state without error. -/
theorem reset_effect_witness :
    (failedState.reset.readingPos = 0 ∧ failedState.reset.parserState = -2 ∧
      failedState.reset.oldReadingPos = 8) ∧
    ((startState ['a']).reset.readingPos = 0 ∧ (startState ['a']).reset.oldReadingPos = 0) :=
  ⟨⟨(reset_effect failedState).1, (reset_effect failedState).2.2.2.1,
      ((reset_effect failedState).2.2.2.2.2.2 (by decide)).1⟩,
    ⟨(reset_effect (startState ['a'])).1,
      ((reset_effect (startState ['a'])).2.2.2.2.2.1 (by decide)).1⟩⟩


theorem skipUntilNot_run_to_end (p : HTMLParser) (pre : CString) (c : Char) (n : Nat)
    (hdoc : p.htmlRawDocument = pre ++ List.replicate (n + 1) c)
    (hpos : p.readingPos = pre.length) (hfit : p.htmlRawDocument.length < SIZE_MOD) :
    (p.skipUntilNot c).readingPos = pre.length + n := by
  have hc := cur_withState hdoc hpos hfit
  have e : (p.skipUntilNot c).readingPos = ((withState p 0).skipUntilNot c).readingPos := by
    rw [skipUntilNot_withState, withState_pos]
  rw [e, skipUntilNot_eq_putback]
  have hall : ∀ d ∈ List.replicate (n + 1) c, (fun x => x == c) d = true := by
    intro d hd
    simp [(List.mem_replicate.1 hd).2]
  have hl := Cur.skipUntilNotLoop c (List.replicate (n + 1) c) pre (withState p 0)
    ((withState p 0).rawLen - (withState p 0).readingPos) hc (by
      have h1 : (withState p 0).rawLen = (pre ++ List.replicate (n + 1) c).length := by
        rw [← hdoc]; rfl
      have h2 : (withState p 0).readingPos = pre.length := hpos
      rw [h1, h2]
      simp)
  rw [(takeWhile_all _ _ hall).1, (takeWhile_all _ _ hall).2] at hl
  have hp := hl.pos
  have hf := hl.fits
  simp only [List.take_nil, List.drop_nil, List.append_nil, List.length_append,
    List.length_replicate] at hp hf
  rw [putback_one_pos _ (by omega) (by omega), hp]
  omega

theorem skipUntilNot_first_other (p : HTMLParser) (pre rest : CString) (c d : Char) (n : Nat)
    (hd : d ≠ c) (hdoc : p.htmlRawDocument = pre ++ (List.replicate (n + 1) c ++ d :: rest))
    (hpos : p.readingPos = pre.length) (hfit : p.htmlRawDocument.length < SIZE_MOD) :
    (p.skipUntilNot c).readingPos = pre.length + n + 1 := by
  have hc := cur_withState hdoc hpos hfit
  have e : (p.skipUntilNot c).readingPos = ((withState p 0).skipUntilNot c).readingPos := by
    rw [skipUntilNot_withState, withState_pos]
  have hall : ∀ x ∈ List.replicate (n + 1) c, (fun x => x == c) x = true := by
    intro x hx
    simp [(List.mem_replicate.1 hx).2]
  have hstop : (fun x => x == c) d = false := by simp [hd]
  have h1 := dropWhile_append_stop (fun x => x == c) (List.replicate (n + 1) c) d rest hstop
  have h2 := takeWhile_append_stop (fun x => x == c) (List.replicate (n + 1) c) d rest hstop
  rw [(takeWhile_all _ _ hall).2] at h1
  rw [(takeWhile_all _ _ hall).1] at h2
  have hl := hc.skipUntilNot c (by rw [h1]; simp)
  rw [h2] at hl
  rw [e, hl.pos]
  simp
  omega

/-- C14: on the buffer of two spaces the run of spaces reaches the end of the buffer;
`skipUntilNot(' ')` called at offset 0, where the next character is a space, leaves the
cursor at offset 1, on the last space of the run, and not at the end of the buffer
(offset 2).  The parse of that buffer then reads the space as the text of the root. -/
theorem skipUntilNot_stays_on_run :
    ((startState [' ', ' ']).readChar false).1 = ' ' ∧
    ((startState [' ', ' ']).skipUntilNot ' ').readingPos = 1 ∧
    (((startState [' ', ' ']).skipUntilNot ' ').readChar false).1 = ' ' ∧
    (startState [' ', ' ']).rawLen = 2 ∧
    (parseBuffer [' ', ' ']).map (fun p => p.root.map HTMLNode.getTextContent)
      = some (some [' ']) :=
  ⟨by decide, by decide, by decide, by decide, by decide⟩

/-- C15. In every state whose buffer holds, from the cursor on, `s` spaces, then `n ≥ 1`
newlines, then a space, `skipEmptyChars` leaves the cursor `s + n` past its start, and
the next character is that space: the spaces after the newlines are not skipped. -/
theorem skipEmptyChars_two_passes (p : HTMLParser) (pre rest : CString) (s n : Nat)
    (hn : 1 ≤ n)
    (hdoc : p.htmlRawDocument =
      pre ++ (List.replicate s ' ' ++ (List.replicate n '\n' ++ ' ' :: rest)))
    (hpos : p.readingPos = pre.length) (hfit : p.htmlRawDocument.length < SIZE_MOD) :
    p.skipEmptyChars.readingPos = p.readingPos + s + n ∧
    (p.skipEmptyChars.readChar false).1 = ' ' ∧
    p.skipEmptyChars.htmlRawDocument.getD (p.readingPos + s + n) EOF_CHAR = ' ' := by
  have hc := cur_withState hdoc hpos hfit
  obtain ⟨m, rfl⟩ : ∃ m, n = m + 1 := ⟨n - 1, by omega⟩
  have hsp : ∀ x ∈ List.replicate s ' ', (fun x => x == ' ') x = true := by
    intro x hx
    simp [(List.mem_replicate.1 hx).2]
  have hnl : ∀ x ∈ List.replicate (m + 1) '\n', (fun x => x == '\n') x = true := by
    intro x hx
    simp [(List.mem_replicate.1 hx).2]
  have d1 : (List.replicate s ' ' ++ (List.replicate (m + 1) '\n' ++ ' ' :: rest)).dropWhile
      (fun x => x == ' ') = List.replicate (m + 1) '\n' ++ ' ' :: rest := by
    rw [dropWhile_append_of_all _ _ _ hsp]
    simp [List.replicate_succ]
  have t1 : (List.replicate s ' ' ++ (List.replicate (m + 1) '\n' ++ ' ' :: rest)).takeWhile
      (fun x => x == ' ') = List.replicate s ' ' := by
    rw [takeWhile_append_of_all _ _ _ hsp]
    simp [List.replicate_succ]
  have d2 : (List.replicate (m + 1) '\n' ++ ' ' :: rest).dropWhile (fun x => x == '\n')
      = ' ' :: rest := by
    rw [dropWhile_append_stop _ _ _ _ (by decide), (takeWhile_all _ _ hnl).2]
    rfl
  have t2 : (List.replicate (m + 1) '\n' ++ ' ' :: rest).takeWhile (fun x => x == '\n')
      = List.replicate (m + 1) '\n' := by
    rw [takeWhile_append_stop _ _ _ _ (by decide), (takeWhile_all _ _ hnl).1]
  have ha : afterEmptyChars
      (List.replicate s ' ' ++ (List.replicate (m + 1) '\n' ++ ' ' :: rest)) = ' ' :: rest := by
    unfold afterEmptyChars
    rw [d1, d2]
  have he : emptyChars
      (List.replicate s ' ' ++ (List.replicate (m + 1) '\n' ++ ' ' :: rest))
        = List.replicate s ' ' ++ List.replicate (m + 1) '\n' := by
    unfold emptyChars
    rw [t1, d1, t2]
  have hk := hc.skipEmptyChars (by rw [ha]; simp)
  rw [ha, he] at hk
  rw [skipEmptyChars_withState] at hk
  have hpos2 : p.skipEmptyChars.readingPos = p.readingPos + s + (m + 1) := by
    have h3 := hk.pos
    rw [withState_pos] at h3
    rw [h3, hpos]
    simp only [List.length_append, List.length_replicate]
    omega
  have hch := hk.readChar_fst false
  have hgd := hk.getD
  rw [readChar_withState] at hch
  rw [withState_pos, withState_doc] at hgd
  refine ⟨hpos2, hch, ?_⟩
  rw [← hpos2]
  exact hgd

/-- Witness of C15: the buffer `a \n\n  b` with the cursor at offset 1. -/
theorem skipEmptyChars_two_passes_witness :
    ({ startState "a \n\n  b".toList with readingPos := 1 } : HTMLParser).skipEmptyChars.readingPos
      = 1 + 1 + 2 ∧
    (({ startState "a \n\n  b".toList with readingPos := 1 } :
      HTMLParser).skipEmptyChars.readChar false).1 = ' ' :=
  ⟨(skipEmptyChars_two_passes { startState "a \n\n  b".toList with readingPos := 1 }
      ['a'] [' ', 'b'] 1 2 (by decide) (by decide) (by decide) (by decide)).1,
   (skipEmptyChars_two_passes { startState "a \n\n  b".toList with readingPos := 1 }
      ['a'] [' ', 'b'] 1 2 (by decide) (by decide) (by decide) (by decide)).2.1⟩

/-! ## A second `parse`, and the texts of the tree -/

theorem reset_state (p : HTMLParser) : p.reset.parserState = p.parserState := by
  unfold HTMLParser.reset HTMLParser.pushResetState__
  split_ifs <;> rfl

theorem reset_pos (p : HTMLParser) : p.reset.readingPos = 0 := by
  unfold HTMLParser.reset HTMLParser.pushResetState__
  split_ifs <;> rfl

theorem reset_doc (p : HTMLParser) : p.reset.htmlRawDocument = p.htmlRawDocument := by
  unfold HTMLParser.reset HTMLParser.pushResetState__
  split_ifs <;> rfl

theorem parse_of_bad (rf : CString → CString × fs_status_enum) (p : HTMLParser)
    (h1 : p.sourceLoaded = true) (h2 : p.parserState ≠ 0) :
    parse rf p = some { p.reset with root := some HTMLNode.create } := by
  have hb : ({ p.reset with root := some HTMLNode.create } : HTMLParser).badState = true :=
    badState_true (by show p.reset.parserState ≠ 0; rw [reset_state]; exact h2)
  unfold HTMLParser.parse
  simp only [h1, not_true_eq_false, false_and, if_false]
  rw [parseInternal_succ, hb]
  rfl

theorem parseBuffer_some {buf : CString} {p : HTMLParser} (h : parseBuffer buf = some p) :
    ∃ r, parseInternal (buf.length + 2) (startState buf) HTMLNode.create = some r ∧
      p = { r.2.1 with root := some r.2.2 } := by
  rw [parseBuffer_eq] at h
  cases hr : parseInternal (buf.length + 2) (startState buf) HTMLNode.create with
  | none => rw [hr] at h; cases h
  | some r =>
    rw [hr] at h
    exact ⟨r, rfl, (Option.some.inj h).symm⟩

/-- C17. For every buffer whose parse ends in a state `p` with a non-zero error code,
calling `parse` again on `p` returns a state with the same error code, the same buffer,
the cursor at offset 0, and a fresh root: empty tag, empty text, no children. -/
theorem error_survives_reparse (rf : CString → CString × fs_status_enum) (buf : CString)
    (p : HTMLParser) (h : parseBuffer buf = some p) (he : p.parserState ≠ 0) :
    ∃ q, parse rf p = some q ∧ q.parserState = p.parserState ∧ q.parserState ≠ 0 ∧
      q.root = some (HTMLNode.mk [] [] [] []) ∧ q.readingPos = 0 ∧
      q.htmlRawDocument = buf := by
  obtain ⟨r, hr, rfl⟩ := parseBuffer_some h
  have hs := (parseInternal_static (buf.length + 2)).1 _ _ _ hr
  have e := parse_of_bad rf { r.2.1 with root := some r.2.2 } hs.loaded he
  refine ⟨_, e, ?_, ?_, rfl, ?_, ?_⟩
  · exact reset_state _
  · show (HTMLParser.reset _).parserState ≠ 0
    rw [reset_state]
    exact he
  · exact reset_pos _
  · show (HTMLParser.reset _).htmlRawDocument = buf
    rw [reset_doc]
    exact hs.doc

/-- Witness of C17: the state `failedState`, in which the parse of `<a><b></a></b>` ends. -/
theorem error_survives_reparse_witness :
    ∃ q, parse (fun _ => ([], fs_status_enum.FSU_ERR)) failedState = some q ∧
      q.parserState = failedState.parserState ∧ q.parserState ≠ 0 ∧
      q.root = some (HTMLNode.mk [] [] [] []) ∧ q.readingPos = 0 ∧
      q.htmlRawDocument = "<a><b></a></b>".toList :=
  error_survives_reparse _ "<a><b></a></b>".toList failedState rfl (by decide)

theorem parseTextContentLoop_plain :
    ∀ (k : Nat) (p : HTMLParser) (content : CString), PlainText content →
      PlainText (parseTextContentLoop k p content).1 := by
  intro k
  induction k with
  | zero => intro p content h; exact h
  | succ k ih =>
    intro p content h
    rw [parseTextContentLoop]
    by_cases ha : p.available = true
    · simp only [ha, if_true]
      by_cases h1 : (p.readChar true).1 = '<'
      · simp only [h1, if_true]
        exact h
      · simp only [h1, if_false]
        by_cases h2 : (p.readChar true).1 = '\n'
        · simp only [h2, if_true]
          exact ih _ _ h
        · simp only [h2, if_false]
          apply ih
          intro c hc
          rcases List.mem_append.1 hc with hc | hc
          · exact h c hc
          · rw [List.mem_singleton.1 hc]
            exact ⟨h2, h1⟩
    · simp only [ha, Bool.false_eq_true, if_false]
      exact h

theorem parseTextContent_plain (p : HTMLParser) (node : HTMLNode)
    (h : PlainText node.getTextContent) :
    (p.parseTextContent node).2.2.tagName = node.tagName ∧
    (p.parseTextContent node).2.2.children = node.children ∧
    PlainText (p.parseTextContent node).2.2.getTextContent := by
  unfold HTMLParser.parseTextContent
  cases node with
  | mk t x a cs =>
    by_cases hb : p.badState = true
    · rw [if_pos hb]
      exact ⟨rfl, rfl, h⟩
    · rw [if_neg hb]
      exact ⟨rfl, rfl, parseTextContentLoop_plain _ _ _ h⟩


theorem plain_nodes_appendNode (node c : HTMLNode)
    (h1 : ∀ m ∈ node.nodes, PlainText m.getTextContent)
    (h2 : ∀ m ∈ c.nodes, PlainText m.getTextContent) :
    ∀ m ∈ (node.appendNode c).nodes, PlainText m.getTextContent := by
  intro m hm
  rw [nodes_appendNode] at hm
  rw [nodes_self node] at h1
  rcases List.mem_cons.1 hm with rfl | hm
  · exact h1 node (List.mem_cons_self _ _)
  · rcases List.mem_append.1 hm with hm | hm
    · exact h1 m (List.mem_cons_of_mem _ hm)
    · exact h2 m hm

/-- C20. For every buffer the parse returns, with or without error, and no text of a
node of the resulting tree, the root included, holds a newline or the character `<`. -/
theorem text_without_markup (buf : CString) (hl : buf.length < SIZE_MOD) :
    ∃ p root, parseBuffer buf = some p ∧ p.root = some root ∧
      ∀ m ∈ root.nodes, ∀ c ∈ m.getTextContent, c ≠ '\n' ∧ c ≠ '<' := by
  obtain ⟨r, hr, -⟩ := parseBuffer_total buf hl
  have e1 : parseBuffer buf = some { r.2.1 with root := some r.2.2 } := by
    rw [parseBuffer_eq, hr]
    rfl
  refine ⟨_, r.2.2, e1, rfl, ?_⟩
  have key := (parseInternal_invariant (fun n => ∀ m ∈ n.nodes, PlainText m.getTextContent)
    ?_ ?_ ?_ (buf.length + 2)).1 _ _ _ hr ?_
  · exact key
  · intro p m hm
    rcases parseTag_node p HTMLNode.create with e | ⟨name, e⟩
    · rw [e] at hm
      rcases List.mem_singleton.1 hm with rfl
      intro c hc
      cases hc
    · rw [e] at hm
      rcases List.mem_singleton.1 hm with rfl
      intro c hc
      cases hc
  · intro p node h m hm
    rcases parseTextContent_node p node with e | ⟨t, e⟩
    · rw [e] at hm
      exact h m hm
    · have hp := (parseTextContent_plain p node (h node (by rw [nodes_self]; simp))).2.2
      rw [e] at hm hp
      rw [nodes_setTextContent] at hm
      rcases List.mem_cons.1 hm with rfl | hm
      · cases node
        exact hp
      · exact h m (by rw [nodes_self]; exact List.mem_cons_of_mem _ hm)
  · exact plain_nodes_appendNode
  · intro m hm
    rcases List.mem_singleton.1 hm with rfl
    intro c hc
    cases hc

/-- Witness of C20: a buffer with newlines in its texts, whose parse ends in error. -/
theorem text_without_markup_witness :
    "a\n<b>c\nd</e>".toList.length < SIZE_MOD ∧
    ∃ p root, parseBuffer "a\n<b>c\nd</e>".toList = some p ∧ p.root = some root ∧
      ∀ m ∈ root.nodes, ∀ c ∈ m.getTextContent, c ≠ '\n' ∧ c ≠ '<' :=
  ⟨by decide, text_without_markup "a\n<b>c\nd</e>".toList (by decide)⟩

/-! ## Where a run of `parseInternal` ends -/

theorem pushResetState_old {p : HTMLParser} (h0 : p.parserState = 0) :
    p.pushResetState.oldReadingPos = p.readingPos ∧ p.pushResetState.oldLine = p.line ∧
    p.pushResetState.oldColmn = p.colmn ∧ p.pushResetState.line = p.line ∧
    p.pushResetState.colmn = p.colmn := by
  unfold HTMLParser.pushResetState HTMLParser.pushResetState__
  rw [badState_false h0]
  exact ⟨rfl, rfl, rfl, rfl, rfl⟩

theorem parseTagName_old {p : HTMLParser} (h0 : p.parserState = 0) :
    p.parseTagName.2.2.oldReadingPos = p.readingPos ∧ p.parseTagName.2.2.oldLine = p.line ∧
    p.parseTagName.2.2.oldColmn = p.colmn := by
  have hk := parseTagNameLoop_kept (p.pushResetState.rawLen - p.pushResetState.readingPos)
    p.pushResetState []
  have ho := pushResetState_old h0
  exact ⟨hk.oldPos.trans ho.1, hk.oldLine.trans ho.2.1, hk.oldColmn.trans ho.2.2.1⟩

theorem rejectAt_cursor {p1 : HTMLParser} (h0 : p1.parserState = 0) :
    (rejectAt p1).parserState = -2 ∧
    (rejectAt p1).htmlRawDocument = p1.htmlRawDocument ∧
    (rejectAt p1).readingPos = (p1.readChar true).2.readingPos ∧
    (rejectAt p1).line = (p1.readChar true).2.line ∧
    (rejectAt p1).colmn = (p1.readChar true).2.colmn ∧
    (rejectAt p1).oldReadingPos = (p1.readChar true).2.readingPos ∧
    (rejectAt p1).oldLine = (p1.readChar true).2.line ∧
    (rejectAt p1).oldColmn = (p1.readChar true).2.colmn := by
  have h2 : (p1.readChar true).2.parserState = 0 := (readChar_state p1 true).trans h0
  have ho := parseTagName_old h2
  have hd : (p1.readChar true).2.parseTagName.2.2.htmlRawDocument = p1.htmlRawDocument :=
    (parseTagName_static _).doc.trans (readChar_doc p1 true)
  unfold rejectAt HTMLParser.readClosingTag
  generalize (p1.readChar true).2 = p2 at *
  generalize p2.parseTagName.2.2 = q at *
  exact ⟨toInt_toSizeT_neg_two, hd, ho.1, ho.2.1, ho.2.2, ho.1, ho.2.1, ho.2.2⟩

theorem Rejected.bad {p q : HTMLParser} (h : Rejected p q) : q.parserState = -2 := by
  obtain ⟨p1, -, -, h0, -, -, rfl⟩ := h
  exact (rejectAt_cursor h0).1

theorem Rejected.after_fwd {p p2 q : HTMLParser} (h : Fwd p p2) (hr : Rejected p2 q) :
    Rejected p q := by
  obtain ⟨p1, hf, hle, h0, ha, hc, e⟩ := hr
  exact ⟨p1, h.trans hf, by have := h.le; omega, h0, ha, hc, e⟩

theorem Outcome.from_fwd {p p2 q : HTMLParser} (h : Fwd p p2) (ho : Outcome p2 q) :
    Outcome p q :=
  ⟨fun h0 => h.trans (ho.ok h0), fun h0 => (ho.err h0).after_fwd h⟩

theorem Outcome.of_ok {p q : HTMLParser} (h : Fwd p q) (h0 : p.parserState = 0) :
    Outcome p q :=
  ⟨fun _ => h, fun hq => absurd (h.st.trans h0) hq⟩

theorem Outcome.of_rejected {p q : HTMLParser} (h : Rejected p q) : Outcome p q :=
  ⟨fun h0 => by rw [h.bad] at h0; exact absurd h0 (by decide), fun _ => h⟩

theorem outcome_of_some {p q : HTMLParser} {c : Int} {n : HTMLNode}
    {r : Int × HTMLParser × HTMLNode} (h : some (c, q, n) = some r) (hq : Outcome p q) :
    Outcome p r.2.1 := by
  cases h
  exact hq

theorem parseInternal_outcome : ∀ k : Nat,
    (∀ (p : HTMLParser) (node : HTMLNode) (r : Int × HTMLParser × HTMLNode),
      InBuf p → p.parserState = 0 → parseInternal k p node = some r → Outcome p r.2.1) ∧
    (∀ (p : HTMLParser) (node : HTMLNode) (f : Bool) (r : Int × HTMLParser × HTMLNode),
      InBuf p → p.parserState = 0 → parseInternalLoop k p node f = some r →
        Outcome p r.2.1) := by
  intro k
  induction k with
  | zero =>
    constructor
    · intro p node r _ _ h
      rw [parseInternal] at h
      cases h
    · intro p node f r _ _ h
      rw [parseInternalLoop] at h
      cases h
  | succ k ih =>
    obtain ⟨ihI, ihL⟩ := ih
    constructor
    · intro p node r hin h0 h
      rw [parseInternal_succ, badState_false h0] at h
      simp only [Bool.false_eq_true, if_false] at h
      have h1 := skipEmptyChars_fwd hin
      exact (ihL _ _ _ _ (h1.inBuf hin) (h1.st.trans h0) h).from_fwd h1
    · intro p node f r hin h0 h
      by_cases ha : p.available = true
      · have h1 := readChar_fwd hin ha
        have hp1 := readChar_pos p hin.fits ha
        by_cases hc : (p.readChar true).1 = '<'
        · have h2 := skipEmptyChars_fwd (h1.inBuf hin)
          have h12 := h1.trans h2
          have hle12 : p.readingPos + 1 ≤ (p.readChar true).2.skipEmptyChars.readingPos := by
            have := h2.le
            omega
          by_cases ha2 : (p.readChar true).2.skipEmptyChars.available = true
          · have h3 := readChar_fwd (h12.inBuf hin) ha2
            by_cases hs : ((p.readChar true).2.skipEmptyChars.readChar true).1 = '/'
            · rw [loop_close_eq k p node f ha hc ha2 hs] at h
              have h4 := (parseTagName_fwd ((h12.trans h3).inBuf hin)).1
              have h14 := (h12.trans h3).trans h4
              split at h
              · exact outcome_of_some h (Outcome.of_rejected
                  ⟨_, h12, hle12, h12.st.trans h0, ha2, hs, rfl⟩)
              · exact outcome_of_some h (Outcome.of_ok h14 h0)
            · rw [loop_open_eq k p node f ha hc ha2 hs] at h
              have h4 := readChar_putback_fwd (h12.inBuf hin) ha2
              have h14 := h12.trans h4
              have hst4 : (((p.readChar true).2.skipEmptyChars.readChar true).2.putback
                  1).parserState = 0 := h14.st.trans h0
              rw [parseTag_ok hst4] at h
              generalize (((p.readChar true).2.skipEmptyChars.readChar true).2.putback 1) = q
                at *
              have h5 := pushResetState_fwd (h14.inBuf hin)
              obtain ⟨h6, -⟩ := parseTagName_fwd ((h14.trans h5).inBuf hin)
              have h16 := (h14.trans h5).trans h6
              generalize q.pushResetState.parseTagName.2.2 = q2 at *
              cases hr : parseInternal k q2
                  (HTMLNode.create.setTagName q.pushResetState.parseTagName.2.1) with
              | none =>
                rw [hr] at h
                cases h
              | some s =>
                rw [hr] at h
                simp only [Option.some_bind] at h
                have h7 := (ihI _ _ _ (h16.inBuf hin) (h16.st.trans h0) hr).from_fwd h16
                by_cases hb : s.2.1.parserState = 0
                · rw [badState_false hb] at h
                  simp only [Bool.false_eq_true, if_false] at h
                  have h8 := h7.ok hb
                  exact (ihL _ _ _ _ (h8.inBuf hin) hb h).from_fwd h8
                · rw [badState_true hb] at h
                  simp only [if_true] at h
                  exact outcome_of_some h h7
          · have ha2f : (p.readChar true).2.skipEmptyChars.available = false := by
              simpa using ha2
            rw [loop_lt_eof_eq k p node f ha hc ha2f] at h
            exact outcome_of_some h (Outcome.of_ok h12 h0)
        · rw [loop_text_eq k p node f ha hc] at h
          have h2 := readChar_putback_fwd hin ha
          have h3 : Fwd ((p.readChar true).2.putback 1)
              (if f = true then ((p.readChar true).2.putback 1).skipEmptyChars
                else (p.readChar true).2.putback 1) := by
            split
            · exact skipEmptyChars_fwd (h2.inBuf hin)
            · exact Fwd.refl (h2.inBuf hin)
          generalize (if f = true then ((p.readChar true).2.putback 1).skipEmptyChars
                else (p.readChar true).2.putback 1) = q at *
          generalize ((p.readChar true).2.putback 1) = q0 at *
          have h23 := h2.trans h3
          rw [parseTextContent_ok (h23.st.trans h0)] at h
          obtain ⟨h4, -⟩ := parseTextContentLoop_fwd (q.rawLen - q.readingPos) q
            node.getTextContent (h23.inBuf hin)
          have h24 := h23.trans h4
          exact (ihL _ _ _ _ (h24.inBuf hin) (h24.st.trans h0) h).from_fwd h24
      · have haf : p.available = false := by simpa using ha
        rw [loop_eof_eq k p node f haf] at h
        exact outcome_of_some h (Outcome.of_ok (Fwd.refl hin) h0)


/-- C11. On every buffer: (1) an iteration of the loop of `parseInternal` that reads `<`,
skips blanks, reads `/` and scans a name other than the tag of the node returns `-2` in
the state `rejectAt p1`, where `p1` is the state whose next character is that `/`;
(2) in `rejectAt p1` the error code is `-2` and offset, line and column are those of the
checkpoint, which are the ones the cursor had right after the `/` was read (the offset
is the one after the `/`); (3) the parse returns, and when it ends with an error its final
state is `rejectAt p1` for such a `p1` of the buffer, but for the member `root`: nothing
moves the cursor while the error unwinds. -/
theorem mismatch_rolls_back (buf : CString) (hl : buf.length < SIZE_MOD) :
    (∀ (k : Nat) (p : HTMLParser) (node : HTMLNode) (f : Bool),
      p.htmlRawDocument = buf → p.parserState = 0 → p.available = true →
      (p.readChar true).1 = '<' → (p.readChar true).2.skipEmptyChars.available = true →
      ((p.readChar true).2.skipEmptyChars.readChar true).1 = '/' →
      ((p.readChar true).2.skipEmptyChars.readChar true).2.readClosingTag.2.1
        ≠ node.tagName →
      parseInternalLoop (k + 1) p node f =
        some (-2, rejectAt (p.readChar true).2.skipEmptyChars, node)) ∧
    (∀ p1 : HTMLParser, p1.htmlRawDocument = buf → p1.parserState = 0 →
      p1.available = true →
      (rejectAt p1).parserState = -2 ∧
      (rejectAt p1).readingPos = p1.readingPos + 1 ∧
      (rejectAt p1).line = (p1.readChar true).2.line ∧
      (rejectAt p1).colmn = (p1.readChar true).2.colmn ∧
      (rejectAt p1).oldReadingPos = p1.readingPos + 1 ∧
      (rejectAt p1).oldLine = (p1.readChar true).2.line ∧
      (rejectAt p1).oldColmn = (p1.readChar true).2.colmn) ∧
    ∃ p, parseBuffer buf = some p ∧
      (p.parserState ≠ 0 →
        ∃ p1 : HTMLParser, p1.htmlRawDocument = buf ∧ p1.parserState = 0 ∧
          p1.readingPos < buf.length ∧ buf.getD p1.readingPos EOF_CHAR = '/' ∧
          p = { rejectAt p1 with root := p.root }) := by
  refine ⟨?_, ?_, ?_⟩
  · intro k p node f _ _ ha hc ha2 hs hne
    rw [loop_close_eq k p node f ha hc ha2 hs, if_pos hne, parsingError_fst,
      toInt_toSizeT_neg_two]
    rfl
  · intro p1 hd h0 ha
    have hc := rejectAt_cursor h0
    have hp := readChar_pos p1 (by rw [hd]; exact hl) ha
    exact ⟨hc.1, hc.2.2.1.trans hp, hc.2.2.2.1, hc.2.2.2.2.1, hc.2.2.2.2.2.1.trans hp,
      hc.2.2.2.2.2.2.1, hc.2.2.2.2.2.2.2⟩
  · obtain ⟨r, hr, -⟩ := parseBuffer_total buf hl
    have hin : InBuf (startState buf) := (startState_cur buf hl).toInBuf
    have ho := (parseInternal_outcome (buf.length + 2)).1 _ _ _ hin rfl hr
    have e1 : parseBuffer buf = some { r.2.1 with root := some r.2.2 } := by
      rw [parseBuffer_eq, hr]
      rfl
    refine ⟨_, e1, fun hb => ?_⟩
    obtain ⟨p1, hf, -, h0, ha, hc, e⟩ := ho.err hb
    have hd : p1.htmlRawDocument = buf := hf.doc
    refine ⟨p1, hd, h0, ?_, ?_, ?_⟩
    · rw [← hd]
      exact (available_iff p1).1 ha
    · rw [← hd, ← readChar_fst_eq p1 true ha]
      exact hc
    · rw [e]

/-- Witness of C11: the buffer `<a><b></a></b>`, whose parse ends with code `-2` at offset 8,
right after the `/` at offset 7. -/
theorem mismatch_rolls_back_witness :
    "<a><b></a></b>".toList.length < SIZE_MOD ∧
    (∃ p, parseBuffer "<a><b></a></b>".toList = some p ∧
      (p.parserState ≠ 0 →
        ∃ p1 : HTMLParser, p1.htmlRawDocument = "<a><b></a></b>".toList ∧
          p1.parserState = 0 ∧ p1.readingPos < "<a><b></a></b>".toList.length ∧
          "<a><b></a></b>".toList.getD p1.readingPos EOF_CHAR = '/' ∧
          p = { rejectAt p1 with root := p.root })) ∧
    (parseBuffer "<a><b></a></b>".toList).map
        (fun p => (p.parserState, p.readingPos, p.oldReadingPos)) = some (-2, 8, 8) ∧
    (rejectAt { startState "<a><b></a></b>".toList with readingPos := 7, colmn := 9 }
      ).readingPos = 8 :=
  ⟨by decide, (mismatch_rolls_back "<a><b></a></b>".toList (by decide)).2.2, by decide,
    by decide⟩

/-! ## Progress of the loop of `parseInternal` -/

theorem parseInternalLoop_succ (k : Nat) (p : HTMLParser) (node : HTMLNode) (f : Bool) :
    parseInternalLoop (k + 1) p node f =
      if p.available then
        (parseInternalBody k p node f).bind
          (Sum.elim some fun c => parseInternalLoop k c.1 c.2.1 c.2.2)
      else some (0, p, node) := by
  rw [parseInternalLoop]
  unfold parseInternalBody
  by_cases ha : p.available = true
  · simp only [ha, if_true]
    by_cases hc : (p.readChar true).1 = '<'
    · simp only [hc, if_true]
      by_cases ha2 : (p.readChar true).2.skipEmptyChars.available = true
      · simp only [ha2, not_true_eq_false, if_false]
        by_cases hs : ((p.readChar true).2.skipEmptyChars.readChar true).1 = '/'
        · simp only [hs, if_true]
          split <;> rfl
        · simp only [hs, if_false]
          cases parseInternal k
              ((((p.readChar true).2.skipEmptyChars.readChar true).2.putback 1).parseTag
                HTMLNode.create).2.1
              ((((p.readChar true).2.skipEmptyChars.readChar true).2.putback 1).parseTag
                HTMLNode.create).2.2 with
          | none => rfl
          | some s =>
            simp only [Option.some_bind]
            split <;> rfl
      · simp only [ha2, not_false_eq_true, if_true]
        rfl
    · simp only [hc, if_false]
      cases f <;> simp
  · simp only [ha, Bool.false_eq_true, if_false]

theorem Rejected.inside {p q : HTMLParser} (hin : InBuf p) (h : Rejected p q) :
    q.htmlRawDocument = p.htmlRawDocument ∧ p.readingPos + 2 ≤ q.readingPos ∧
    q.readingPos ≤ p.htmlRawDocument.length := by
  obtain ⟨p1, hf, hle, h0, ha, -, rfl⟩ := h
  have hc := rejectAt_cursor h0
  have hp := readChar_pos p1 (hf.inBuf hin).fits ha
  have hlt := (available_iff p1).1 ha
  rw [hf.doc] at hlt
  refine ⟨hc.2.1.trans hf.doc, ?_, ?_⟩
  · rw [hc.2.2.1, hp]
    omega
  · rw [hc.2.2.1, hp]
    omega

theorem Outcome.span {p q : HTMLParser} (hin : InBuf p) (h : Outcome p q) :
    q.htmlRawDocument = p.htmlRawDocument ∧ p.readingPos ≤ q.readingPos ∧
    q.readingPos ≤ p.htmlRawDocument.length := by
  by_cases h0 : q.parserState = 0
  · have hf := h.ok h0
    exact ⟨hf.doc, hf.le, by have := hf.bound; rw [hf.doc] at this; exact this⟩
  · have hb := (h.err h0).inside hin
    exact ⟨hb.1, by omega, hb.2.2⟩


theorem step_inl {p q : HTMLParser} (c : Int) (n : HTMLNode)
    (h : q.htmlRawDocument = p.htmlRawDocument ∧ p.readingPos + 1 ≤ q.readingPos ∧
      q.readingPos ≤ p.htmlRawDocument.length) :
    ∃ res : (Int × HTMLParser × HTMLNode) ⊕ (HTMLParser × HTMLNode × Bool),
      some (Sum.inl (c, q, n)) = some res ∧
      (stepState res).htmlRawDocument = p.htmlRawDocument ∧
      p.readingPos + 1 ≤ (stepState res).readingPos ∧
      (stepState res).readingPos ≤ p.htmlRawDocument.length :=
  ⟨_, rfl, h⟩

theorem step_inr {p q : HTMLParser} (n : HTMLNode) (f : Bool)
    (h : q.htmlRawDocument = p.htmlRawDocument ∧ p.readingPos + 1 ≤ q.readingPos ∧
      q.readingPos ≤ p.htmlRawDocument.length) :
    ∃ res : (Int × HTMLParser × HTMLNode) ⊕ (HTMLParser × HTMLNode × Bool),
      some (Sum.inr (q, n, f)) = some res ∧
      (stepState res).htmlRawDocument = p.htmlRawDocument ∧
      p.readingPos + 1 ≤ (stepState res).readingPos ∧
      (stepState res).readingPos ≤ p.htmlRawDocument.length :=
  ⟨_, rfl, h⟩

theorem parseInternalBody_progress (k : Nat) (p : HTMLParser) (node : HTMLNode) (f : Bool)
    (hin : InBuf p) (h0 : p.parserState = 0) (ha : p.available = true)
    (hk : p.htmlRawDocument.length - p.readingPos ≤ k) :
    ∃ res, parseInternalBody k p node f = some res ∧
      (stepState res).htmlRawDocument = p.htmlRawDocument ∧
      p.readingPos + 1 ≤ (stepState res).readingPos ∧
      (stepState res).readingPos ≤ p.htmlRawDocument.length := by
  have h1 := readChar_fwd hin ha
  have hp1 := readChar_pos p hin.fits ha
  have hlt := (available_iff p).1 ha
  unfold parseInternalBody
  by_cases hc : (p.readChar true).1 = '<'
  · simp only [hc, if_true]
    have h2 := skipEmptyChars_fwd (h1.inBuf hin)
    have h12 := h1.trans h2
    have hle12 : p.readingPos + 1 ≤ (p.readChar true).2.skipEmptyChars.readingPos := by
      have := h2.le
      omega
    have hb12 := h12.bound
    rw [h12.doc] at hb12
    by_cases ha2 : (p.readChar true).2.skipEmptyChars.available = true
    · simp only [ha2, not_true_eq_false, if_false]
      have h3 := readChar_fwd (h12.inBuf hin) ha2
      by_cases hs : ((p.readChar true).2.skipEmptyChars.readChar true).1 = '/'
      · simp only [hs, if_true]
        have h4 := (parseTagName_fwd ((h12.trans h3).inBuf hin)).1
        have h14 := (h12.trans h3).trans h4
        unfold HTMLParser.readClosingTag
        split
        · have hr : Rejected p (rejectAt (p.readChar true).2.skipEmptyChars) :=
            ⟨_, h12, hle12, h12.st.trans h0, ha2, hs, rfl⟩
          have hb := hr.inside hin
          unfold rejectAt HTMLParser.readClosingTag at hb
          exact step_inl _ _ ⟨hb.1, by omega, hb.2.2⟩
        · have hb := h14.bound
          rw [h14.doc] at hb
          have hle := (h3.trans h4).le
          exact step_inl _ _ ⟨h14.doc, by omega, hb⟩
      · simp only [hs, if_false]
        have h4 := readChar_putback_fwd (h12.inBuf hin) ha2
        have hp4 := readChar_putback_pos (h12.inBuf hin) ha2
        have h14 := h12.trans h4
        have hst4 : (((p.readChar true).2.skipEmptyChars.readChar true).2.putback
            1).parserState = 0 := h14.st.trans h0
        have hav4 : (((p.readChar true).2.skipEmptyChars.readChar true).2.putback
            1).available = true := by
          rw [available_iff, hp4, h4.doc]
          exact (available_iff _).1 ha2
        rw [parseTag_ok hst4]
        generalize (((p.readChar true).2.skipEmptyChars.readChar true).2.putback 1) = q
          at *
        have h5 := pushResetState_fwd (h14.inBuf hin)
        have hav5 : q.pushResetState.available = true := by
          rw [pushResetState_available]; exact hav4
        obtain ⟨h6, h7⟩ := parseTagName_fwd ((h14.trans h5).inBuf hin)
        have h7 := h7 hav5
        rw [pushResetState_pos] at h7
        have h16 := (h14.trans h5).trans h6
        generalize q.pushResetState.parseTagName.2.2 = q2 at *
        have hb16 := h16.bound
        rw [h16.doc] at hb16
        obtain ⟨r, hr, -⟩ := (parseInternal_total_aux k).1 q2
          (HTMLNode.create.setTagName q.pushResetState.parseTagName.2.1)
          (h16.inBuf hin) (by rw [h16.doc]; omega)
        have ho := ((parseInternal_outcome k).1 _ _ _ (h16.inBuf hin) (h16.st.trans h0)
          hr).span (h16.inBuf hin)
        rw [h16.doc] at ho
        simp only [hr, Option.some_bind]
        split
        · exact step_inl _ _ ⟨ho.1, by omega, ho.2.2⟩
        · exact step_inr _ _ ⟨ho.1, by omega, ho.2.2⟩
    · simp only [ha2, not_false_eq_true, if_true]
      exact step_inl _ _ ⟨h12.doc, hle12, hb12⟩
  · simp only [hc, if_false]
    have h2 := readChar_putback_fwd hin ha
    have hp2 := readChar_putback_pos hin ha
    have hc2 := readChar_fst_eq p true ha
    rw [hc2] at hc
    have key : ∀ q : HTMLParser, Fwd ((p.readChar true).2.putback 1) q →
        (q.parseTextContent node).2.1.htmlRawDocument = p.htmlRawDocument ∧
        p.readingPos + 1 ≤ (q.parseTextContent node).2.1.readingPos ∧
        (q.parseTextContent node).2.1.readingPos ≤ p.htmlRawDocument.length := by
      intro q h3
      generalize ((p.readChar true).2.putback 1) = q0 at *
      have h23 := h2.trans h3
      rw [parseTextContent_ok (h23.st.trans h0)]
      obtain ⟨h4, h5⟩ := parseTextContentLoop_fwd (q.rawLen - q.readingPos) q
        node.getTextContent (h23.inBuf hin)
      have h24 := h23.trans h4
      have hb := h24.bound
      rw [h24.doc] at hb
      have hle3 := h3.le
      have hle4 := h4.le
      have hprog : p.readingPos + 1 ≤
          (parseTextContentLoop (q.rawLen - q.readingPos) q
            node.getTextContent).2.readingPos := by
        by_cases hq : q.readingPos = p.readingPos
        · have hav : q.available = true := by
            rw [available_iff, hq, h23.doc]
            exact (available_iff _).1 ha
          have hk1 : 1 ≤ q.rawLen - q.readingPos := by
            rw [available_iff] at hav
            unfold rawLen
            omega
          have := h5 hk1 hav (by rw [h23.doc, hq]; exact hc)
          omega
        · omega
      exact ⟨h24.doc, hprog, hb⟩
    cases f
    · simp only [Bool.false_eq_true, not_false_eq_true, if_true]
      exact step_inr _ _ (key _ (Fwd.refl (h2.inBuf hin)))
    · simp only [not_true_eq_false, if_false]
      exact step_inr _ _ (key _ (skipEmptyChars_fwd (h2.inBuf hin)))


theorem parseInternalBody_mono (k : Nat)
    (ihI : ∀ (p : HTMLParser) (node : HTMLNode) (r : Int × HTMLParser × HTMLNode),
      parseInternal k p node = some r → parseInternal (k + 1) p node = some r)
    (p : HTMLParser) (node : HTMLNode) (f : Bool)
    (x : (Int × HTMLParser × HTMLNode) ⊕ (HTMLParser × HTMLNode × Bool))
    (hb : parseInternalBody k p node f = some x) :
    parseInternalBody (k + 1) p node f = some x := by
  unfold parseInternalBody at hb ⊢
  by_cases hc : (p.readChar true).1 = '<'
  · rw [if_pos hc] at hb ⊢
    by_cases ha2 : (p.readChar true).2.skipEmptyChars.available = true
    · rw [if_neg (by simpa using ha2)] at hb ⊢
      by_cases hs : ((p.readChar true).2.skipEmptyChars.readChar true).1 = '/'
      · rw [if_pos hs] at hb ⊢
        exact hb
      · rw [if_neg hs] at hb ⊢
        dsimp only at hb ⊢
        cases hr : parseInternal k
            ((((p.readChar true).2.skipEmptyChars.readChar true).2.putback
              1).parseTag HTMLNode.create).2.1
            ((((p.readChar true).2.skipEmptyChars.readChar true).2.putback
              1).parseTag HTMLNode.create).2.2 with
        | none =>
          rw [hr] at hb
          cases hb
        | some s =>
          rw [hr] at hb
          rw [ihI _ _ _ hr]
          exact hb
    · rw [if_pos (by simpa using ha2)] at hb ⊢
      exact hb
  · rw [if_neg hc] at hb ⊢
    exact hb

theorem parseInternalLoop_mono (k : Nat)
    (ihI : ∀ (p : HTMLParser) (node : HTMLNode) (r : Int × HTMLParser × HTMLNode),
      parseInternal k p node = some r → parseInternal (k + 1) p node = some r)
    (ihL : ∀ (p : HTMLParser) (node : HTMLNode) (f : Bool)
      (r : Int × HTMLParser × HTMLNode),
      parseInternalLoop k p node f = some r → parseInternalLoop (k + 1) p node f = some r)
    (p : HTMLParser) (node : HTMLNode) (f : Bool) (r : Int × HTMLParser × HTMLNode)
    (h : parseInternalLoop (k + 1) p node f = some r) :
    parseInternalLoop (k + 1 + 1) p node f = some r := by
  rw [parseInternalLoop_succ] at h ⊢
  by_cases ha : p.available = true
  · rw [if_pos ha] at h ⊢
    cases hb : parseInternalBody k p node f with
    | none =>
      rw [hb] at h
      cases h
    | some x =>
      rw [hb] at h
      rw [parseInternalBody_mono k ihI p node f x hb]
      cases x with
      | inl y => exact h
      | inr c => exact ihL _ _ _ _ h
  · rw [if_neg ha] at h ⊢
    exact h

theorem parseInternal_mono : ∀ k : Nat,
    (∀ (p : HTMLParser) (node : HTMLNode) (r : Int × HTMLParser × HTMLNode),
      parseInternal k p node = some r → parseInternal (k + 1) p node = some r) ∧
    (∀ (p : HTMLParser) (node : HTMLNode) (f : Bool) (r : Int × HTMLParser × HTMLNode),
      parseInternalLoop k p node f = some r → parseInternalLoop (k + 1) p node f = some r) := by
  intro k
  induction k with
  | zero =>
    constructor
    · intro p node r h
      rw [parseInternal] at h
      cases h
    · intro p node f r h
      rw [parseInternalLoop] at h
      cases h
  | succ k ih =>
    have hL := parseInternalLoop_mono k ih.1 ih.2
    constructor
    · intro p node r h
      rw [parseInternal_succ] at h ⊢
      by_cases hb : p.badState = true
      · rw [if_pos hb] at h ⊢
        exact h
      · rw [if_neg hb] at h ⊢
        exact ih.2 _ _ _ _ h
    · exact hL

theorem parseInternal_mono_le {k k2 : Nat} (hk : k ≤ k2) {p : HTMLParser} {node : HTMLNode}
    {r : Int × HTMLParser × HTMLNode} (h : parseInternal k p node = some r) :
    parseInternal k2 p node = some r := by
  induction hk with
  | refl => exact h
  | step _ ih => exact (parseInternal_mono _).1 _ _ _ ih


/-- C18. On every buffer: (1) the tree builder started on the root at offset 0 returns, and
returns the same result with every step counter from `length + 2` on, so `parse`
returns; (2) the loop of `parseInternal` is its body `parseInternalBody` repeated while a
character is available; (3) every pass through the body, entered without error with a
character available, ends (by a `return` or back at the loop test, the recursive call
included) with the cursor strictly after the offset at which the pass started, and inside
the buffer; (4) every call of `parseInternal` returns with the cursor not before its
start and inside the buffer. -/
theorem parseInternal_terminates (buf : CString) (hl : buf.length < SIZE_MOD) :
    (∃ r, ∀ k, buf.length + 2 ≤ k →
      parseInternal k (startState buf) HTMLNode.create = some r) ∧
    (∃ p, parseBuffer buf = some p) ∧
    (∀ (k : Nat) (p : HTMLParser) (node : HTMLNode) (f : Bool),
      parseInternalLoop (k + 1) p node f =
        if p.available then
          (parseInternalBody k p node f).bind
            (Sum.elim some fun c => parseInternalLoop k c.1 c.2.1 c.2.2)
        else some (0, p, node)) ∧
    (∀ (k : Nat) (p : HTMLParser) (node : HTMLNode) (f : Bool),
      p.htmlRawDocument = buf → p.parserState = 0 → p.available = true →
      buf.length - p.readingPos ≤ k →
      ∃ res, parseInternalBody k p node f = some res ∧
        p.readingPos < (stepState res).readingPos ∧
        (stepState res).readingPos ≤ buf.length) ∧
    (∀ (k : Nat) (p : HTMLParser) (node : HTMLNode),
      p.htmlRawDocument = buf → p.readingPos ≤ buf.length →
      buf.length - p.readingPos + 2 ≤ k →
      ∃ r, parseInternal k p node = some r ∧ p.readingPos ≤ r.2.1.readingPos ∧
        r.2.1.readingPos ≤ buf.length) := by
  obtain ⟨r, hr, -⟩ := parseBuffer_total buf hl
  refine ⟨⟨r, fun k hk => parseInternal_mono_le hk hr⟩, ?_, parseInternalLoop_succ, ?_, ?_⟩
  · rw [parseBuffer_eq, hr]
    exact ⟨_, rfl⟩
  · intro k p node f hd h0 ha hk
    have hin : InBuf p := ⟨by rw [hd]; exact hl, le_of_lt ((available_iff p).1 ha)⟩
    obtain ⟨res, e, -, h1, h2⟩ := parseInternalBody_progress k p node f hin h0 ha
      (by rw [hd]; exact hk)
    rw [hd] at h2
    exact ⟨res, e, h1, h2⟩
  · intro k p node hd hb hk
    have hin : InBuf p := ⟨by rw [hd]; exact hl, by rw [hd]; exact hb⟩
    obtain ⟨r2, hr2, -⟩ := (parseInternal_total_aux k).1 p node hin (by rw [hd]; exact hk)
    refine ⟨r2, hr2, ?_⟩
    by_cases h0 : p.parserState = 0
    · have ho := ((parseInternal_outcome k).1 _ _ _ hin h0 hr2).span hin
      rw [hd] at ho
      exact ⟨ho.2.1, ho.2.2⟩
    · obtain ⟨k2, rfl⟩ : ∃ k2, k = k2 + 1 := ⟨k - 1, by omega⟩
      rw [parseInternal_succ, badState_true h0, if_pos rfl] at hr2
      cases hr2
      exact ⟨le_refl _, hb⟩

/-- Witness of C18: a buffer with text, nested elements and blanks. -/
theorem parseInternal_terminates_witness :
    "<a>x<b></b> </a>".toList.length < SIZE_MOD ∧
    (∃ r, ∀ k, "<a>x<b></b> </a>".toList.length + 2 ≤ k →
      parseInternal k (startState "<a>x<b></b> </a>".toList) HTMLNode.create = some r) ∧
    (∃ p, parseBuffer "<a>x<b></b> </a>".toList = some p) :=
  ⟨by decide, (parseInternal_terminates "<a>x<b></b> </a>".toList (by decide)).1,
    (parseInternal_terminates "<a>x<b></b> </a>".toList (by decide)).2.1⟩


/-! ## The cursor stays inside the buffer -/

theorem Within.via_fwd {p q : HTMLParser} {buf : CString} (hd : p.htmlRawDocument = buf)
    (h : Fwd p q) : Within buf p q :=
  ⟨h.doc.trans hd, h.le, by have := h.bound; rw [h.doc, hd] at this; exact this⟩

theorem readChar_not_available (p : HTMLParser) (a : Bool) (ha : p.available = false) :
    p.readChar a = (EOF_CHAR, p) := by
  unfold HTMLParser.readChar
  simp [ha]

theorem readChar_within {p : HTMLParser} {buf : CString} (hin : InBuf p)
    (hd : p.htmlRawDocument = buf) (a : Bool) :
    Within buf p (p.readChar a).2 ∧
    (p.readChar a).1 =
      if p.readingPos < buf.length then buf.getD p.readingPos EOF_CHAR else EOF_CHAR := by
  by_cases ha : p.available = true
  · have hlt := (available_iff p).1 ha
    rw [hd] at hlt
    rw [if_pos hlt, readChar_fst_eq p a ha, hd]
    refine ⟨?_, rfl⟩
    cases a
    · rw [readChar_false_snd]
      exact Within.via_fwd hd (Fwd.refl hin)
    · exact Within.via_fwd hd (readChar_fwd hin ha)
  · have haf : p.available = false := by simpa using ha
    have hge := (available_false_iff p).1 haf
    rw [hd] at hge
    rw [if_neg (by omega), readChar_not_available p a haf]
    exact ⟨Within.via_fwd hd (Fwd.refl hin), rfl⟩

theorem skipUntilNot_within {p : HTMLParser} {buf : CString} (hin : InBuf p)
    (hd : p.htmlRawDocument = buf) (c : Char) (ha : p.available = true) :
    p.readingPos + 1 ≤ (skipUntilNotLoop (p.rawLen - p.readingPos) p c).readingPos ∧
    (p.skipUntilNot c).readingPos + 1 =
      (skipUntilNotLoop (p.rawLen - p.readingPos) p c).readingPos ∧
    Within buf p (p.skipUntilNot c) := by
  have hk : 1 ≤ p.rawLen - p.readingPos := by
    rw [available_iff] at ha
    unfold rawLen
    omega
  obtain ⟨h1, h2⟩ := skipUntilNotLoop_fwd c (p.rawLen - p.readingPos) p hin
  have h3 := h2 hk ha
  have hw := Within.via_fwd hd (skipUntilNot_fwd c hin ha)
  refine ⟨h3, ?_, hw⟩
  rw [skipUntilNot_eq_putback]
  generalize skipUntilNotLoop (p.rawLen - p.readingPos) p c = q at *
  have hb := h1.bound
  rw [h1.doc] at hb
  have hf := hin.fits
  rw [putback_one_pos q (by omega) (by omega)]
  omega

theorem parseTextContent_within {p : HTMLParser} {buf : CString} (hin : InBuf p)
    (hd : p.htmlRawDocument = buf) (node : HTMLNode) :
    Within buf p (p.parseTextContent node).2.1 := by
  by_cases h0 : p.parserState = 0
  · rw [parseTextContent_ok h0]
    exact Within.via_fwd hd (parseTextContentLoop_fwd _ p _ hin).1
  · unfold HTMLParser.parseTextContent
    rw [if_pos (badState_true h0)]
    exact Within.via_fwd hd (Fwd.refl hin)

theorem parseTag_within {p : HTMLParser} {buf : CString} (hin : InBuf p)
    (hd : p.htmlRawDocument = buf) (node : HTMLNode) :
    Within buf p (p.parseTag node).2.1 := by
  by_cases h0 : p.parserState = 0
  · rw [parseTag_ok h0]
    have h1 := pushResetState_fwd hin
    exact Within.via_fwd hd (h1.trans (parseTagName_fwd (h1.inBuf hin)).1)
  · unfold HTMLParser.parseTag
    rw [if_pos (badState_true h0)]
    exact Within.via_fwd hd (Fwd.refl hin)

theorem parseInternal_within {p : HTMLParser} {buf : CString} (hin : InBuf p)
    (hd : p.htmlRawDocument = buf) (k : Nat) (node : HTMLNode)
    (r : Int × HTMLParser × HTMLNode) (h : parseInternal k p node = some r) :
    Within buf p r.2.1 := by
  by_cases h0 : p.parserState = 0
  · have ho := ((parseInternal_outcome k).1 _ _ _ hin h0 h).span hin
    rw [hd] at ho
    exact ho
  · cases k with
    | zero =>
      rw [parseInternal] at h
      cases h
    | succ k =>
      rw [parseInternal_succ, badState_true h0, if_pos rfl] at h
      cases h
      exact Within.via_fwd hd (Fwd.refl hin)

/-- C19. On every buffer the parse returns with the cursor inside the buffer, and in
every state `p` on the buffer whose cursor is inside it: `readChar` reads the character
at the cursor only when the cursor is before the end and leaves the cursor inside; the
`putback(1)` that follows a read gives back the offset before the read, and the decrement
of `skipUntilNot`, called with a character available, is applied to a cursor of at least
1 (no rewind wraps around); `skipUntilNot`, `skipUntil`, `skipEmptyChars`,
`parseTextContent`, `parseTagName`, `parseTag`, `parseInternal` and its loop all return
with the cursor inside the buffer and not before the one they started with. -/
theorem cursor_stays_in_buffer (buf : CString) (hl : buf.length < SIZE_MOD) :
    (∃ p, parseBuffer buf = some p ∧ p.readingPos ≤ buf.length) ∧
    ∀ p : HTMLParser, p.htmlRawDocument = buf → p.readingPos ≤ buf.length →
      (∀ a, Within buf p (p.readChar a).2 ∧
        (p.readChar a).1 =
          if p.readingPos < buf.length then buf.getD p.readingPos EOF_CHAR
          else EOF_CHAR) ∧
      (p.available = true →
        (p.readChar true).2.readingPos = p.readingPos + 1 ∧
        ((p.readChar true).2.putback 1).readingPos = p.readingPos) ∧
      (∀ c, p.available = true →
        p.readingPos + 1 ≤ (skipUntilNotLoop (p.rawLen - p.readingPos) p c).readingPos ∧
        (p.skipUntilNot c).readingPos + 1 =
          (skipUntilNotLoop (p.rawLen - p.readingPos) p c).readingPos ∧
        Within buf p (p.skipUntilNot c)) ∧
      (∀ c, Within buf p (p.skipUntil c)) ∧
      Within buf p p.skipEmptyChars ∧
      (∀ node, Within buf p (p.parseTextContent node).2.1) ∧
      Within buf p p.parseTagName.2.2 ∧
      (∀ node, Within buf p (p.parseTag node).2.1) ∧
      (∀ k node r, parseInternal k p node = some r → Within buf p r.2.1) ∧
      (∀ k node f r, p.parserState = 0 → parseInternalLoop k p node f = some r →
        Within buf p r.2.1) := by
  constructor
  · obtain ⟨r, hr, -⟩ := parseBuffer_total buf hl
    have hin : InBuf (startState buf) := (startState_cur buf hl).toInBuf
    have hw := parseInternal_within hin rfl _ _ _ hr
    rw [parseBuffer_eq, hr]
    exact ⟨_, rfl, hw.2.2⟩
  · intro p hd hb
    have hin : InBuf p := ⟨by rw [hd]; exact hl, by rw [hd]; exact hb⟩
    refine ⟨readChar_within hin hd, ?_, skipUntilNot_within hin hd, ?_, ?_,
      parseTextContent_within hin hd, ?_, parseTag_within hin hd,
      parseInternal_within hin hd, ?_⟩
    · intro ha
      exact ⟨readChar_pos p hin.fits ha, readChar_putback_pos hin ha⟩
    · intro c
      exact Within.via_fwd hd (skipUntil_fwd c hin)
    · exact Within.via_fwd hd (skipEmptyChars_fwd hin)
    · exact Within.via_fwd hd (parseTagName_fwd hin).1
    · intro k node f r h0 h
      have ho := ((parseInternal_outcome k).2 _ _ _ _ hin h0 h).span hin
      rw [hd] at ho
      exact ho

/-- Witness of C19: a buffer whose parse rewinds over blanks and ends in error. -/
theorem cursor_stays_in_buffer_witness :
    "<a> \n</b>".toList.length < SIZE_MOD ∧
    ∃ p, parseBuffer "<a> \n</b>".toList = some p ∧
      p.readingPos ≤ "<a> \n</b>".toList.length :=
  ⟨by decide, (cursor_stays_in_buffer "<a> \n</b>".toList (by decide)).1⟩

/-! ## The position of the diagnostic -/

/-- C12: the parse of `<a></b>` ends with error code `-2` at offset 5, on the only line
of the buffer, 5 characters after its start, and the diagnostic position is line 1,
column 6; the parse of `<a> \n</b>` ends at offset 7, which is on line 2, 2 characters
after the newline, and the diagnostic position is line 3, column 3.  The rewind `putback`
moves the offset back and leaves line and column as they are. -/
theorem diagnostic_position_drifts :
    (parseBuffer "<a></b>".toList).map
        (fun p => (p.parserState, p.readingPos, p.currentLine, p.currentCol))
      = some (-2, 5, 1, 6) ∧
    lineOf "<a></b>".toList 5 = 1 ∧ colOf "<a></b>".toList 5 = 5 ∧
    (parseBuffer "<a> \n</b>".toList).map
        (fun p => (p.parserState, p.readingPos, p.currentLine, p.currentCol))
      = some (-2, 7, 3, 3) ∧
    lineOf "<a> \n</b>".toList 7 = 2 ∧ colOf "<a> \n</b>".toList 7 = 2 ∧
    (∀ (p : HTMLParser) (n : Nat),
      (p.putback n).line = p.line ∧ (p.putback n).colmn = p.colmn) :=
  ⟨by decide, by decide, by decide, by decide, by decide, by decide,
    fun _ _ => ⟨rfl, rfl⟩⟩


/-! ## Parent and children of the nodes in memory -/

theorem removeNode_children (h : Heap) (this c x : Nat) :
    ((Heap.removeNode h this (some c)).2 x).children =
      if x = this then (h this).children.erase c else (h x).children := by
  unfold Heap.removeNode Heap.set
  by_cases h1 : x = this
  · subst h1
    by_cases h2 : x = c
    · subst h2
      simp
    · simp [h2]
  · by_cases h2 : x = c
    · subst h2
      simp [h1]
    · simp [h1, h2]

theorem removeNode_parent (h : Heap) (this c x : Nat) :
    ((Heap.removeNode h this (some c)).2 x).parent =
      if x = c then none else (h x).parent := by
  unfold Heap.removeNode Heap.set
  by_cases h1 : x = this
  · subst h1
    by_cases h2 : x = c
    · subst h2
      simp
    · simp [h2]
  · by_cases h2 : x = c
    · subst h2
      simp [h1]
    · simp [h1, h2]

theorem appendNode_children (h : Heap) (this c x : Nat) :
    ((Heap.appendNode h this (some c)).2 x).children =
      if x = this then (Heap.detach h this c this).children ++ [c]
      else (Heap.detach h this c x).children := by
  unfold Heap.appendNode Heap.set
  dsimp only
  generalize Heap.detach h this c = g
  by_cases h1 : x = this
  · subst h1
    by_cases h2 : x = c
    · subst h2
      simp
    · simp [h2]
  · by_cases h2 : x = c
    · subst h2
      simp [h1]
    · simp [h1, h2]

theorem appendNode_parent (h : Heap) (this c x : Nat) :
    ((Heap.appendNode h this (some c)).2 x).parent =
      if x = c then some this else (Heap.detach h this c x).parent := by
  unfold Heap.appendNode Heap.set
  dsimp only
  generalize Heap.detach h this c = g
  by_cases h1 : x = this
  · subst h1
    by_cases h2 : x = c
    · subst h2
      simp
    · simp [h2]
  · by_cases h2 : x = c
    · subst h2
      simp [h1]
    · simp [h1, h2]

theorem Consistent.not_mem_erase {h : Heap} (hc : Consistent h) (x c : Nat) :
    c ∉ (h x).children.erase c := by
  intro hm
  have h1 : c ∈ (h x).children := List.mem_of_mem_erase hm
  have h2 := (hc x c h1).2.2
  have h3 : ((h x).children.erase c).count c = 0 := by
    rw [List.count_erase_self, h2]
  exact (List.count_eq_zero.1 h3) hm

/-- Removing `c` from the node `this` keeps the consistency when no other node lists
`c`; afterwards `c` has no parent and no node lists it. -/
theorem removeNode_consistent {h : Heap} (hc : Consistent h) (this c : Nat)
    (hno : ∀ y, c ∈ (h y).children → y = this) :
    Consistent (Heap.removeNode h this (some c)).2 ∧
    ((Heap.removeNode h this (some c)).2 c).parent = none ∧
    ∀ y, c ∉ ((Heap.removeNode h this (some c)).2 y).children := by
  have hsub : ∀ x d, d ∈ ((Heap.removeNode h this (some c)).2 x).children →
      d ∈ (h x).children ∧ d ≠ c := by
    intro x d hd
    rw [removeNode_children] at hd
    by_cases hx : x = this
    · rw [if_pos hx] at hd
      subst hx
      refine ⟨List.mem_of_mem_erase hd, ?_⟩
      rintro rfl
      exact hc.not_mem_erase _ _ hd
    · rw [if_neg hx] at hd
      refine ⟨hd, ?_⟩
      rintro rfl
      exact hx (hno _ hd)
  refine ⟨?_, ?_, ?_⟩
  · intro x d hd
    obtain ⟨hm, hne⟩ := hsub x d hd
    obtain ⟨h1, h2, h3⟩ := hc x d hm
    refine ⟨?_, ?_, ?_⟩
    · rw [removeNode_parent, if_neg hne]
      exact h1
    · intro y hy
      exact h2 y (hsub y d hy).1
    · rw [removeNode_children]
      by_cases hx : x = this
      · rw [if_pos hx]
        subst hx
        rw [List.count_erase_of_ne hne]
        exact h3
      · rw [if_neg hx]
        exact h3
  · rw [removeNode_parent, if_pos rfl]
  · intro y hy
    exact (hsub y c hy).2 rfl


theorem detach_none (h : Heap) (this c : Nat) (hp : (h c).parent = none) :
    Heap.detach h this c = h := by
  unfold Heap.detach
  rw [hp]

theorem detach_same (h : Heap) (this c : Nat) (hp : (h c).parent = some this) :
    Heap.detach h this c = h := by
  unfold Heap.detach
  rw [hp]
  simp

theorem detach_other (h : Heap) (this c par : Nat) (hp : (h c).parent = some par)
    (hne : par ≠ this) :
    Heap.detach h this c = (Heap.removeNode h par (some c)).2 := by
  unfold Heap.detach
  rw [hp]
  simp [hne]

theorem detach_spec {h : Heap} (hc : Consistent h) (this c : Nat)
    (hnot : c ∉ (h this).children) :
    Consistent (Heap.detach h this c) ∧ (∀ y, c ∉ (Heap.detach h this c y).children) ∧
    (Heap.detach h this c this).children = (h this).children := by
  cases hp : (h c).parent with
  | none =>
    rw [detach_none h this c hp]
    refine ⟨hc, fun y hy => ?_, rfl⟩
    rw [(hc y c hy).1] at hp
    cases hp
  | some par =>
    by_cases hne : par = this
    · subst hne
      rw [detach_same h par c hp]
      refine ⟨hc, fun y hy => ?_, rfl⟩
      have := (hc y c hy).1
      rw [hp] at this
      cases this
      exact hnot hy
    · rw [detach_other h this c par hp hne]
      have hno : ∀ y, c ∈ (h y).children → y = par := by
        intro y hy
        have := (hc y c hy).1
        rw [hp] at this
        exact (Option.some.inj this).symm
      obtain ⟨h1, -, h3⟩ := removeNode_consistent hc par c hno
      refine ⟨h1, h3, ?_⟩
      rw [removeNode_children, if_neg (Ne.symm hne)]

theorem pushBack_consistent (h : Heap) (this c : Nat)
    (hg : Consistent (Heap.detach h this c))
    (hno : ∀ y, c ∉ (Heap.detach h this c y).children) :
    Consistent (Heap.appendNode h this (some c)).2 := by
  have hmem : ∀ x d, d ∈ ((Heap.appendNode h this (some c)).2 x).children →
      (d ∈ (Heap.detach h this c x).children ∧ d ≠ c) ∨ (x = this ∧ d = c) := by
    intro x d hd
    rw [appendNode_children] at hd
    by_cases hx : x = this
    · rw [if_pos hx] at hd
      rcases List.mem_append.1 hd with hd | hd
      · subst hx
        exact Or.inl ⟨hd, fun e => hno _ (e ▸ hd)⟩
      · exact Or.inr ⟨hx, List.mem_singleton.1 hd⟩
    · rw [if_neg hx] at hd
      exact Or.inl ⟨hd, fun e => hno _ (e ▸ hd)⟩
  intro x d hd
  rcases hmem x d hd with ⟨hm, hne⟩ | ⟨rfl, rfl⟩
  · obtain ⟨h1, h2, h3⟩ := hg x d hm
    refine ⟨?_, ?_, ?_⟩
    · rw [appendNode_parent, if_neg hne]
      exact h1
    · intro y hy
      rcases hmem y d hy with ⟨hm2, -⟩ | ⟨-, e⟩
      · exact h2 y hm2
      · exact absurd e hne
    · rw [appendNode_children]
      by_cases hx : x = this
      · rw [if_pos hx]
        subst hx
        rw [List.count_append, h3, List.count_eq_zero.2 (by simpa using hne)]
      · rw [if_neg hx]
        exact h3
  · refine ⟨?_, ?_, ?_⟩
    · rw [appendNode_parent, if_pos rfl]
    · intro y hy
      rcases hmem y d hy with ⟨hm2, -⟩ | ⟨e, -⟩
      · exact absurd hm2 (hno y)
      · exact e
    · rw [appendNode_children, if_pos rfl, List.count_append,
        List.count_eq_zero.2 (hno x)]
      simp

/-- Appending `c` to the node `this`, which does not list it yet, keeps the memory
consistent and makes `c` the last child of `this`. -/
theorem appendNode_consistent {h : Heap} (hc : Consistent h) (this c : Nat)
    (hnot : c ∉ (h this).children) :
    Consistent (Heap.appendNode h this (some c)).2 ∧
    ((Heap.appendNode h this (some c)).2 this).children = (h this).children ++ [c] ∧
    ((Heap.appendNode h this (some c)).2 c).parent = some this := by
  obtain ⟨h1, h2, h3⟩ := detach_spec hc this c hnot
  refine ⟨pushBack_consistent h this c h1 h2, ?_, ?_⟩
  · rw [appendNode_children, if_pos rfl, h3]
  · rw [appendNode_parent, if_pos rfl]

theorem emptyHeap_consistent : Consistent emptyHeap := by
  intro x c hm
  cases hm


/-- C16, as stated, fails: in the memory without links, `appendNode` of node 1 on node 0
gives a consistent memory in which node 1 is the child of node 0 and has parent 0; the
same call once more lists node 1 twice in the children of node 0. -/
theorem append_twice_duplicates :
    Consistent (Heap.appendNode emptyHeap 0 (some 1)).2 ∧
    ((Heap.appendNode emptyHeap 0 (some 1)).2 0).children = [1] ∧
    ((Heap.appendNode emptyHeap 0 (some 1)).2 1).parent = some 0 ∧
    ((Heap.appendNode (Heap.appendNode emptyHeap 0 (some 1)).2 0 (some 1)).2 0).children
      = [1, 1] ∧
    ¬ Consistent (Heap.appendNode (Heap.appendNode emptyHeap 0 (some 1)).2 0 (some 1)).2 := by
  have e : ((Heap.appendNode (Heap.appendNode emptyHeap 0 (some 1)).2 0 (some 1)).2
      0).children = [1, 1] := by decide
  refine ⟨(appendNode_consistent emptyHeap_consistent 0 1 (by decide)).1, by decide,
    by decide, e, fun hc => ?_⟩
  have h3 := (hc 0 1 (by rw [e]; decide)).2.2
  rw [e] at h3
  exact absurd h3 (by decide)

/-- C16, amended. In a consistent memory: `appendNode(child)` on a node that does not
list `child` yet keeps the memory consistent and makes `child` the last child of the
node, with the node as its parent; `removeNode(child)` on a node, when no other node
lists `child`, keeps the memory consistent and leaves `child` without parent, listed
nowhere; and `appendNode(child)` on a node other than the parent of `child` erases
`child` from the children of that parent and makes it the last child of the node, listed
once (a move). -/
theorem node_operations_consistent (h : Heap) (hc : Consistent h) (this c : Nat) :
    (c ∉ (h this).children →
      Consistent (Heap.appendNode h this (some c)).2 ∧
      ((Heap.appendNode h this (some c)).2 this).children = (h this).children ++ [c] ∧
      ((Heap.appendNode h this (some c)).2 c).parent = some this) ∧
    ((∀ y, c ∈ (h y).children → y = this) →
      Consistent (Heap.removeNode h this (some c)).2 ∧
      ((Heap.removeNode h this (some c)).2 c).parent = none ∧
      ∀ y, c ∉ ((Heap.removeNode h this (some c)).2 y).children) ∧
    (∀ par, (h c).parent = some par → par ≠ this →
      Consistent (Heap.appendNode h this (some c)).2 ∧
      ((Heap.appendNode h this (some c)).2 par).children = (h par).children.erase c ∧
      c ∉ ((Heap.appendNode h this (some c)).2 par).children ∧
      ((Heap.appendNode h this (some c)).2 this).children = (h this).children ++ [c] ∧
      ((Heap.appendNode h this (some c)).2 this).children.count c = 1 ∧
      ((Heap.appendNode h this (some c)).2 c).parent = some this) := by
  refine ⟨appendNode_consistent hc this c, removeNode_consistent hc this c, ?_⟩
  intro par hp hne
  have hnot : c ∉ (h this).children := by
    intro hm
    have := (hc this c hm).1
    rw [hp] at this
    exact hne (Option.some.inj this)
  obtain ⟨h1, h2, h3⟩ := appendNode_consistent hc this c hnot
  have e : ((Heap.appendNode h this (some c)).2 par).children = (h par).children.erase c := by
    rw [appendNode_children, if_neg hne, detach_other h this c par hp hne,
      removeNode_children, if_pos rfl]
  refine ⟨h1, e, ?_, h2, ?_, h3⟩
  · rw [e]
    exact hc.not_mem_erase par c
  · exact (h1 this c (by rw [h2]; simp)).2.2

/-- Witness of C16, amended: node 1, child of node 0, is appended to node 2. -/
theorem node_operations_consistent_witness :
    Consistent (Heap.appendNode emptyHeap 0 (some 1)).2 ∧
    ((Heap.appendNode emptyHeap 0 (some 1)).2 1).parent = some 0 ∧
    Consistent (Heap.appendNode (Heap.appendNode emptyHeap 0 (some 1)).2 2 (some 1)).2 ∧
    ((Heap.appendNode (Heap.appendNode emptyHeap 0 (some 1)).2 2 (some 1)).2 0).children
      = [] ∧
    ((Heap.appendNode (Heap.appendNode emptyHeap 0 (some 1)).2 2 (some 1)).2 2).children
      = [1] :=
  ⟨(appendNode_consistent emptyHeap_consistent 0 1 (by decide)).1, by decide,
    ((node_operations_consistent (Heap.appendNode emptyHeap 0 (some 1)).2
      (appendNode_consistent emptyHeap_consistent 0 1 (by decide)).1 2 1).2.2 0
        (by decide) (by decide)).1,
    by decide, by decide⟩

end HtmlParser
